import Mathlib

/-
Verification development for the maneuver scheduling core
(problem model, forward simulator, evaluator, feasibility checker,
neighborhoods, local-search drivers, ILS perturbation, greedy constructor).

Doubles are modelled as extended rationals: a finite rational or +infinity.
The comparator mirrors `common::compare` including its behaviour on
infinities (|inf - inf| is NaN in IEEE arithmetic, so the comparison
`NaN < THRESHOLD` is false and `inf < inf` is false, giving result 1).
-/

namespace ORCS

/-- Addition on rationals via `mkRat`, so that it evaluates by kernel
reduction (`Rat.add` is irreducible in the ambient library). -/
def qadd (a b : ℚ) : ℚ := mkRat (a.num * b.den + b.num * a.den) (a.den * b.den)

theorem qadd_eq_add (a b : ℚ) : qadd a b = a + b := by
  unfold qadd
  rw [Rat.mkRat_eq_divInt]
  conv_rhs => rw [← Rat.num_divInt_den a, ← Rat.num_divInt_den b]
  rw [Rat.divInt_add_divInt _ _ (by exact_mod_cast a.den_ne_zero)
    (by exact_mod_cast b.den_ne_zero)]
  push_cast
  ring_nf

/-- Subtraction on rationals via `mkRat`, for the same reason. -/
def qsub (a b : ℚ) : ℚ := mkRat (a.num * b.den - b.num * a.den) (a.den * b.den)

theorem qsub_eq_sub (a b : ℚ) : qsub a b = a - b := by
  unfold qsub
  rw [Rat.mkRat_eq_divInt]
  conv_rhs => rw [← Rat.num_divInt_den a, ← Rat.num_divInt_den b]
  rw [Rat.divInt_sub_divInt _ _ (by exact_mod_cast a.den_ne_zero)
    (by exact_mod_cast b.den_ne_zero)]
  push_cast
  ring_nf

/-- Extended value: a finite rational or plus infinity (the sentinel used by
the C++ code via `std::numeric_limits<double>::infinity()`). -/
inductive D where
  | fin (q : ℚ)
  | inf
deriving DecidableEq, Repr

/-- Addition on extended values; anything plus infinity is infinity,
matching IEEE double arithmetic for the operations the code performs. -/
def D.add : D → D → D
  | D.fin a, D.fin b => D.fin (qadd a b)
  | _, _ => D.inf

instance : Add D := ⟨D.add⟩

/-- `std::max` on rationals, written as the conditional `(a < b) ? b : a`
so that it evaluates by kernel reduction. -/
def qmax (a b : ℚ) : ℚ := if a < b then b else a

theorem qmax_eq_max (a b : ℚ) : qmax a b = max a b := by
  unfold qmax
  split
  · exact (max_eq_right (le_of_lt (by assumption))).symm
  · exact (max_eq_left (le_of_not_lt (by assumption))).symm

/-- `std::max` on extended values. -/
def D.dmax : D → D → D
  | D.fin a, D.fin b => D.fin (qmax a b)
  | _, _ => D.inf

/-- Order on extended values (used to state claims; the code itself only
uses the epsilon comparator below). -/
def D.le : D → D → Prop
  | _, D.inf => True
  | D.inf, D.fin _ => False
  | D.fin a, D.fin b => a ≤ b

instance : LE D := ⟨D.le⟩

instance D.decLe : ∀ a b : D, Decidable (a ≤ b)
  | D.fin _, D.inf => isTrue trivial
  | D.inf, D.inf => isTrue trivial
  | D.inf, D.fin _ => isFalse id
  | D.fin a, D.fin b => inferInstanceAs (Decidable (a ≤ b))

/-- `std::abs` on rationals, written as a conditional so that it evaluates
by kernel reduction. -/
def qabs (q : ℚ) : ℚ := if q < 0 then -q else q

theorem qabs_eq_abs (q : ℚ) : qabs q = |q| := by
  unfold qabs
  split
  · exact (abs_of_neg (by assumption)).symm
  · exact (abs_of_nonneg (le_of_not_lt (by assumption))).symm

/-- `common::THRESHOLD` = 1e-5. -/
def eps : ℚ := mkRat 1 100000

/-- `common::compare` on scalars.  On two finite values it is the
epsilon-tolerant three-way comparison; with infinities it reproduces the
IEEE behaviour of the C++ code: `|a - inf| = inf` is not below the
threshold and `a < inf` holds, so the result is -1; symmetrically
`compare(inf, b) = 1`; and `compare(inf, inf) = 1` because
`|inf - inf| = NaN` fails the threshold test and `inf < inf` is false. -/
def compareD : D → D → Int
  | D.fin a, D.fin b => if qabs (qsub a b) < eps then 0 else if a < b then -1 else 1
  | D.fin _, D.inf => -1
  | D.inf, D.fin _ => 1
  | D.inf, D.inf => 1

/-- `common::less` on scalars. -/
def lessD (a b : D) : Bool := compareD a b = -1

/-- The tuple comparator `common::compare` on (makespan, sum_completions)
pairs: lexicographic, short-circuiting on the first nonzero scalar result. -/
def compareT (x y : D × D) : Int :=
  if compareD x.1 y.1 ≠ 0 then compareD x.1 y.1 else compareD x.2 y.2

/-- `common::less` on evaluation tuples. -/
def lessT (x y : D × D) : Bool := compareT x y = -1

/-- `orcs::Technology`. -/
inductive Technology where
  | UNKNOWN
  | MANUAL
  | REMOTE
deriving DecidableEq, Repr

/-- `orcs::Problem` (immutable instance data).  Switch operations are
indexed 1..n, teams 1..m, index 0 is the dummy team / depot.  The
precedence closure matrix is not needed by the verified components. -/
structure Problem where
  n : ℕ
  m : ℕ
  technology : ℕ → Technology
  p : ℕ → ℚ
  s : ℕ → ℕ → ℕ → ℚ
  predecessors : ℕ → List ℕ
  successors : ℕ → List ℕ

/-- `orcs::Schedule`: m+1 lanes of switch IDs; lane 0 is the dummy team. -/
def Schedule := List (List ℕ)

instance : DecidableEq Schedule := inferInstanceAs (DecidableEq (List (List ℕ)))

instance : Membership (List ℕ) Schedule := inferInstanceAs (Membership (List ℕ) (List (List ℕ)))

/-- Lane access (`schedule[l]`); out-of-range reads give the empty lane,
which is only used where the C++ code never reads out of range. -/
def laneOf (sched : Schedule) (l : ℕ) : List ℕ := sched.getD l []

/-- State of the forward simulator `Problem::start_time`. -/
structure SimState where
  t : ℕ → D
  index : ℕ → ℕ
  location : ℕ → ℕ
  pendings : ℕ → Int
  count : ℕ

/-- The operations scanned by the initialisation loop of `start_time`
(lanes 0..m, in order). -/
def scannedOps (P : Problem) (sched : Schedule) : List ℕ :=
  ((List.range (P.m + 1)).map (laneOf sched)).flatten

/-- Initial simulator state: `t[0] = 0`, all other start times +infinity,
indices and locations 0, and `pendings[j] = |predecessors(j)|` for every
operation present in lanes 0..m. -/
def initState (P : Problem) (sched : Schedule) : SimState where
  t := fun i => if i = 0 then D.fin 0 else D.inf
  index := fun _ => 0
  location := fun _ => 0
  pendings := fun j =>
    if (scannedOps P sched).contains j then ((P.predecessors j).length : Int) else 0
  count := 0

/-- Release the head operation `j` of lane `l`: compute its start time from
the team's current location (for manual lanes) raised to its predecessors'
completions, advance the lane index, move the team to `j`, decrement the
pending counters of the successors of `j`, and count the release.  The C++
code reads the running value of `t[j]` inside the predecessor loop, which
only matters when `j` is its own predecessor, hence the inner conditional. -/
def releaseAt (P : Problem) (sched : Schedule) (st : SimState) (l : ℕ) : SimState :=
  let ln := laneOf sched l
  let j := ln.getD (st.index l) 0
  let i := st.location l
  let base : D := if l ≠ 0 then st.t i + D.fin (P.p i) + D.fin (P.s i j l) else D.fin 0
  let tj : D := (P.predecessors j).foldl
    (fun v k => D.dmax v ((if k = j then v else st.t k) + D.fin (P.p k))) base
  { t := Function.update st.t j tj
    index := Function.update st.index l (st.index l + 1)
    location := Function.update st.location l j
    pendings := (P.successors j).foldl
      (fun pd k => Function.update pd k (pd k - 1)) st.pendings
    count := st.count + 1 }

/-- One visit of lane `l` inside a simulator round: release the head
operation if its pending counter is zero.  The Boolean accumulates the
`feasibility` (progress) flag of the round. -/
def laneVisit (P : Problem) (sched : Schedule) (acc : SimState × Bool) (l : ℕ) :
    SimState × Bool :=
  if acc.1.index l < (laneOf sched l).length then
    if acc.1.pendings ((laneOf sched l).getD (acc.1.index l) 0) = 0 then
      (releaseAt P sched acc.1 l, true)
    else acc
  else acc

/-- One round of the simulator: scan every lane 0..m once. -/
def simRound (P : Problem) (sched : Schedule) (st : SimState) : SimState × Bool :=
  (List.range (P.m + 1)).foldl (laneVisit P sched) (st, false)

/-- The simulator loop `while (count < n && feasibility)`, written with an
explicit fuel for computability; `simLoopF_fuel_high` below shows that any
fuel above `P.n` gives the loop's true exit state, so `start_time` (which
uses fuel `P.n + 1`) is the C++ semantics. -/
def simLoopF (P : Problem) (sched : Schedule) : ℕ → SimState → SimState
  | 0, st => st
  | fuel + 1, st =>
    if st.count < P.n then
      let r := simRound P sched st
      if r.2 = true then simLoopF P sched fuel r.1 else r.1
    else st

/-- `Problem::start_time`. -/
def start_time (P : Problem) (sched : Schedule) : ℕ → D :=
  (simLoopF P sched (P.n + 1) (initState P sched)).t

/-- `Problem::makespan`: max over i in 1..n of t[i] + p[i], starting at 0. -/
def makespan (P : Problem) (sched : Schedule) : D :=
  let t := start_time P sched
  (List.range' 1 P.n).foldl (fun acc i => D.dmax acc (t i + D.fin (P.p i))) (D.fin 0)

/-- Completion time of the last operation of a lane
(`t[last(l)] + p[last(l)]`, read with the same indexing as the source). -/
def laneCompletion (P : Problem) (t : ℕ → D) (ln : List ℕ) : D :=
  t (ln.getD (ln.length - 1) 0) + D.fin (P.p (ln.getD (ln.length - 1) 0))

/-- One step of the manual-lane loop of `common::evaluate`: skip empty
lanes, otherwise extend the running makespan and the completion sum with the
lane's last completion. -/
def evalManStep (P : Problem) (sched : Schedule) (t : ℕ → D) (acc : D × D) (l : ℕ) :
    D × D :=
  if (laneOf sched l).isEmpty then acc
  else (D.dmax acc.1 (laneCompletion P t (laneOf sched l)),
        acc.2 + laneCompletion P t (laneOf sched l))

/-- `common::evaluate`: the (makespan, sum_completions) pair computed from
the last operation of each non-empty manual lane and all lane-0 operations. -/
def evaluate (P : Problem) (sched : Schedule) : D × D :=
  let t := start_time P sched
  let man := (List.range' 1 P.m).foldl (evalManStep P sched t) (D.fin 0, D.fin 0)
  let mk := (laneOf sched 0).foldl (fun acc i => D.dmax acc (t i + D.fin (P.p i))) man.1
  (mk, man.2)

/-- `Problem::is_feasible`: lane count, ID range, partition, technology
routing, and the precedence test `!less(t[j], t[i])` on the simulated start
times (the C++ checks run in this order; the result is their conjunction). -/
def is_feasible (P : Problem) (sched : Schedule) : Bool :=
  (sched.length = P.m + 1 : Bool)
    && sched.all (fun ln => ln.all (fun i => 1 ≤ i && i ≤ P.n))
    && (List.range' 1 P.n).all (fun i => sched.flatten.count i = 1)
    && (laneOf sched 0).all (fun i => P.technology i = Technology.REMOTE)
    && (List.range' 1 P.m).all
        (fun l => (laneOf sched l).all (fun i => P.technology i = Technology.MANUAL))
    && (List.range' 1 P.n).all
        (fun j => (P.predecessors j).all
          (fun i => !(lessD (start_time P sched j) (start_time P sched i))))

/-- Replace lane `l` of a schedule. -/
def setLane (sched : Schedule) (l : ℕ) (ln : List ℕ) : Schedule := sched.set l ln

/-- The `Shift` move: remove the operation at `io` in lane `l` and reinsert
it at `it`. -/
def shiftMove (sched : Schedule) (l io it : ℕ) : Schedule :=
  let ln := laneOf sched l
  setLane sched l (((ln.eraseIdx io).insertIdx it (ln.getD io 0)))

/-- All `Shift` neighbors in the enumeration order of `Shift::best`
(lane 0..m, origin index, target index ≠ origin). -/
def shiftNeighbors (P : Problem) (sched : Schedule) : List Schedule :=
  (List.range (P.m + 1)).flatMap fun l =>
    (List.range (laneOf sched l).length).flatMap fun io =>
      ((List.range (laneOf sched l).length).filter (fun it => it ≠ io)).map fun it =>
        shiftMove sched l io it

/-- The `Exchange` move: swap positions `i1` and `i2` of lane `l`. -/
def exchangeMove (sched : Schedule) (l i1 i2 : ℕ) : Schedule :=
  let ln := laneOf sched l
  setLane sched l ((ln.set i1 (ln.getD i2 0)).set i2 (ln.getD i1 0))

/-- All `Exchange` neighbors in the enumeration order of `Exchange::best`
(lane 0..m of size at least 2, i1 < i2). -/
def exchangeNeighbors (P : Problem) (sched : Schedule) : List Schedule :=
  (List.range (P.m + 1)).flatMap fun l =>
    if 2 ≤ (laneOf sched l).length then
      (List.range ((laneOf sched l).length - 1)).flatMap fun i1 =>
        ((List.range (laneOf sched l).length).filter (fun i2 => i1 < i2)).map fun i2 =>
          exchangeMove sched l i1 i2
    else []

/-- The `Reassignment` move: remove the operation at `io` in lane `lo` and
insert it at `it` in lane `lt` (with `lt ≠ lo`). -/
def reassignMove (sched : Schedule) (lo io lt it : ℕ) : Schedule :=
  let i := (laneOf sched lo).getD io 0
  setLane (setLane sched lo ((laneOf sched lo).eraseIdx io)) lt
    ((laneOf sched lt).insertIdx it i)

/-- All `Reassignment` neighbors in the enumeration order of
`Reassignment::best` (origin lane 1..m, origin index, target lane 1..m
distinct from the origin, target index 0..|lane|). -/
def reassignNeighbors (P : Problem) (sched : Schedule) : List Schedule :=
  (List.range' 1 P.m).flatMap fun lo =>
    (List.range (laneOf sched lo).length).flatMap fun io =>
      ((List.range' 1 P.m).filter (fun lt => lt ≠ lo)).flatMap fun lt =>
        (List.range ((laneOf sched lt).length + 1)).map fun it =>
          reassignMove sched lo io lt it

/-- The `DirectSwap` move: swap the operations at `(l1, i1)` and `(l2, i2)`. -/
def directSwapMove (sched : Schedule) (l1 i1 l2 i2 : ℕ) : Schedule :=
  let a := (laneOf sched l1).getD i1 0
  let b := (laneOf sched l2).getD i2 0
  setLane (setLane sched l1 ((laneOf sched l1).set i1 b)) l2
    ((laneOf sched l2).set i2 a)

/-- All `DirectSwap` neighbors in the enumeration order of
`DirectSwap::best` (non-empty lanes l1 < l2 in 1..m, index pairs). -/
def directSwapNeighbors (P : Problem) (sched : Schedule) : List Schedule :=
  (List.range' 1 P.m).flatMap fun l1 =>
    if 0 < (laneOf sched l1).length then
      ((List.range' 1 P.m).filter (fun l2 => l1 < l2)).flatMap fun l2 =>
        if 0 < (laneOf sched l2).length then
          (List.range (laneOf sched l1).length).flatMap fun i1 =>
            (List.range (laneOf sched l2).length).map fun i2 =>
              directSwapMove sched l1 i1 l2 i2
        else []
    else []

/-- The running-best update shared by every `best` scan: adopt the neighbor
when its evaluation is `less` than the current best evaluation. -/
def updateBest (P : Problem) (b : Schedule × (D × D)) (nb : Schedule) :
    Schedule × (D × D) :=
  let e := evaluate P nb
  if lessT e b.2 then (nb, e) else b

/-- Scan a list of neighbor schedules, keeping the running best. -/
def scanBest (P : Problem) (entry : Schedule × (D × D)) (nbs : List Schedule) :
    Schedule × (D × D) :=
  nbs.foldl (updateBest P) entry

/-- `Shift::best`. -/
def Shift_best (P : Problem) (entry : Schedule × (D × D)) : Schedule × (D × D) :=
  scanBest P entry (shiftNeighbors P entry.1)

/-- `Exchange::best`. -/
def Exchange_best (P : Problem) (entry : Schedule × (D × D)) : Schedule × (D × D) :=
  scanBest P entry (exchangeNeighbors P entry.1)

/-- `Reassignment::best`. -/
def Reassignment_best (P : Problem) (entry : Schedule × (D × D)) : Schedule × (D × D) :=
  scanBest P entry (reassignNeighbors P entry.1)

/-- `DirectSwap::best`. -/
def DirectSwap_best (P : Problem) (entry : Schedule × (D × D)) : Schedule × (D × D) :=
  scanBest P entry (directSwapNeighbors P entry.1)

/-- A neighborhood as seen by the local-search drivers: the virtual `best`
method (`Neighborhood::best`). -/
structure Neighborhood where
  best : Problem → Schedule × (D × D) → Schedule × (D × D)

instance : Inhabited Neighborhood := ⟨⟨fun _ e => e⟩⟩

/-- The `Shift` neighborhood object. -/
def ShiftN : Neighborhood := ⟨Shift_best⟩

/-- The `Exchange` neighborhood object. -/
def ExchangeN : Neighborhood := ⟨Exchange_best⟩

/-- The `Reassignment` neighborhood object. -/
def ReassignmentN : Neighborhood := ⟨Reassignment_best⟩

/-- The `DirectSwap` neighborhood object. -/
def DirectSwapN : Neighborhood := ⟨DirectSwap_best⟩

/-- Big-step semantics of `local_search::vnd` from position `k` in the
neighborhood list: `done` returns the incumbent once the pointer passes the
end; an improving `best` adopts the neighbor and resets the pointer to 0;
a non-improving `best` advances the pointer. -/
inductive VndFrom (P : Problem) (N : List Neighborhood) :
    ℕ → Schedule × (D × D) → Schedule × (D × D) → Prop where
  | done (inc : Schedule × (D × D)) : VndFrom P N N.length inc inc
  | improve (k : ℕ) (inc res : Schedule × (D × D)) (hk : k < N.length)
      (himp : lessT ((N.get ⟨k, hk⟩).best P inc).2 inc.2 = true)
      (ih : VndFrom P N 0 ((N.get ⟨k, hk⟩).best P inc) res) :
      VndFrom P N k inc res
  | skip (k : ℕ) (inc res : Schedule × (D × D)) (hk : k < N.length)
      (himp : lessT ((N.get ⟨k, hk⟩).best P inc).2 inc.2 = false)
      (ih : VndFrom P N (k + 1) inc res) :
      VndFrom P N k inc res

/-- Big-step semantics of `local_search::rvnd`.  The pool of available
neighborhoods starts as the full list; each draw removes the neighborhood at
index `g c % pool.length` (the RNG is modelled as the stream `g` with
counter `c`); an improvement adopts the neighbor and replenishes the pool to
the full list; the loop stops when the pool is empty. -/
inductive RvndFrom (P : Problem) (N : List Neighborhood) (g : ℕ → ℕ) :
    List Neighborhood → ℕ → Schedule × (D × D) → Schedule × (D × D) → Prop where
  | done (c : ℕ) (inc : Schedule × (D × D)) : RvndFrom P N g [] c inc inc
  | improve (pool : List Neighborhood) (c : ℕ) (inc res : Schedule × (D × D))
      (hne : pool ≠ [])
      (himp : lessT ((pool.getD (g c % pool.length) default).best P inc).2 inc.2 = true)
      (ih : RvndFrom P N g N (c + 1)
        ((pool.getD (g c % pool.length) default).best P inc) res) :
      RvndFrom P N g pool c inc res
  | skip (pool : List Neighborhood) (c : ℕ) (inc res : Schedule × (D × D))
      (hne : pool ≠ [])
      (himp : lessT ((pool.getD (g c % pool.length) default).best P inc).2 inc.2 = false)
      (ih : RvndFrom P N g (pool.eraseIdx (g c % pool.length)) (c + 1) inc res) :
      RvndFrom P N g pool c inc res

/-- The insertion-attempt loop of `ILS::perturb`: positions are tried in the
given (shuffled) order on the schedule with the ejected operation removed;
the first insertion whose evaluation has a finite makespan is committed.
A failed attempt erases exactly what it inserted, so each attempt starts
from the same base schedule. -/
def tryInsert (P : Problem) (base : Schedule) (lt op : ℕ) :
    List ℕ → Option (Schedule × (D × D))
  | [] => none
  | it :: rest =>
    let sched' := setLane base lt ((laneOf base lt).insertIdx it op)
    let ev := evaluate P sched'
    if ev.1 ≠ D.inf then some (sched', ev) else tryInsert P base lt op rest

/-- One ejection-chain step of `ILS::perturb` for the lane pair
`(lo, lt)`: nothing happens when the origin lane is empty; otherwise an
operation is drawn at a position `io`, removed, and reinserted in lane `lt`
at the first feasible position of a shuffled candidate order; if no position
is feasible the operation is restored to `lo` at `io` and the evaluation
field keeps its previous value. -/
inductive PerturbStep (P : Problem) (lo lt : ℕ) :
    Schedule × (D × D) → Schedule × (D × D) → Prop where
  | empty (e : Schedule × (D × D)) (h : laneOf e.1 lo = []) : PerturbStep P lo lt e e
  | moved (e res : Schedule × (D × D)) (io : ℕ) (order : List ℕ)
      (hio : io < (laneOf e.1 lo).length)
      (hperm : order.Perm (List.range
        ((laneOf (setLane e.1 lo ((laneOf e.1 lo).eraseIdx io)) lt).length + 1)))
      (hres : res =
        (match tryInsert P (setLane e.1 lo ((laneOf e.1 lo).eraseIdx io)) lt
            ((laneOf e.1 lo).getD io 0) order with
         | some r => r
         | none =>
           (setLane (setLane e.1 lo ((laneOf e.1 lo).eraseIdx io)) lo
             ((laneOf (setLane e.1 lo ((laneOf e.1 lo).eraseIdx io)) lo).insertIdx io
               ((laneOf e.1 lo).getD io 0)), e.2))) :
      PerturbStep P lo lt e res

/-- The ejection chain applied along a list of `(l_origin, l_target)` pairs. -/
inductive PerturbPairs (P : Problem) :
    List (ℕ × ℕ) → Schedule × (D × D) → Schedule × (D × D) → Prop where
  | nil (e : Schedule × (D × D)) : PerturbPairs P [] e e
  | cons (lo lt : ℕ) (rest : List (ℕ × ℕ)) (e e' e'' : Schedule × (D × D))
      (hstep : PerturbStep P lo lt e e') (hrest : PerturbPairs P rest e' e'') :
      PerturbPairs P ((lo, lt) :: rest) e e''

/-- `ILS::perturb`: some shuffled chain of the teams 1..m is traversed, each
team ejecting into the next one cyclically (`chain[(idx+1) % size]`, i.e.
the chain zipped with its rotation by one). -/
def PerturbRel (P : Problem) (e res : Schedule × (D × D)) : Prop :=
  ∃ chain : List ℕ, chain.Perm (List.range' 1 P.m) ∧
    PerturbPairs P (chain.zip (chain.rotate 1)) e res

/-- `passes` successive applications of the perturbation
(`perturbed = perturb(incumbent)` followed by `passes - 1` re-perturbations). -/
inductive PerturbPow (P : Problem) : ℕ → Schedule × (D × D) → Schedule × (D × D) → Prop where
  | base (e e' : Schedule × (D × D)) (h : PerturbRel P e e') : PerturbPow P 1 e e'
  | step (k : ℕ) (e e' e'' : Schedule × (D × D)) (h : PerturbPow P k e e')
      (h' : PerturbRel P e' e'') : PerturbPow P (k + 1) e e''

/-- One iteration of the ILS main loop with the `vnd` local-search method,
as the source performs it: the perturbation phase produces `perturbed` from
the incumbent, and the local search is run on `start` — the initial greedy
solution kept from before the loop — exactly as in the source
(`local_search::vnd(problem, start, neighborhoods)`). -/
inductive IlsIterVnd (P : Problem) (N : List Neighborhood)
    (start incumbent : Schedule × (D × D)) (passes : ℕ) :
    Schedule × (D × D) → Schedule × (D × D) → Prop where
  | mk (perturbed trial : Schedule × (D × D))
      (hperturb : PerturbPow P passes incumbent perturbed)
      (hls : VndFrom P N 0 start trial) :
      IlsIterVnd P N start incumbent passes perturbed trial

/-- State of the `Greedy::solve` heuristic. -/
structure GreedyState where
  sched : Schedule
  t : ℕ → ℚ
  gamma : ℕ → Int
  phi : ℕ → ℕ
  mkspan : ℚ
  Sman : List ℕ
  Srem : List ℕ

/-- Initial greedy state: empty schedule with m+1 lanes, `t = 0`,
`gamma[i] = |predecessors(i)|` for i in 1..n, and the yet-to-schedule sets
split by technology (`std::set<int>` iterates ascending, so they are the
ascending lists of manual resp. remote operations). -/
def initGreedy (P : Problem) : GreedyState where
  sched := List.replicate (P.m + 1) []
  t := fun _ => 0
  gamma := fun j => if 1 ≤ j ∧ j ≤ P.n then ((P.predecessors j).length : Int) else 0
  phi := fun _ => 0
  mkspan := 0
  Sman := (List.range' 1 P.n).filter (fun i => P.technology i = Technology.MANUAL)
  Srem := (List.range' 1 P.n).filter (fun i => P.technology i = Technology.REMOTE)

/-- Schedule a ready remote operation: its start time is the max over its
predecessors of `t[i] + p[i]` (from 0), it is appended to lane 0, and the
gamma counters of its successors are decremented. -/
def scheduleRemote (P : Problem) (st : GreedyState) (j : ℕ) : GreedyState :=
  let tj := (P.predecessors j).foldl
    (fun v i => qmax v (qadd (if i = j then v else st.t i) (P.p i))) 0
  { st with
    t := Function.update st.t j tj
    gamma := (P.successors j).foldl (fun g i => Function.update g i (g i - 1)) st.gamma
    sched := setLane st.sched 0 (laneOf st.sched 0 ++ [j]) }

/-- One ascending pass over `S_remote`, scheduling every operation whose
gamma counter is zero at the moment it is visited; returns the new state and
whether any operation was processed. -/
def remotePass (P : Problem) (st : GreedyState) : GreedyState × Bool :=
  let r := st.Srem.foldl
    (fun (acc : GreedyState × List ℕ × Bool) j =>
      if acc.1.gamma j = 0 then (scheduleRemote P acc.1 j, acc.2.1, true)
      else (acc.1, acc.2.1 ++ [j], acc.2.2))
    (st, [], false)
  ({ r.1 with Srem := r.2.1 }, r.2.2)

/-- The remote drain loop: repeat `remotePass` until a pass processes
nothing (fuelled; `st.Srem.length + 1` is always enough fuel since a
progressing pass strictly shrinks `S_remote`). -/
def drainRemoteF (P : Problem) : ℕ → GreedyState → GreedyState
  | 0, st => st
  | fuel + 1, st =>
    let r := remotePass P st
    if r.2 then drainRemoteF P fuel r.1 else r.1

/-- The remote drain with adequate fuel. -/
def drainRemote (P : Problem) (st : GreedyState) : GreedyState :=
  drainRemoteF P (st.Srem.length + 1) st

/-- The earliest-start-time chooser of `Greedy::solve`: scan ready manual
operations in ascending order and teams 1..m in ascending order, keeping the
first pair that strictly lowers `t[φ[l]] + p[φ[l]] + s[φ[l]][j][l]`. -/
def chooseManual (P : Problem) (st : GreedyState) : Option (ℕ × ℕ) :=
  (st.Sman.foldl
    (fun acc j =>
      if st.gamma j = 0 then
        (List.range' 1 P.m).foldl
          (fun (acc2 : Option (ℕ × ℕ × ℚ)) l =>
            let crit := qadd (qadd (st.t (st.phi l)) (P.p (st.phi l))) (P.s (st.phi l) j l)
            match acc2 with
            | none => some (j, l, crit)
            | some x => if crit < x.2.2 then some (j, l, crit) else acc2)
          acc
      else acc)
    (none : Option (ℕ × ℕ × ℚ))).map (fun x => (x.1, x.2.1))

/-- Schedule the chosen manual operation `j` on team `l`: start time is the
travel-criterion value raised to the predecessors' completions, the
operation is appended to lane `l`, `φ[l]` and the running makespan are
updated, and `j` leaves `S_manual`. -/
def applyManual (P : Problem) (st : GreedyState) (j l : ℕ) : GreedyState :=
  let base := qadd (qadd (st.t (st.phi l)) (P.p (st.phi l))) (P.s (st.phi l) j l)
  let tj := (P.predecessors j).foldl
    (fun v i => qmax v (qadd (if i = j then v else st.t i) (P.p i))) base
  { st with
    t := Function.update st.t j tj
    gamma := (P.successors j).foldl (fun g i => Function.update g i (g i - 1)) st.gamma
    sched := setLane st.sched l (laneOf st.sched l ++ [j])
    phi := Function.update st.phi l j
    mkspan := qmax st.mkspan (qadd tj (P.p j))
    Sman := st.Sman.erase j }

/-- The main loop of `Greedy::solve` (fuelled).  `none` models the two ways
the C++ loop fails to terminate normally: remaining remote operations that
never become ready (the loop spins forever), and no ready manual operation
(the C++ code reads uninitialized `j`, `l`). -/
def greedyLoopF (P : Problem) : ℕ → GreedyState → Option GreedyState
  | 0, _ => none
  | fuel + 1, st =>
    if st.Sman.length + st.Srem.length = 0 then some st
    else
      let st₁ := drainRemote P st
      if st₁.Sman.isEmpty then
        if st₁.Srem.isEmpty then some st₁ else none
      else
        match chooseManual P st₁ with
        | none => none
        | some jl => greedyLoopF P fuel (applyManual P st₁ jl.1 jl.2)

/-- `Greedy::solve`: the schedule and the scalar makespan value it returns.
Fuel `P.n + 2` is always enough: every recursive step removes one manual
operation from `S_manual`. -/
def Greedy_solve (P : Problem) : Option (Schedule × ℚ) :=
  (greedyLoopF P (P.n + 2) (initGreedy P)).map (fun st => (st.sched, st.mkspan))

/-
Concrete instances used by counterexamples and witnesses.  Rational
constants are written with `mkRat` so that they evaluate by kernel
reduction.
-/

/-- Two remote switches, one team, precedence 1 → 2, all travel times 0. -/
def Premote2 : Problem where
  n := 2
  m := 1
  technology := fun _ => Technology.REMOTE
  p := fun _ => 1
  s := fun _ _ _ => 0
  predecessors := fun j => if j = 2 then [1] else []
  successors := fun i => if i = 1 then [2] else []

/-- Two manual switches, one team, precedence 1 → 2, all travel times 0. -/
def Pmanual2 : Problem where
  n := 2
  m := 1
  technology := fun _ => Technology.MANUAL
  p := fun _ => 1
  s := fun _ _ _ => 0
  predecessors := fun j => if j = 2 then [1] else []
  successors := fun i => if i = 1 then [2] else []

/-- One remote switch with processing time 1, one (idle) team. -/
def PallRemote : Problem where
  n := 1
  m := 1
  technology := fun i => if i = 1 then Technology.REMOTE else Technology.UNKNOWN
  p := fun i => if i = 1 then 1 else 0
  s := fun _ _ _ => 0
  predecessors := fun _ => []
  successors := fun _ => []

/-- Six switches, one team: manual operations 1..3 and remote operations
4..6, where remote operation 3+k waits on manual operation k.  The
processing and travel times are tuned so that the running-best scan of
`Shift::best` chains two epsilon-improvements whose composition is
epsilon-worse than the entry. -/
def Pshift6 : Problem where
  n := 6
  m := 1
  technology := fun i => if i ≤ 3 then Technology.MANUAL else Technology.REMOTE
  p := fun i =>
    if i = 4 then mkRat 999 100 else
    if i = 5 then mkRat 2999995 1000000 else
    if i = 6 then mkRat 5 1 else 0
  s := fun i j _ =>
    if i = 0 ∧ j = 2 then mkRat 1 100 else
    if i = 0 ∧ j = 3 then mkRat 1 1 else
    if i = 1 ∧ j = 2 then mkRat 2 1 else
    if i = 2 ∧ j = 3 then mkRat 3 1 else
    if i = 2 ∧ j = 1 then mkRat 8 1000000 else
    if i = 1 ∧ j = 3 then mkRat 3989992 1000000 else
    if i = 3 ∧ j = 1 then mkRat 50 1 else
    if i = 3 ∧ j = 2 then mkRat 3010008 1000000 else 0
  predecessors := fun j =>
    if j = 4 then [1] else if j = 5 then [2] else if j = 6 then [3] else []
  successors := fun i =>
    if i = 1 then [4] else if i = 2 then [5] else if i = 3 then [6] else []

/-- The entry solution for the `Shift::best` counterexample: lane 0 holds
the remote operations, team 1 performs 1, 2, 3 in this order; its
evaluation (10, 5) is exactly `evaluate` of its schedule. -/
def entryShift6 : Schedule × (D × D) :=
  ([[4, 5, 6], [1, 2, 3]], (D.fin (mkRat 10 1), D.fin (mkRat 5 1)))

/-- Two independent manual switches, two teams: used to exercise the
ejection chain of `ILS::perturb` across two lanes. -/
def Pmanual22 : Problem where
  n := 2
  m := 2
  technology := fun _ => Technology.MANUAL
  p := fun _ => 1
  s := fun _ _ _ => 0
  predecessors := fun _ => []
  successors := fun _ => []

/-- Entry pair for the local-search witnesses: the feasible schedule of
`Pmanual2` together with its own evaluation. -/
def vndEntry : Schedule × (D × D) :=
  ([[], [1, 2]], evaluate Pmanual2 [[], [1, 2]])

/-
Claim theorems: the purely computational counterexamples.
-/

set_option maxRecDepth 4000 in
/-- C2 (counterexample): on `Premote2` with the schedule that puts the
remote operations in lane 0 in the order 2, 1, the simulator stops with 0
of 2 operations released (a no-progress round), both start times stay
+infinity, yet `evaluate` returns (+inf, 0): the sum-of-completions
component is finite because `evaluate` sums only the manual lanes and the
deadlock is confined to lane 0.  This refutes "evaluate must return
(+inf, +inf)". -/
theorem C2_counterexample :
    (simLoopF Premote2 [[2, 1], []] (Premote2.n + 1)
        (initState Premote2 [[2, 1], []])).count < Premote2.n
    ∧ start_time Premote2 [[2, 1], []] 1 = D.inf
    ∧ start_time Premote2 [[2, 1], []] 2 = D.inf
    ∧ evaluate Premote2 [[2, 1], []] = (D.inf, D.fin 0)
    ∧ evaluate Premote2 [[2, 1], []] ≠ (D.inf, D.inf) := by
  decide

set_option maxRecDepth 4000 in
/-- C3 (failing input): on `Pmanual2` with the schedule that gives team 1
the order 2, 1 — operation 2 before its predecessor 1 on the same lane —
the simulator deadlocks (0 of 2 operations released, both start times
+infinity), yet `is_feasible` returns `true`: the precedence test
`less(t[j], t[i])` compares +inf with +inf, which `common::less` reports as
not-less, so the violated precedence goes undetected. -/
theorem C3_deadlock_reported_feasible :
    is_feasible Pmanual2 [[], [2, 1]] = true
    ∧ start_time Pmanual2 [[], [2, 1]] 1 = D.inf
    ∧ start_time Pmanual2 [[], [2, 1]] 2 = D.inf
    ∧ (simLoopF Pmanual2 [[], [2, 1]] (Pmanual2.n + 1)
        (initState Pmanual2 [[], [2, 1]])).count < Pmanual2.n := by
  decide

set_option maxRecDepth 1000000 in
/-- C6 (counterexample): on `Pshift6`, `Shift::best` does not return the
entry (some neighbor, `[2,1,3]` on team 1, is strictly better than the
entry), yet the result it returns is not strictly less than the entry
either — it is strictly greater under the epsilon-tolerant tuple
comparator.  The running-best scan accepted (10.000008, 4) over (10, 5) and
then (9.999995, 7) over (10.000008, 4), two epsilon-improvements whose
composition is epsilon-worse in the second component.  This refutes both
halves of the claim's disjunction at once. -/
theorem C6_counterexample :
    evaluate Pshift6 entryShift6.1 = entryShift6.2
    ∧ ([[4, 5, 6], [2, 1, 3]] : Schedule) ∈ shiftNeighbors Pshift6 entryShift6.1
    ∧ lessT (evaluate Pshift6 [[4, 5, 6], [2, 1, 3]]) entryShift6.2 = true
    ∧ Shift_best Pshift6 entryShift6 ≠ entryShift6
    ∧ lessT (Shift_best Pshift6 entryShift6).2 entryShift6.2 = false
    ∧ compareT (Shift_best Pshift6 entryShift6).2 entryShift6.2 = 1 := by
  decide

/-
Basic lemmas about the extended values and the comparator.
-/

theorem dle_refl (a : D) : a ≤ a := by
  cases a with
  | fin q => exact le_refl q
  | inf => exact trivial

theorem dle_inf (a : D) : a ≤ D.inf := by
  cases a <;> exact trivial

theorem fin_le_fin_iff {a b : ℚ} : (D.fin a ≤ D.fin b) ↔ a ≤ b := Iff.rfl

theorem not_inf_le_fin (b : ℚ) : ¬ (D.inf ≤ D.fin b) := id

theorem dle_trans {a b c : D} (h1 : a ≤ b) (h2 : b ≤ c) : a ≤ c := by
  cases a with
  | inf =>
    cases b with
    | inf =>
      cases c with
      | inf => exact trivial
      | fin q => exact absurd h2 (not_inf_le_fin q)
    | fin q => exact absurd h1 (not_inf_le_fin q)
  | fin qa =>
    cases c with
    | inf => exact trivial
    | fin qc =>
      cases b with
      | inf => exact absurd h2 (not_inf_le_fin qc)
      | fin qb =>
        exact fin_le_fin_iff.mpr (le_trans (fin_le_fin_iff.mp h1) (fin_le_fin_iff.mp h2))

theorem dadd_fin_fin (a b : ℚ) : D.fin a + D.fin b = D.fin (a + b) := by
  show D.add (D.fin a) (D.fin b) = _
  simp [D.add, qadd_eq_add]

theorem dinf_add (b : D) : D.inf + b = D.inf := by
  cases b <;> rfl

theorem fin_ne_inf (q : ℚ) : D.fin q ≠ D.inf := fun hc => nomatch hc

theorem dadd_ne_inf {a b : D} (h : a + b ≠ D.inf) : a ≠ D.inf ∧ b ≠ D.inf := by
  cases a with
  | inf => exact absurd (dinf_add b) h
  | fin qa =>
    cases b with
    | inf => exact absurd rfl h
    | fin qb => exact ⟨fin_ne_inf qa, fin_ne_inf qb⟩

theorem dne_inf_iff (a : D) : a ≠ D.inf ↔ ∃ q : ℚ, a = D.fin q := by
  cases a with
  | fin q => exact ⟨fun _ => ⟨q, rfl⟩, fun _ => fin_ne_inf q⟩
  | inf => exact ⟨fun h => absurd rfl h, fun h => by rcases h with ⟨q, hq⟩; cases hq⟩

theorem dadd_le_add_right {a b : D} (c : D) (h : a ≤ b) : a + c ≤ b + c := by
  cases b with
  | inf => rw [dinf_add]; exact dle_inf _
  | fin qb =>
    cases a with
    | inf => exact absurd h (not_inf_le_fin qb)
    | fin qa =>
      cases c with
      | inf => exact trivial
      | fin qc =>
        rw [dadd_fin_fin, dadd_fin_fin]
        exact fin_le_fin_iff.mpr (add_le_add_right (fin_le_fin_iff.mp h) qc)

theorem dle_add_fin_of_nonneg {q : ℚ} (a : D) (h : 0 ≤ q) : a ≤ a + D.fin q := by
  cases a with
  | inf => exact trivial
  | fin qa =>
    rw [dadd_fin_fin]
    exact fin_le_fin_iff.mpr (le_add_of_nonneg_right h)

theorem dle_dmax_left (a b : D) : a ≤ D.dmax a b := by
  cases a with
  | inf => cases b <;> exact trivial
  | fin qa =>
    cases b with
    | inf => exact trivial
    | fin qb =>
      show D.fin qa ≤ D.fin (qmax qa qb)
      rw [qmax_eq_max]
      exact fin_le_fin_iff.mpr (le_max_left _ _)

theorem dle_dmax_right (a b : D) : b ≤ D.dmax a b := by
  cases a with
  | inf => cases b <;> exact trivial
  | fin qa =>
    cases b with
    | inf => exact trivial
    | fin qb =>
      show D.fin qb ≤ D.fin (qmax qa qb)
      rw [qmax_eq_max]
      exact fin_le_fin_iff.mpr (le_max_right _ _)

theorem dmax_le_of {a b c : D} (h1 : a ≤ c) (h2 : b ≤ c) : D.dmax a b ≤ c := by
  cases c with
  | inf => exact dle_inf _
  | fin qc =>
    cases a with
    | inf => exact absurd h1 (not_inf_le_fin qc)
    | fin qa =>
      cases b with
      | inf => exact absurd h2 (not_inf_le_fin qc)
      | fin qb =>
        show D.fin (qmax qa qb) ≤ D.fin qc
        rw [qmax_eq_max]
        exact fin_le_fin_iff.mpr
          (max_le (fin_le_fin_iff.mp h1) (fin_le_fin_iff.mp h2))

theorem dmax_ne_inf {a b : D} (h : D.dmax a b ≠ D.inf) : a ≠ D.inf ∧ b ≠ D.inf := by
  cases a with
  | inf => exact absurd (by cases b <;> rfl) h
  | fin qa =>
    cases b with
    | inf => exact absurd rfl h
    | fin qb => exact ⟨fin_ne_inf qa, fin_ne_inf qb⟩

/-- `common::less` never holds when the second value is below the first:
this covers all the infinity cases of `compareD` as the C++ code produces
them. -/
theorem lessD_eq_false_of_le {a b : D} (h : b ≤ a) : lessD a b = false := by
  cases a with
  | inf => cases b <;> rfl
  | fin qa =>
    cases b with
    | inf => exact absurd h (not_inf_le_fin qa)
    | fin qb =>
      have hle : qb ≤ qa := fin_le_fin_iff.mp h
      show (decide (compareD (D.fin qa) (D.fin qb) = -1)) = false
      simp only [compareD]
      split
      · simp
      · rw [if_neg (not_lt.mpr hle)]
        simp

/-
Fold lemmas for running maxima.
-/

theorem le_foldl_dmax_init {α : Type} (g : α → D) (l : List α) (init : D) :
    init ≤ l.foldl (fun acc x => D.dmax acc (g x)) init := by
  induction l generalizing init with
  | nil => exact dle_refl init
  | cons x xs ih =>
    exact dle_trans (dle_dmax_left init (g x)) (ih (D.dmax init (g x)))

theorem le_foldl_dmax_of_mem {α : Type} (g : α → D) (l : List α) {x : α}
    (hx : x ∈ l) (init : D) :
    g x ≤ l.foldl (fun acc v => D.dmax acc (g v)) init := by
  induction l generalizing init with
  | nil => cases hx
  | cons y ys ih =>
    rcases List.mem_cons.mp hx with h | h
    · subst h
      exact dle_trans (dle_dmax_right init (g x)) (le_foldl_dmax_init g ys _)
    · exact ih h _

theorem foldl_dmax_le {α : Type} (g : α → D) (l : List α) {c : D} (init : D)
    (h0 : init ≤ c) (h : ∀ x ∈ l, g x ≤ c) :
    l.foldl (fun acc x => D.dmax acc (g x)) init ≤ c := by
  induction l generalizing init with
  | nil => exact h0
  | cons x xs ih =>
    exact ih (D.dmax init (g x))
      (dmax_le_of h0 (h x (List.mem_cons_self x xs)))
      (fun v hv => h v (List.mem_cons_of_mem x hv))

theorem foldl_dmax_ne_inf {α : Type} (g : α → D) (l : List α) (init : D)
    (h : l.foldl (fun acc x => D.dmax acc (g x)) init ≠ D.inf) :
    init ≠ D.inf ∧ ∀ x ∈ l, g x ≠ D.inf := by
  induction l generalizing init with
  | nil => exact ⟨h, by intro x hx; cases hx⟩
  | cons y ys ih =>
    have h1 := ih (D.dmax init (g y)) h
    have h2 := dmax_ne_inf h1.1
    refine ⟨h2.1, ?_⟩
    intro x hx
    rcases List.mem_cons.mp hx with hxy | hxm
    · subst hxy; exact h2.2
    · exact h1.2 x hxm

/-- A fold over a step function that never decreases its accumulator is at
least its initial value. -/
theorem le_foldl_of_step_ge {α : Type} (f : D → α → D) (l : List α)
    (hf : ∀ v x, v ≤ f v x) (init : D) :
    init ≤ l.foldl f init := by
  induction l generalizing init with
  | nil => exact dle_refl init
  | cons x xs ih => exact dle_trans (hf init x) (ih (f init x))

/-
The simulator invariant.
-/

/-- Operation `j` has been released: it occurs in the already-scanned prefix
of some lane 0..m. -/
def ReleasedB (P : Problem) (sched : Schedule) (st : SimState) (j : ℕ) : Bool :=
  (List.range (P.m + 1)).any fun l => ((laneOf sched l).take (st.index l)).contains j

theorem mem_take_iff {l : List ℕ} {n : ℕ} {x : ℕ} :
    x ∈ l.take n ↔ ∃ i : ℕ, i < n ∧ ∃ hi : i < l.length, l[i] = x := by
  constructor
  · intro hx
    rcases List.mem_iff_getElem.mp hx with ⟨i, hi, hix⟩
    have hmin : i < min n l.length := by simpa [List.length_take] using hi
    exact ⟨i, lt_of_lt_of_le hmin (min_le_left _ _),
      lt_of_lt_of_le hmin (min_le_right _ _), by rw [List.getElem_take l] at hix; exact hix⟩
  · rintro ⟨i, hn, hi, hix⟩
    have hmin : i < (l.take n).length := by simp [List.length_take]; omega
    refine List.mem_iff_getElem.mpr ⟨i, hmin, ?_⟩
    rw [List.getElem_take l]
    exact hix

theorem releasedB_iff {P : Problem} {sched : Schedule} {st : SimState} {j : ℕ} :
    ReleasedB P sched st j = true ↔
      ∃ l, l < P.m + 1 ∧ ∃ pos, pos < st.index l ∧
        ∃ hp : pos < (laneOf sched l).length, (laneOf sched l)[pos] = j := by
  unfold ReleasedB
  rw [List.any_eq_true]
  constructor
  · rintro ⟨l, hl, hc⟩
    have hmem : j ∈ (laneOf sched l).take (st.index l) := List.elem_iff.mp hc
    rcases mem_take_iff.mp hmem with ⟨pos, hpos, hplen, hpx⟩
    exact ⟨l, List.mem_range.mp hl, pos, hpos, hplen, hpx⟩
  · rintro ⟨l, hl, pos, hpos, hplen, hpx⟩
    refine ⟨l, List.mem_range.mpr hl, List.elem_iff.mpr ?_⟩
    exact mem_take_iff.mpr ⟨pos, hpos, hplen, hpx⟩

/-
Helper lemmas for the invariant-preservation proof.
-/

/-- Bumping one entry of an index function raises the range-sum by one. -/
theorem sum_map_update_range (f : ℕ → ℕ) :
    ∀ (N l : ℕ), l < N →
      ((List.range N).map (Function.update f l (f l + 1))).sum
        = ((List.range N).map f).sum + 1 := by
  intro N
  induction N with
  | zero => intro l hl; cases hl
  | succ N ih =>
    intro l hl
    rw [List.range_succ, List.map_append, List.map_append, List.sum_append, List.sum_append]
    rcases Nat.lt_or_ge l N with h | h
    · rw [ih l h]
      have : Function.update f l (f l + 1) N = f N := by
        rw [Function.update_noteq (by omega) _ _]
      simp [this]
      omega
    · have hln : l = N := by omega
      subst hln
      have h1 : (List.range l).map (Function.update f l (f l + 1)) = (List.range l).map f := by
        apply List.map_congr_left
        intro x hx
        exact Function.update_noteq (by have := List.mem_range.mp hx; omega) _ _
      rw [h1]
      simp [Function.update_same]
      omega

/-- Evaluating the pending-counter decrement fold: each occurrence of `x` in
the successor list lowers `pendings x` by one. -/
theorem foldl_dec_eval (L : List ℕ) :
    ∀ (pd : ℕ → Int) (x : ℕ),
      (L.foldl (fun pd k => Function.update pd k (pd k - 1)) pd) x
        = pd x - L.count x := by
  induction L with
  | nil => intro pd x; simp
  | cons k L ih =>
    intro pd x
    show (L.foldl _ (Function.update pd k (pd k - 1))) x = _
    rw [ih]
    rcases eq_or_ne x k with h | h
    · subst h
      rw [Function.update_same, List.count_cons]
      simp
      omega
    · rw [Function.update_noteq h _ _, List.count_cons]
      simp [Ne.symm h]

/-- Removing one designated element from a filter: if `p j` holds then
filtering with the extra clause `i ≠ j` shortens the result by the number of
occurrences of `j` (which is 0 or 1 in a duplicate-free list). -/
theorem filter_length_sub (p : ℕ → Bool) (j : ℕ) (hpj : p j = true) :
    ∀ (L : List ℕ), L.Nodup →
      ((L.filter (fun i => p i && !(i == j))).length : Int)
        = (L.filter p).length - L.count j := by
  intro L
  induction L with
  | nil => intro _; simp
  | cons k L ih =>
    intro hnd
    have hndL : L.Nodup := (List.nodup_cons.mp hnd).2
    have hkL : k ∉ L := (List.nodup_cons.mp hnd).1
    rcases eq_or_ne k j with h | h
    · subst h
      have hcnt : L.count k = 0 := List.count_eq_zero.mpr hkL
      have hfilt : L.filter (fun i => p i && !(i == k)) = L.filter p := by
        apply List.filter_congr
        intro x hx
        have : x ≠ k := fun hc => hkL (hc ▸ hx)
        simp [this]
      rw [List.filter_cons, List.filter_cons]
      simp only [hpj, beq_self_eq_true, Bool.not_true, Bool.and_false, if_false,
        if_true, List.count_cons, hcnt, beq_self_eq_true, if_pos rfl]
      rw [hfilt]
      simp
    · have hbeq : (k == j) = false := beq_eq_false_iff_ne.mpr h
      have hIH := ih hndL
      rw [List.filter_cons, List.filter_cons, List.count_cons, hbeq]
      cases hpk : p k <;>
        simp only [hpk, hbeq, Bool.false_and, Bool.true_and, Bool.not_false, if_true,
          if_false, List.length_cons, Nat.cast_add, Nat.cast_one, Bool.false_eq_true] <;>
        omega

/-- A running max of finite values over finite inputs stays finite. -/
theorem foldl_dmax_fin {α : Type} (g : α → D) (l : List α) (init : D)
    (h0 : init ≠ D.inf) (h : ∀ x ∈ l, g x ≠ D.inf) :
    l.foldl (fun acc x => D.dmax acc (g x)) init ≠ D.inf := by
  induction l generalizing init with
  | nil => exact h0
  | cons x xs ih =>
    have hx := h x (List.mem_cons_self x xs)
    have hmax : D.dmax init (g x) ≠ D.inf := by
      rcases (dne_inf_iff init).mp h0 with ⟨q0, hq0⟩
      rcases (dne_inf_iff (g x)).mp hx with ⟨q1, hq1⟩
      rw [hq0, hq1]
      exact fin_ne_inf _
    exact ih _ hmax (fun v hv => h v (List.mem_cons_of_mem x hv))

/-- Data-model well-formedness of a problem instance, as the loader
guarantees it: predecessor/successor duality (both sides of every arc are
inserted together) and no duplicates (the C++ code stores them in
`std::set`). -/
structure ProblemWF (P : Problem) : Prop where
  hdual : ∀ i j : ℕ, j ∈ P.successors i ↔ i ∈ P.predecessors j
  hndp : ∀ j, (P.predecessors j).Nodup
  hnds : ∀ i, (P.successors i).Nodup

/-- Well-formedness of a schedule relative to the simulator: the operations
appearing in lanes 0..m are pairwise distinct and positive. -/
structure SchedWF (P : Problem) (sched : Schedule) : Prop where
  hnd : (scannedOps P sched).Nodup
  hpos : ∀ x ∈ scannedOps P sched, 1 ≤ x

theorem mem_scannedOps_iff {P : Problem} {sched : Schedule} {x : ℕ} :
    x ∈ scannedOps P sched ↔ ∃ l, l < P.m + 1 ∧ x ∈ laneOf sched l := by
  unfold scannedOps
  rw [List.mem_flatten]
  constructor
  · rintro ⟨ln, hln, hx⟩
    rcases List.mem_map.mp hln with ⟨l, hl, rfl⟩
    exact ⟨l, List.mem_range.mp hl, hx⟩
  · rintro ⟨l, hl, hx⟩
    exact ⟨laneOf sched l, List.mem_map.mpr ⟨l, List.mem_range.mpr hl, rfl⟩, hx⟩

/-- Under `SchedWF`, the lanes 0..m are individually duplicate-free and
pairwise disjoint. -/
theorem lanes_nodup {P : Problem} {sched : Schedule} (hw : SchedWF P sched)
    {l : ℕ} (hl : l < P.m + 1) : (laneOf sched l).Nodup := by
  have h := (List.nodup_flatten.mp hw.hnd).1
  exact h (laneOf sched l) (List.mem_map.mpr ⟨l, List.mem_range.mpr hl, rfl⟩)

theorem lanes_disjoint {P : Problem} {sched : Schedule} (hw : SchedWF P sched)
    {l l' : ℕ} (hl : l < P.m + 1) (hl' : l' < P.m + 1) (hne : l ≠ l') {x : ℕ}
    (hx : x ∈ laneOf sched l) (hx' : x ∈ laneOf sched l') : False := by
  have h := (List.nodup_flatten.mp hw.hnd).2
  unfold scannedOps at h
  have hpw := (List.pairwise_map.mp h)
  rcases Nat.lt_or_ge l l' with hlt | hge
  · have := List.pairwise_iff_getElem.mp hpw l l' (by simpa using hl) (by simpa using hl') hlt
    simp only [List.getElem_range] at this
    exact this hx hx'
  · have hlt : l' < l := lt_of_le_of_ne hge (Ne.symm hne)
    have := List.pairwise_iff_getElem.mp hpw l' l (by simpa using hl') (by simpa using hl) hlt
    simp only [List.getElem_range] at this
    exact this hx' hx

/-- The simulator invariant: everything the correctness arguments need about
a reachable simulator state. -/
structure SimInv (P : Problem) (sched : Schedule) (st : SimState) : Prop where
  hidx : ∀ l, st.index l ≤ (laneOf sched l).length
  hidx_hi : ∀ l, P.m + 1 ≤ l → st.index l = 0
  hcount : st.count = ((List.range (P.m + 1)).map st.index).sum
  ht0 : st.t 0 = D.fin 0
  hrelax : ∀ j, st.t j ≠ D.inf ↔ (j = 0 ∨ ReleasedB P sched st j = true)
  hloc0 : ∀ l, st.index l = 0 → st.location l = 0
  hloc1 : ∀ l, 0 < st.index l →
    ∃ hp : st.index l - 1 < (laneOf sched l).length,
      st.location l = (laneOf sched l)[st.index l - 1]
  hpend : ∀ j, j ∈ scannedOps P sched →
    st.pendings j = (((P.predecessors j).filter
      (fun i => !(ReleasedB P sched st i))).length : Int)
  hprec : ∀ j, ReleasedB P sched st j = true → ∀ i ∈ P.predecessors j,
    ReleasedB P sched st i = true ∧ st.t i + D.fin (P.p i) ≤ st.t j
  hchain : ∀ l, 1 ≤ l → l < P.m + 1 → ∀ pos, pos + 1 < st.index l →
    ∃ hp : pos + 1 < (laneOf sched l).length,
      st.t ((laneOf sched l).get ⟨pos, by omega⟩) +
        D.fin (P.p ((laneOf sched l).get ⟨pos, by omega⟩)) +
        D.fin (P.s ((laneOf sched l).get ⟨pos, by omega⟩) ((laneOf sched l)[pos + 1]) l)
        ≤ st.t ((laneOf sched l)[pos + 1])

theorem releasedB_init (P : Problem) (sched : Schedule) (j : ℕ) :
    ReleasedB P sched (initState P sched) j = false := by
  unfold ReleasedB initState
  simp

theorem simInv_init (P : Problem) (sched : Schedule) :
    SimInv P sched (initState P sched) := by
  constructor
  · intro l; exact Nat.zero_le _
  · intro l _; rfl
  · simp [initState]
  · rfl
  · intro j
    constructor
    · intro hj
      by_contra hcon
      push_neg at hcon
      have : (initState P sched).t j = D.inf := by
        show (if j = 0 then D.fin 0 else D.inf) = D.inf
        rw [if_neg hcon.1]
      exact hj this
    · intro hj
      rcases hj with hj | hj
      · subst hj
        show (if (0 : ℕ) = 0 then D.fin 0 else D.inf) ≠ D.inf
        rw [if_pos rfl]
        exact fin_ne_inf 0
      · rw [releasedB_init] at hj
        cases hj
  · intro l _; rfl
  · intro l hl; cases hl
  · intro j hj
    show (if (scannedOps P sched).contains j then ((P.predecessors j).length : Int) else 0) = _
    rw [if_pos (by exact List.elem_iff.mpr hj)]
    congr 1
    rw [List.filter_length_eq_length.mpr]  -- placeholder, fixed below
    intro i _
    simp [releasedB_init]
  · intro j hj
    rw [releasedB_init] at hj
    cases hj
  · intro l _ _ pos hpos
    simp [initState] at hpos



theorem releasedB_releaseAt {P : Problem} {sched : Schedule} {st : SimState} {l : ℕ}
    (hl : l < P.m + 1) (hlt : st.index l < (laneOf sched l).length) (x : ℕ) :
    (ReleasedB P sched (releaseAt P sched st l) x = true) ↔
      (ReleasedB P sched st x = true ∨ x = (laneOf sched l)[st.index l]) := by
  have hidxf : (releaseAt P sched st l).index
      = Function.update st.index l (st.index l + 1) := rfl
  rw [releasedB_iff, releasedB_iff]
  constructor
  · rintro ⟨l', hl', pos, hpos, hp, hpx⟩
    rw [hidxf] at hpos
    rcases eq_or_ne l' l with hEq | hne
    · subst hEq
      rw [Function.update_same] at hpos
      rcases Nat.lt_or_ge pos (st.index l') with h2 | h2
      · exact Or.inl ⟨l', hl', pos, h2, hp, hpx⟩
      · have hpe : pos = st.index l' := by omega
        subst hpe
        exact Or.inr hpx.symm
    · rw [Function.update_noteq hne _ _] at hpos
      exact Or.inl ⟨l', hl', pos, hpos, hp, hpx⟩
  · rintro (⟨l', hl', pos, hpos, hp, hpx⟩ | hx)
    · refine ⟨l', hl', pos, ?_, hp, hpx⟩
      rw [hidxf]
      rcases eq_or_ne l' l with hEq | hne
      · subst hEq; rw [Function.update_same]; omega
      · rw [Function.update_noteq hne _ _]; exact hpos
    · exact ⟨l, hl, st.index l, by rw [hidxf, Function.update_same]; omega, hlt, hx.symm⟩

/-- Releasing a ready head operation preserves the simulator invariant. -/
theorem releaseAt_inv {P : Problem} {sched : Schedule} (hpw : ProblemWF P)
    (hw : SchedWF P sched) {st : SimState} (hinv : SimInv P sched st) {l : ℕ}
    (hl : l < P.m + 1) (hlt : st.index l < (laneOf sched l).length)
    (hpend0 : st.pendings ((laneOf sched l).getD (st.index l) 0) = 0) :
    SimInv P sched (releaseAt P sched st l) := by
  set j := (laneOf sched l).getD (st.index l) 0 with hjdef
  have hj : j = (laneOf sched l)[st.index l] := List.getD_eq_getElem _ _ hlt
  have hjmem : j ∈ laneOf sched l := hj ▸ List.getElem_mem hlt
  have hjsc : j ∈ scannedOps P sched := mem_scannedOps_iff.mpr ⟨l, hl, hjmem⟩
  have hjpos : 1 ≤ j := hw.hpos j hjsc
  have hj0 : j ≠ 0 := by omega
  -- j has not been released yet
  have hjunrel : ReleasedB P sched st j = false := by
    rw [← Bool.not_eq_true]
    intro hcon
    rcases releasedB_iff.mp hcon with ⟨l', hl', pos, hpos, hp, hpx⟩
    rcases eq_or_ne l' l with hEq | hne
    · subst hEq
      have hnd := lanes_nodup hw hl'
      have : pos = st.index l' := by
        exact (List.Nodup.getElem_inj_iff hnd).mp (hpx.trans hj)
      omega
    · exact lanes_disjoint hw hl' hl hne (hpx ▸ List.getElem_mem hp) hjmem
  -- predecessors of j are all released
  have hpreds_rel : ∀ i ∈ P.predecessors j, ReleasedB P sched st i = true := by
    have h0 := hinv.hpend j hjsc
    rw [hpend0] at h0
    have hlen : ((P.predecessors j).filter
        (fun i => !(ReleasedB P sched st i))).length = 0 := by exact_mod_cast h0.symm
    have hnil := List.length_eq_zero.mp hlen
    intro i hi
    by_contra hcon
    have hmem2 : i ∈ (P.predecessors j).filter (fun i => !(ReleasedB P sched st i)) := by
      apply List.mem_filter.mpr
      refine ⟨hi, ?_⟩
      cases hb : ReleasedB P sched st i
      · rfl
      · exact absurd hb hcon
    rw [hnil] at hmem2
    cases hmem2
  have hpred_ne : ∀ i ∈ P.predecessors j, i ≠ j := by
    intro i hi hEq
    rw [hEq] at hi
    rw [hpreds_rel j hi] at hjunrel
    cases hjunrel
  -- finite start times of everything the release reads
  have hti_fin : ∀ i ∈ P.predecessors j, st.t i ≠ D.inf := by
    intro i hi
    exact (hinv.hrelax i).mpr (Or.inr (hpreds_rel i hi))
  have hloc_fin : st.t (st.location l) ≠ D.inf := by
    rcases Nat.eq_zero_or_pos (st.index l) with h0 | h0
    · rw [hinv.hloc0 l h0, hinv.ht0]; exact fin_ne_inf 0
    · rcases hinv.hloc1 l h0 with ⟨hp, hlocv⟩
      apply (hinv.hrelax _).mpr
      exact Or.inr (releasedB_iff.mpr ⟨l, hl, st.index l - 1, by omega, hp, hlocv.symm⟩)
  -- the assigned start time
  set base : D := (if l ≠ 0 then st.t (st.location l) + D.fin (P.p (st.location l))
    + D.fin (P.s (st.location l) j l) else D.fin 0) with hbase
  set tj : D := (P.predecessors j).foldl
    (fun v k => D.dmax v ((if k = j then v else st.t k) + D.fin (P.p k))) base with htjdef
  have htf : (releaseAt P sched st l).t = Function.update st.t j tj := rfl
  have hif : (releaseAt P sched st l).index
      = Function.update st.index l (st.index l + 1) := rfl
  have hlf : (releaseAt P sched st l).location = Function.update st.location l j := rfl
  have hpf : (releaseAt P sched st l).pendings = (P.successors j).foldl
      (fun pd k => Function.update pd k (pd k - 1)) st.pendings := rfl
  have hcf : (releaseAt P sched st l).count = st.count + 1 := rfl
  -- rewrite the start-time fold as a pure running max
  have hfold : tj = (P.predecessors j).foldl
      (fun v k => D.dmax v (st.t k + D.fin (P.p k))) base := by
    rw [htjdef]
    apply List.foldl_ext
    intro v k hk
    rw [if_neg (hpred_ne k hk)]
  have hbase_fin : base ≠ D.inf := by
    rw [hbase]
    split
    · rcases (dne_inf_iff _).mp hloc_fin with ⟨q, hq⟩
      rw [hq, dadd_fin_fin, dadd_fin_fin]
      exact fin_ne_inf _
    · exact fin_ne_inf 0
  have htj_fin : tj ≠ D.inf := by
    rw [hfold]
    apply foldl_dmax_fin
    · exact hbase_fin
    · intro k hk
      rcases (dne_inf_iff _).mp (hti_fin k hk) with ⟨q, hq⟩
      rw [hq, dadd_fin_fin]
      exact fin_ne_inf _
  have htj_ge_base : base ≤ tj := by
    rw [hfold]
    exact le_foldl_dmax_init _ _ _
  have htj_ge_pred : ∀ i ∈ P.predecessors j, st.t i + D.fin (P.p i) ≤ tj := by
    intro i hi
    rw [hfold]
    exact le_foldl_dmax_of_mem (fun k => st.t k + D.fin (P.p k)) (P.predecessors j) hi base
  -- released set after the step
  have hRel' : ∀ x, ReleasedB P sched (releaseAt P sched st l) x
      = (ReleasedB P sched st x || (x == j)) := by
    intro x
    by_cases hx : ReleasedB P sched (releaseAt P sched st l) x = true
    · rw [hx]
      rcases (releasedB_releaseAt hl hlt x).mp hx with h | h
      · rw [h]; simp
      · rw [← hj] at h
        rw [h]
        simp
    · rw [Bool.not_eq_true] at hx
      rw [hx]
      have hnor : ¬ (ReleasedB P sched st x = true ∨ x = (laneOf sched l)[st.index l]) :=
        fun hor => by rw [(releasedB_releaseAt hl hlt x).mpr hor] at hx; cases hx
      push_neg at hnor
      symm
      rw [Bool.or_eq_false_iff]
      refine ⟨by rw [← Bool.not_eq_true]; exact hnor.1, ?_⟩
      rw [beq_eq_false_iff_ne]
      rw [← hj] at hnor
      exact hnor.2
  constructor
  · -- hidx
    intro l'
    rw [hif]
    rcases eq_or_ne l' l with hEq | hne
    · subst hEq; rw [Function.update_same]; omega
    · rw [Function.update_noteq hne _ _]; exact hinv.hidx l'
  · -- hidx_hi
    intro l' hl'
    rw [hif, Function.update_noteq (by omega) _ _]
    exact hinv.hidx_hi l' hl'
  · -- hcount
    rw [hcf, hif, hinv.hcount]
    exact (sum_map_update_range st.index (P.m + 1) l hl).symm
  · -- ht0
    rw [htf, Function.update_noteq (Ne.symm hj0) _ _]
    exact hinv.ht0
  · -- hrelax
    intro x
    rw [htf, hRel' x]
    rcases eq_or_ne x j with hEq | hne
    · subst hEq
      rw [Function.update_same]
      constructor
      · intro _; simp
      · intro _; exact htj_fin
    · rw [Function.update_noteq hne _ _]
      rw [beq_eq_false_iff_ne.mpr hne, Bool.or_false]
      exact hinv.hrelax x
  · -- hloc0
    intro l' hl'
    rw [hif] at hl'
    rw [hlf]
    rcases eq_or_ne l' l with hEq | hne
    · subst hEq; rw [Function.update_same] at hl'; cases hl'
    · rw [Function.update_noteq hne _ _] at hl'
      rw [Function.update_noteq hne _ _]
      exact hinv.hloc0 l' hl'
  · -- hloc1
    intro l' hl'
    rw [hif] at hl'
    rw [hlf, hif]
    rcases eq_or_ne l' l with hEq | hne
    · subst hEq
      rw [Function.update_same] at hl'
      rw [Function.update_same, Function.update_same]
      refine ⟨by omega, ?_⟩
      rw [hj]
      congr 1
    · rw [Function.update_noteq hne _ _] at hl'
      rw [Function.update_noteq hne _ _, Function.update_noteq hne _ _]
      exact hinv.hloc1 l' hl'
  · -- hpend
    intro x hx
    rw [hpf, foldl_dec_eval]
    have hcnt : ((P.successors j).count x : Int) = ((P.predecessors x).count j : Int) := by
      rcases Classical.em (x ∈ P.successors j) with hmem | hmem
      · rw [List.count_eq_one_of_mem (hpw.hnds j) hmem,
          List.count_eq_one_of_mem (hpw.hndp x) ((hpw.hdual j x).mp hmem)]
      · rw [List.count_eq_zero.mpr hmem, List.count_eq_zero.mpr
          (fun hc => hmem ((hpw.hdual j x).mpr hc))]
    rw [hinv.hpend x hx, hcnt]
    have hfilter : (P.predecessors x).filter
        (fun i => !(ReleasedB P sched (releaseAt P sched st l) i))
        = (P.predecessors x).filter
            (fun i => (!(ReleasedB P sched st i)) && !(i == j)) := by
      apply List.filter_congr
      intro i _
      rw [hRel' i, Bool.not_or]
    rw [hfilter]
    rw [filter_length_sub (fun i => !(ReleasedB P sched st i)) j
      (by simp [hjunrel]) (P.predecessors x) (hpw.hndp x)]
  · -- hprec
    intro x hx i hi
    rw [hRel' x] at hx
    rw [htf]
    rcases Bool.or_eq_true_iff.mp hx with hx1 | hx2
    · have hrec := hinv.hprec x hx1 i hi
      have hine : i ≠ j := by
        intro hEq
        rw [hEq] at hrec
        rw [hrec.1] at hjunrel
        cases hjunrel
      have hxne : x ≠ j := by
        intro hEq
        rw [hEq] at hx1
        rw [hx1] at hjunrel
        cases hjunrel
      rw [Function.update_noteq hine _ _, Function.update_noteq hxne _ _, hRel' i, hrec.1]
      exact ⟨rfl, hrec.2⟩
    · have hxj : x = j := by rwa [beq_iff_eq] at hx2
      subst hxj
      have hine : i ≠ j := hpred_ne i hi
      rw [Function.update_noteq hine _ _, Function.update_same, hRel' i,
        hpreds_rel i hi]
      exact ⟨rfl, htj_ge_pred i hi⟩
  · -- hchain
    intro l' h1l hl' pos hpos
    rw [hif] at hpos
    rw [htf]
    rcases eq_or_ne l' l with hEq | hne
    · subst hEq
      rw [Function.update_same] at hpos
      rcases Nat.lt_or_ge (pos + 1) (st.index l') with h2 | h2
      · rcases hinv.hchain l' h1l hl' pos h2 with ⟨hp, hch⟩
        refine ⟨hp, ?_⟩
        have hrel1 : ReleasedB P sched st ((laneOf sched l').get ⟨pos, by omega⟩) = true :=
          releasedB_iff.mpr ⟨l', hl', pos, by omega, by omega, rfl⟩
        have hrel2 : ReleasedB P sched st ((laneOf sched l')[pos + 1]) = true :=
          releasedB_iff.mpr ⟨l', hl', pos + 1, by omega, hp, rfl⟩
        have hne1 : (laneOf sched l').get ⟨pos, by omega⟩ ≠ j := by
          intro hc; rw [hc] at hrel1; rw [hrel1] at hjunrel; cases hjunrel
        have hne2 : (laneOf sched l')[pos + 1] ≠ j := by
          intro hc; rw [hc] at hrel2; rw [hrel2] at hjunrel; cases hjunrel
        rw [Function.update_noteq hne1 _ _, Function.update_noteq hne2 _ _]
        exact hch
      · have hpe : pos + 1 = st.index l' := by omega
        have hplt : pos + 1 < (laneOf sched l').length := by omega
        refine ⟨hplt, ?_⟩
        have hplo : 0 < st.index l' := by omega
        rcases hinv.hloc1 l' hplo with ⟨hq, hlocv⟩
        have hposv : (laneOf sched l').get ⟨pos, by omega⟩ = st.location l' := by
          rw [hlocv, List.get_eq_getElem]
          congr 1
          show pos = st.index l' - 1
          omega
        have hrel1 : ReleasedB P sched st ((laneOf sched l').get ⟨pos, by omega⟩) = true :=
          releasedB_iff.mpr ⟨l', hl', pos, by omega, by omega, rfl⟩
        have hne1 : (laneOf sched l').get ⟨pos, by omega⟩ ≠ j := by
          intro hc; rw [hc] at hrel1; rw [hrel1] at hjunrel; cases hjunrel
        have hjat : (laneOf sched l')[pos + 1] = j := by
          rw [hj]
          congr 1
        rw [hjat, Function.update_same, Function.update_noteq hne1 _ _]
        have hl0 : l' ≠ 0 := by omega
        have hbase_eq : base = st.t (st.location l') + D.fin (P.p (st.location l'))
            + D.fin (P.s (st.location l') j l') := by
          rw [hbase, if_pos hl0]
        calc st.t ((laneOf sched l').get ⟨pos, by omega⟩)
              + D.fin (P.p ((laneOf sched l').get ⟨pos, by omega⟩))
              + D.fin (P.s ((laneOf sched l').get ⟨pos, by omega⟩) j l')
            = base := by rw [hposv, hbase_eq]
          _ ≤ tj := htj_ge_base
    · rw [Function.update_noteq hne _ _] at hpos
      rcases hinv.hchain l' h1l hl' pos hpos with ⟨hp, hch⟩
      refine ⟨hp, ?_⟩
      have hrel1 : ReleasedB P sched st ((laneOf sched l').get ⟨pos, by omega⟩) = true :=
        releasedB_iff.mpr ⟨l', hl', pos, by omega, by omega, rfl⟩
      have hrel2 : ReleasedB P sched st ((laneOf sched l')[pos + 1]) = true :=
        releasedB_iff.mpr ⟨l', hl', pos + 1, by omega, hp, rfl⟩
      have hne1 : (laneOf sched l').get ⟨pos, by omega⟩ ≠ j := by
        intro hc; rw [hc] at hrel1; rw [hrel1] at hjunrel; cases hjunrel
      have hne2 : (laneOf sched l')[pos + 1] ≠ j := by
        intro hc; rw [hc] at hrel2; rw [hrel2] at hjunrel; cases hjunrel
      rw [Function.update_noteq hne1 _ _, Function.update_noteq hne2 _ _]
      exact hch


theorem laneVisit_cases (P : Problem) (sched : Schedule) (acc : SimState × Bool) (l : ℕ) :
    laneVisit P sched acc l = acc ∨
    (acc.1.index l < (laneOf sched l).length ∧
      acc.1.pendings ((laneOf sched l).getD (acc.1.index l) 0) = 0 ∧
      laneVisit P sched acc l = (releaseAt P sched acc.1 l, true)) := by
  unfold laneVisit
  split
  · split
    · right; exact ⟨by assumption, by assumption, rfl⟩
    · left; rfl
  · left; rfl

theorem laneVisit_inv {P : Problem} {sched : Schedule} (hpw : ProblemWF P)
    (hw : SchedWF P sched) {acc : SimState × Bool} (hinv : SimInv P sched acc.1)
    {l : ℕ} (hl : l < P.m + 1) :
    SimInv P sched (laneVisit P sched acc l).1 := by
  rcases laneVisit_cases P sched acc l with h | ⟨h1, h2, h3⟩
  · rw [h]; exact hinv
  · rw [h3]; exact releaseAt_inv hpw hw hinv hl h1 h2

theorem laneVisit_mono (P : Problem) (sched : Schedule) (acc : SimState × Bool) (l : ℕ) :
    acc.1.count ≤ (laneVisit P sched acc l).1.count
    ∧ (acc.2 = true → (laneVisit P sched acc l).2 = true)
    ∧ ((laneVisit P sched acc l).2 = true →
        acc.2 = true ∨ acc.1.count < (laneVisit P sched acc l).1.count) := by
  rcases laneVisit_cases P sched acc l with h | ⟨_, _, h3⟩
  · rw [h]; exact ⟨le_refl _, fun h => h, fun h => Or.inl h⟩
  · rw [h3]
    refine ⟨?_, fun _ => rfl, fun _ => Or.inr ?_⟩
    · show acc.1.count ≤ acc.1.count + 1
      omega
    · show acc.1.count < acc.1.count + 1
      omega

theorem foldl_laneVisit_inv {P : Problem} {sched : Schedule} (hpw : ProblemWF P)
    (hw : SchedWF P sched) :
    ∀ (L : List ℕ), (∀ l ∈ L, l < P.m + 1) → ∀ acc : SimState × Bool,
      SimInv P sched acc.1 → SimInv P sched (L.foldl (laneVisit P sched) acc).1 := by
  intro L
  induction L with
  | nil => intro _ acc h; exact h
  | cons l L ih =>
    intro hL acc h
    exact ih (fun x hx => hL x (List.mem_cons_of_mem l hx)) (laneVisit P sched acc l)
      (laneVisit_inv hpw hw h (hL l (List.mem_cons_self l L)))

theorem foldl_laneVisit_mono (P : Problem) (sched : Schedule) :
    ∀ (L : List ℕ) (acc : SimState × Bool),
      acc.1.count ≤ (L.foldl (laneVisit P sched) acc).1.count
      ∧ (acc.2 = true → (L.foldl (laneVisit P sched) acc).2 = true)
      ∧ ((L.foldl (laneVisit P sched) acc).2 = true →
          acc.2 = true ∨ acc.1.count < (L.foldl (laneVisit P sched) acc).1.count) := by
  intro L
  induction L with
  | nil => intro acc; exact ⟨le_refl _, fun h => h, fun h => Or.inl h⟩
  | cons l L ih =>
    intro acc
    have h1 := laneVisit_mono P sched acc l
    have h2 := ih (laneVisit P sched acc l)
    refine ⟨le_trans h1.1 h2.1, fun hb => h2.2.1 (h1.2.1 hb), ?_⟩
    intro hb
    rcases h2.2.2 hb with hb' | hlt
    · rcases h1.2.2 hb' with hb'' | hlt'
      · exact Or.inl hb''
      · exact Or.inr (lt_of_lt_of_le hlt' h2.1)
    · exact Or.inr (lt_of_le_of_lt h1.1 hlt)

theorem foldl_laneVisit_noprog (P : Problem) (sched : Schedule) :
    ∀ (L : List ℕ) (acc : SimState × Bool),
      (L.foldl (laneVisit P sched) acc).2 = false → L.foldl (laneVisit P sched) acc = acc := by
  intro L
  induction L with
  | nil => intro acc _; rfl
  | cons l L ih =>
    intro acc hfix
    rw [List.foldl_cons] at hfix ⊢
    rcases laneVisit_cases P sched acc l with h | ⟨_, _, h3⟩
    · rw [h] at hfix ⊢
      exact ih acc hfix
    · exfalso
      have hb : (laneVisit P sched acc l).2 = true := by rw [h3]
      have hres := (foldl_laneVisit_mono P sched L (laneVisit P sched acc l)).2.1 hb
      rw [hres] at hfix
      cases hfix

theorem simRound_inv {P : Problem} {sched : Schedule} (hpw : ProblemWF P)
    (hw : SchedWF P sched) {st : SimState} (hinv : SimInv P sched st) :
    SimInv P sched (simRound P sched st).1 :=
  foldl_laneVisit_inv hpw hw _ (fun _ hx => List.mem_range.mp hx) (st, false) hinv

theorem simRound_count_le (P : Problem) (sched : Schedule) (st : SimState) :
    st.count ≤ (simRound P sched st).1.count :=
  (foldl_laneVisit_mono P sched _ (st, false)).1

theorem simRound_progress {P : Problem} {sched : Schedule} {st : SimState}
    (h : (simRound P sched st).2 = true) :
    st.count < (simRound P sched st).1.count := by
  rcases (foldl_laneVisit_mono P sched _ (st, false)).2.2 h with hc | hc
  · cases hc
  · exact hc

theorem simRound_noprog {P : Problem} {sched : Schedule} {st : SimState}
    (h : (simRound P sched st).2 = false) : (simRound P sched st).1 = st := by
  have hfix := foldl_laneVisit_noprog P sched (List.range (P.m + 1)) (st, false) h
  show ((List.range (P.m + 1)).foldl (laneVisit P sched) (st, false)).1 = st
  rw [hfix]

theorem simLoopF_inv {P : Problem} {sched : Schedule} (hpw : ProblemWF P)
    (hw : SchedWF P sched) :
    ∀ (fuel : ℕ) (st : SimState), SimInv P sched st →
      SimInv P sched (simLoopF P sched fuel st) := by
  intro fuel
  induction fuel with
  | zero => intro st h; exact h
  | succ fuel ih =>
    intro st h
    show SimInv P sched (if st.count < P.n then _ else st)
    split
    · dsimp only
      split
      · exact ih _ (simRound_inv hpw hw h)
      · exact simRound_inv hpw hw h
    · exact h

theorem simLoopF_exit (P : Problem) (sched : Schedule) :
    ∀ (fuel : ℕ) (st : SimState), P.n < st.count + fuel →
      (¬ (simLoopF P sched fuel st).count < P.n)
      ∨ (simRound P sched (simLoopF P sched fuel st)).2 = false := by
  intro fuel
  induction fuel with
  | zero =>
    intro st h
    left
    show ¬ st.count < P.n
    omega
  | succ fuel ih =>
    intro st h
    by_cases hc : st.count < P.n
    · have heq : simLoopF P sched (fuel + 1) st
          = (if (simRound P sched st).2 = true
              then simLoopF P sched fuel (simRound P sched st).1
              else (simRound P sched st).1) := by
        show (if st.count < P.n then
            (if (simRound P sched st).2 = true
              then simLoopF P sched fuel (simRound P sched st).1
              else (simRound P sched st).1) else st) = _
        rw [if_pos hc]
      rw [heq]
      rcases hb : (simRound P sched st).2 with _ | _
      · rw [if_neg Bool.false_ne_true]
        right
        rw [simRound_noprog hb]
        exact hb
      · rw [if_pos rfl]
        exact ih (simRound P sched st).1 (by have := simRound_progress hb; omega)
    · have heq : simLoopF P sched (fuel + 1) st = st := by
        show (if st.count < P.n then
            (if (simRound P sched st).2 = true
              then simLoopF P sched fuel (simRound P sched st).1
              else (simRound P sched st).1) else st) = st
        rw [if_neg hc]
      rw [heq]
      exact Or.inl hc

/-- The state in which the simulator loop of `start_time` terminates. -/
def finalState (P : Problem) (sched : Schedule) : SimState :=
  simLoopF P sched (P.n + 1) (initState P sched)

theorem start_time_eq_final (P : Problem) (sched : Schedule) :
    start_time P sched = (finalState P sched).t := rfl

theorem finalState_inv {P : Problem} {sched : Schedule} (hpw : ProblemWF P)
    (hw : SchedWF P sched) : SimInv P sched (finalState P sched) :=
  simLoopF_inv hpw hw _ _ (simInv_init P sched)

theorem finalState_exit (P : Problem) (sched : Schedule) :
    (¬ (finalState P sched).count < P.n)
    ∨ (simRound P sched (finalState P sched)).2 = false :=
  simLoopF_exit P sched (P.n + 1) (initState P sched) (by show P.n < 0 + (P.n + 1); omega)



/-
Consequences of the final-state invariant, shared by several claims.
-/

theorem dadd_le_add_left {b c : D} (a : D) (h : b ≤ c) : a + b ≤ a + c := by
  cases a with
  | inf => rw [dinf_add, dinf_add]; exact trivial
  | fin qa =>
    cases c with
    | inf => exact dle_inf _
    | fin qc =>
      cases b with
      | inf => exact absurd h (not_inf_le_fin qc)
      | fin qb =>
        rw [dadd_fin_fin, dadd_fin_fin]
        exact fin_le_fin_iff.mpr (add_le_add_left (fin_le_fin_iff.mp h) qa)

theorem dle_antisymm {a b : D} (h1 : a ≤ b) (h2 : b ≤ a) : a = b := by
  cases a with
  | inf =>
    cases b with
    | inf => rfl
    | fin q => exact absurd h1 (not_inf_le_fin q)
  | fin qa =>
    cases b with
    | inf => exact absurd h2 (not_inf_le_fin qa)
    | fin qb => rw [le_antisymm (fin_le_fin_iff.mp h1) (fin_le_fin_iff.mp h2)]

theorem inf_le_iff {a : D} (h : D.inf ≤ a) : a = D.inf := by
  cases a with
  | inf => rfl
  | fin q => exact absurd h (not_inf_le_fin q)

theorem dadd_eq_inf_iff (a b : D) : a + b = D.inf ↔ a = D.inf ∨ b = D.inf := by
  cases a with
  | inf => simp [dinf_add]
  | fin qa =>
    cases b with
    | inf =>
      constructor
      · intro _; exact Or.inr rfl
      · intro _; rfl
    | fin qb =>
      rw [dadd_fin_fin]
      constructor
      · intro h; exact absurd h (fin_ne_inf _)
      · intro h; rcases h with h | h <;> exact absurd h (fin_ne_inf _)

/-- For a schedule with exactly m+1 lanes, the scanned operations are the
whole flattened schedule. -/
theorem scannedOps_eq_flatten {P : Problem} {sched : Schedule}
    (hlen : sched.length = P.m + 1) : scannedOps P sched = sched.flatten := by
  unfold scannedOps
  congr 1
  apply List.ext_getElem
  · simp [hlen]
  · intro n h1 h2
    rw [List.getElem_map, List.getElem_range]
    show sched.getD n [] = _
    exact List.getD_eq_getElem sched [] h2

/-- Unpacking the conjunction of checks in `is_feasible`. -/
theorem is_feasible_parts {P : Problem} {sched : Schedule}
    (h : is_feasible P sched = true) :
    sched.length = P.m + 1
    ∧ (∀ ln ∈ sched, ∀ i ∈ ln, 1 ≤ i ∧ i ≤ P.n)
    ∧ (∀ i, 1 ≤ i → i ≤ P.n → sched.flatten.count i = 1)
    ∧ (∀ i ∈ laneOf sched 0, P.technology i = Technology.REMOTE)
    ∧ (∀ l, 1 ≤ l → l < P.m + 1 → ∀ i ∈ laneOf sched l,
        P.technology i = Technology.MANUAL)
    ∧ (∀ j, 1 ≤ j → j ≤ P.n → ∀ i ∈ P.predecessors j,
        lessD (start_time P sched j) (start_time P sched i) = false) := by
  unfold is_feasible at h
  rw [Bool.and_eq_true, Bool.and_eq_true, Bool.and_eq_true, Bool.and_eq_true,
    Bool.and_eq_true] at h
  obtain ⟨⟨⟨⟨⟨h1, h2⟩, h3⟩, h4⟩, h5⟩, h6⟩ := h
  refine ⟨by exact_mod_cast (decide_eq_true_eq.mp h1), ?_, ?_, ?_, ?_, ?_⟩
  · intro ln hln i hi
    have := List.all_eq_true.mp (List.all_eq_true.mp h2 ln hln) i hi
    rw [Bool.and_eq_true] at this
    exact ⟨decide_eq_true_eq.mp this.1, decide_eq_true_eq.mp this.2⟩
  · intro i h1i h2i
    have := List.all_eq_true.mp h3 i (List.mem_range'_1.mpr ⟨h1i, by omega⟩)
    exact_mod_cast decide_eq_true_eq.mp this
  · intro i hi
    exact decide_eq_true_eq.mp (List.all_eq_true.mp h4 i hi)
  · intro l h1l h2l i hi
    have hl := List.all_eq_true.mp h5 l (List.mem_range'_1.mpr ⟨h1l, by omega⟩)
    exact decide_eq_true_eq.mp (List.all_eq_true.mp hl i hi)
  · intro j h1j h2j i hi
    have hj := List.all_eq_true.mp h6 j (List.mem_range'_1.mpr ⟨h1j, by omega⟩)
    have := List.all_eq_true.mp hj i hi
    cases hb : lessD (start_time P sched j) (start_time P sched i)
    · rfl
    · rw [hb] at this; cases this

/-- A schedule accepted by `is_feasible` satisfies the simulator's schedule
well-formedness. -/
theorem schedWF_of_feasible {P : Problem} {sched : Schedule}
    (h : is_feasible P sched = true) : SchedWF P sched := by
  obtain ⟨hlen, hids, hcnt, -, -, -⟩ := is_feasible_parts h
  have hmem : ∀ x ∈ sched.flatten, 1 ≤ x ∧ x ≤ P.n := by
    intro x hx
    rcases List.mem_flatten.mp hx with ⟨ln, hln, hxln⟩
    exact hids ln hln x hxln
  constructor
  · rw [scannedOps_eq_flatten hlen]
    rw [List.nodup_iff_count_le_one]
    intro a
    by_cases ha : a ∈ sched.flatten
    · rcases hmem a ha with ⟨h1, h2⟩
      rw [hcnt a h1 h2]
    · rw [List.count_eq_zero.mpr ha]
      omega
  · rw [scannedOps_eq_flatten hlen]
    intro x hx
    exact (hmem x hx).1



/-
Lemmas about the folds of `evaluate`.
-/

theorem evalMan_fst_mono (P : Problem) (sched : Schedule) (t : ℕ → D) :
    ∀ (L : List ℕ) (acc : D × D),
      acc.1 ≤ (L.foldl (evalManStep P sched t) acc).1 := by
  intro L
  induction L with
  | nil => intro acc; exact dle_refl _
  | cons l L ih =>
    intro acc
    refine dle_trans ?_ (ih (evalManStep P sched t acc l))
    unfold evalManStep
    split
    · exact dle_refl _
    · exact dle_dmax_left _ _

theorem evalMan_fst_mem (P : Problem) (sched : Schedule) (t : ℕ → D) :
    ∀ (L : List ℕ) (acc : D × D) (l : ℕ), l ∈ L → (laneOf sched l).isEmpty = false →
      laneCompletion P t (laneOf sched l) ≤ (L.foldl (evalManStep P sched t) acc).1 := by
  intro L
  induction L with
  | nil => intro acc l hl; cases hl
  | cons x L ih =>
    intro acc l hl hne
    rcases List.mem_cons.mp hl with h | h
    · subst h
      refine dle_trans ?_ (evalMan_fst_mono P sched t L (evalManStep P sched t acc l))
      unfold evalManStep
      rw [hne]
      show _ ≤ (D.dmax acc.1 (laneCompletion P t (laneOf sched l)),
        acc.2 + laneCompletion P t (laneOf sched l)).1
      exact dle_dmax_right _ _
    · exact ih (evalManStep P sched t acc x) l h hne

theorem evalMan_fst_bound (P : Problem) (sched : Schedule) (t : ℕ → D) :
    ∀ (L : List ℕ) (acc : D × D) {c : D}, acc.1 ≤ c →
      (∀ l ∈ L, (laneOf sched l).isEmpty = false →
        laneCompletion P t (laneOf sched l) ≤ c) →
      (L.foldl (evalManStep P sched t) acc).1 ≤ c := by
  intro L
  induction L with
  | nil => intro acc c h0 _; exact h0
  | cons x L ih =>
    intro acc c h0 h
    apply ih (evalManStep P sched t acc x)
    · unfold evalManStep
      split
      · exact h0
      · refine dmax_le_of h0 (h x (List.mem_cons_self x L) ?_)
        rename_i hcond
        cases hb : (laneOf sched x).isEmpty
        · rfl
        · exact absurd hb hcond
    · intro l hl hne
      exact h l (List.mem_cons_of_mem x hl) hne

theorem evalMan_snd_inf (P : Problem) (sched : Schedule) (t : ℕ → D) :
    ∀ (L : List ℕ) (acc : D × D),
      ((L.foldl (evalManStep P sched t) acc).2 = D.inf ↔
        acc.2 = D.inf ∨ ∃ l ∈ L, (laneOf sched l).isEmpty = false ∧
          laneCompletion P t (laneOf sched l) = D.inf) := by
  intro L
  induction L with
  | nil =>
    intro acc
    constructor
    · intro h; exact Or.inl h
    · intro h
      rcases h with h | ⟨l, hl, _⟩
      · exact h
      · cases hl
  | cons x L ih =>
    intro acc
    rw [List.foldl_cons, ih]
    unfold evalManStep
    cases hb : (laneOf sched x).isEmpty
    · rw [if_neg Bool.false_ne_true]
      show ((D.dmax acc.1 _, acc.2 + laneCompletion P t (laneOf sched x)).2 = D.inf ∨ _) ↔ _
      rw [show (D.dmax acc.1 (laneCompletion P t (laneOf sched x)),
        acc.2 + laneCompletion P t (laneOf sched x)).2
        = acc.2 + laneCompletion P t (laneOf sched x) from rfl]
      rw [dadd_eq_inf_iff]
      constructor
      · rintro (⟨h | h⟩ | ⟨l, hl, h1, h2⟩)
        · exact Or.inl h
        · exact Or.inr ⟨x, List.mem_cons_self x L, hb, h⟩
        · exact Or.inr ⟨l, List.mem_cons_of_mem x hl, h1, h2⟩
      · rintro (h | ⟨l, hl, h1, h2⟩)
        · exact Or.inl (Or.inl h)
        · rcases List.mem_cons.mp hl with hEq | hmem
          · subst hEq; exact Or.inl (Or.inr h2)
          · exact Or.inr ⟨l, hmem, h1, h2⟩
    · rw [if_pos rfl]
      constructor
      · rintro (h | ⟨l, hl, h1, h2⟩)
        · exact Or.inl h
        · exact Or.inr ⟨l, List.mem_cons_of_mem x hl, h1, h2⟩
      · rintro (h | ⟨l, hl, h1, h2⟩)
        · exact Or.inl h
        · rcases List.mem_cons.mp hl with hEq | hmem
          · subst hEq; rw [hb] at h1; cases h1
          · exact Or.inr ⟨l, hmem, h1, h2⟩



theorem eps_pos : (0 : ℚ) < eps := by
  have h : eps = (1 : ℚ) / 100000 := by
    rw [eps, Rat.mkRat_eq_div]
    norm_num
  rw [h]
  norm_num

/-- `ProblemWF` for the two-switch chain instances. -/
theorem chain2_wf_aux (P : Problem)
    (hp : P.predecessors = fun j => if j = 2 then [1] else [])
    (hs : P.successors = fun i => if i = 1 then [2] else []) : ProblemWF P := by
  constructor
  · intro i j
    rw [hp, hs]
    by_cases hi : i = 1 <;> by_cases hj : j = 2 <;> simp [hi, hj]
  · intro j
    rw [hp]
    dsimp only
    split <;> simp
  · intro i
    rw [hs]
    dsimp only
    split <;> simp

theorem premote2_wf : ProblemWF Premote2 := chain2_wf_aux Premote2 rfl rfl

theorem pmanual2_wf : ProblemWF Pmanual2 := chain2_wf_aux Pmanual2 rfl rfl

theorem pallRemote_wf : ProblemWF PallRemote := by
  constructor
  · intro i j; show j ∈ ([] : List ℕ) ↔ i ∈ ([] : List ℕ); simp
  · intro j; exact List.nodup_nil
  · intro i; exact List.nodup_nil

set_option maxRecDepth 4000 in
/-- C5: for a problem whose precedence lists are well-formed and a schedule
accepted by `is_feasible`, the simulated start times satisfy every direct
precedence with full processing separation up to the tolerance:
`t[j] ≥ t[i] + p[i] − ε` (in the extended order, so unreleased operations
with `t = +inf` satisfy it trivially, and a released `j` in fact satisfies
the bound even without the ε slack). -/
theorem C5_precedence_separation (P : Problem) (sched : Schedule) (hpw : ProblemWF P)
    (hfeas : is_feasible P sched = true) (j : ℕ) (hj : 1 ≤ j)
    (i : ℕ) (hi : i ∈ P.predecessors j) :
    start_time P sched i + D.fin (P.p i - eps) ≤ start_time P sched j := by
  have hw := schedWF_of_feasible hfeas
  have hinv := finalState_inv hpw hw
  rw [start_time_eq_final]
  by_cases hjinf : (finalState P sched).t j = D.inf
  · rw [hjinf]; exact dle_inf _
  · rcases (hinv.hrelax j).mp hjinf with h0 | hrel
    · omega
    · have h := (hinv.hprec j hrel i hi).2
      refine dle_trans ?_ h
      apply dadd_le_add_left
      apply fin_le_fin_iff.mpr
      have := eps_pos
      linarith

set_option maxRecDepth 4000 in
/-- C5 witness: the concrete feasible schedule `[[], [1, 2]]` on the
two-manual-switch chain instance. -/
theorem C5_precedence_separation_witness :
    start_time Pmanual2 [[], [1, 2]] 1 + D.fin (Pmanual2.p 1 - eps)
      ≤ start_time Pmanual2 [[], [1, 2]] 2 :=
  C5_precedence_separation Pmanual2 [[], [1, 2]] pmanual2_wf (by decide) 2 (by decide)
    1 (by decide)



/-- An operation occurring at or past the scan index of its lane is not
released (lanes are duplicate-free). -/
theorem unreleased_at_ge {P : Problem} {sched : Schedule} (hw : SchedWF P sched)
    {st : SimState} (hinv : SimInv P sched st) {l : ℕ} (hl : l < P.m + 1) {pos : ℕ}
    (hpos : st.index l ≤ pos) (hp : pos < (laneOf sched l).length) :
    ReleasedB P sched st ((laneOf sched l)[pos]) = false := by
  rw [← Bool.not_eq_true]
  intro hcon
  rcases releasedB_iff.mp hcon with ⟨l', hl', pos', hpos', hp', hpx⟩
  rcases eq_or_ne l' l with hEq | hne
  · subst hEq
    have hinj := (List.Nodup.getElem_inj_iff (lanes_nodup hw hl')).mp hpx
    omega
  · exact lanes_disjoint hw hl' hl hne (hpx ▸ List.getElem_mem hp') (List.getElem_mem hp)

/-- If the loop stopped short of releasing all n operations of a schedule
that contains each of the n operations, some lane still has unscanned
operations. -/
theorem exists_unscanned {P : Problem} {sched : Schedule} {st : SimState}
    (hinv : SimInv P sched st) (hlen : sched.length = P.m + 1)
    (hflat : sched.flatten.length = P.n) (hcnt : st.count < P.n) :
    ∃ l, l < P.m + 1 ∧ st.index l < (laneOf sched l).length := by
  by_contra hcon
  push_neg at hcon
  have hidx : ∀ l ∈ List.range (P.m + 1), st.index l = (laneOf sched l).length := by
    intro l hl
    exact le_antisymm (hinv.hidx l) (hcon l (List.mem_range.mp hl))
  have hmapeq : (List.range (P.m + 1)).map st.index
      = (List.range (P.m + 1)).map (fun l => (laneOf sched l).length) :=
    List.map_congr_left hidx
  have hsum : ((List.range (P.m + 1)).map st.index).sum = P.n := by
    rw [hmapeq]
    have h1 : (List.range (P.m + 1)).map (fun l => (laneOf sched l).length)
        = ((List.range (P.m + 1)).map (laneOf sched)).map List.length := by
      rw [List.map_map]
      rfl
    rw [h1, ← List.length_flatten]
    show (scannedOps P sched).length = P.n
    rw [scannedOps_eq_flatten hlen, hflat]
  have := hinv.hcount
  omega

theorem schedWF_of_partition {P : Problem} {sched : Schedule}
    (hlen : sched.length = P.m + 1)
    (hpart : sched.flatten.Perm (List.range' 1 P.n)) : SchedWF P sched := by
  constructor
  · rw [scannedOps_eq_flatten hlen]
    exact hpart.nodup_iff.mpr (List.nodup_range' ..)
  · rw [scannedOps_eq_flatten hlen]
    intro x hx
    exact (List.mem_range'_1.mp (hpart.mem_iff.mp hx)).1

set_option maxRecDepth 4000 in
/-- C2 (amended): for a well-formed problem and a schedule with m+1 lanes
containing each operation 1..n exactly once, if the simulator loop stops
with fewer than n operations released then every unreleased operation keeps
start time +infinity and the makespan component of `evaluate` is +infinity;
the sum-of-completions component is +infinity exactly when some manual lane
contains an unreleased operation — it stays finite when the deadlock is
confined to the remote lane 0. -/
theorem C2_no_progress_amended (P : Problem) (sched : Schedule) (hpw : ProblemWF P)
    (hlen : sched.length = P.m + 1)
    (hpart : sched.flatten.Perm (List.range' 1 P.n))
    (hcnt : (finalState P sched).count < P.n) :
    (∀ j ∈ scannedOps P sched,
        ReleasedB P sched (finalState P sched) j = false → start_time P sched j = D.inf)
    ∧ (evaluate P sched).1 = D.inf
    ∧ ((evaluate P sched).2 = D.inf ↔
        ∃ l, 1 ≤ l ∧ l < P.m + 1 ∧ ∃ x ∈ laneOf sched l,
          ReleasedB P sched (finalState P sched) x = false) := by
  have hw : SchedWF P sched := schedWF_of_partition hlen hpart
  have hinv := finalState_inv hpw hw
  have hflat : sched.flatten.length = P.n := by
    rw [hpart.length_eq, List.length_range']
  have hunrel_inf : ∀ j ∈ scannedOps P sched,
      ReleasedB P sched (finalState P sched) j = false →
        (finalState P sched).t j = D.inf := by
    intro j hj hrel
    by_contra hne
    rcases (hinv.hrelax j).mp hne with h0 | h1
    · have := hw.hpos j hj
      omega
    · rw [h1] at hrel
      cases hrel
  have hlane_mem_scanned : ∀ l, l < P.m + 1 → ∀ x ∈ laneOf sched l,
      x ∈ scannedOps P sched := by
    intro l hl x hx
    exact mem_scannedOps_iff.mpr ⟨l, hl, hx⟩
  refine ⟨fun j hj hr => hunrel_inf j hj hr, ?_, ?_⟩
  · -- makespan component is infinite
    rcases exists_unscanned hinv hlen hflat hcnt with ⟨l, hl, hidx⟩
    have hlast_lt : (laneOf sched l).length - 1 < (laneOf sched l).length := by omega
    set x := (laneOf sched l)[(laneOf sched l).length - 1] with hxdef
    have hxunrel : ReleasedB P sched (finalState P sched) x = false :=
      unreleased_at_ge hw hinv hl (by omega) hlast_lt
    have hxmem : x ∈ laneOf sched l := List.getElem_mem hlast_lt
    have hxinf : (finalState P sched).t x = D.inf :=
      hunrel_inf x (hlane_mem_scanned l hl x hxmem) hxunrel
    show ((laneOf sched 0).foldl
        (fun acc i => D.dmax acc (start_time P sched i + D.fin (P.p i))) _) = D.inf
    rcases Nat.eq_zero_or_pos l with hl0 | hlpos
    · subst hl0
      apply inf_le_iff
      have := le_foldl_dmax_of_mem
        (fun i => start_time P sched i + D.fin (P.p i)) (laneOf sched 0) hxmem
        ((List.range' 1 P.m).foldl
          (evalManStep P sched (start_time P sched)) (D.fin 0, D.fin 0)).1
      rw [start_time_eq_final, hxinf, dinf_add] at this
      exact this
    · apply inf_le_iff
      refine dle_trans ?_ (le_foldl_dmax_init _ _ _)
      have hcomp : laneCompletion P (start_time P sched) (laneOf sched l) = D.inf := by
        unfold laneCompletion
        rw [List.getD_eq_getElem _ _ hlast_lt, start_time_eq_final, ← hxdef, hxinf, dinf_add]
      have hne : (laneOf sched l).isEmpty = false := by
        rw [List.isEmpty_eq_false_iff_exists_mem]
        exact ⟨x, hxmem⟩
      have := evalMan_fst_mem P sched (start_time P sched) (List.range' 1 P.m)
        (D.fin 0, D.fin 0) l (List.mem_range'_1.mpr ⟨hlpos, by omega⟩) hne
      rw [hcomp] at this
      exact this
  · -- sum component
    show ((List.range' 1 P.m).foldl
        (evalManStep P sched (start_time P sched)) (D.fin 0, D.fin 0)).2 = D.inf ↔ _
    rw [evalMan_snd_inf]
    constructor
    · rintro (h0 | ⟨l, hl, hne, hcomp⟩)
      · exact absurd h0 (fin_ne_inf 0)
      · rcases List.mem_range'_1.mp hl with ⟨h1l, h2l⟩
        have hlm : l < P.m + 1 := by omega
        have hlen_pos : 0 < (laneOf sched l).length := by
          cases hlane : laneOf sched l with
          | nil => rw [hlane] at hne; cases hne
          | cons a as => simp [hlane]
        have hlast_lt : (laneOf sched l).length - 1 < (laneOf sched l).length := by omega
        unfold laneCompletion at hcomp
        rw [List.getD_eq_getElem _ _ hlast_lt] at hcomp
        rcases (dadd_eq_inf_iff _ _).mp hcomp with htinf | hpinf
        · refine ⟨l, h1l, hlm, (laneOf sched l)[(laneOf sched l).length - 1],
            List.getElem_mem hlast_lt, ?_⟩
          rw [← Bool.not_eq_true]
          intro hrel
          have := (hinv.hrelax _).mpr (Or.inr hrel)
          rw [start_time_eq_final] at htinf
          exact this htinf
        · exact absurd hpinf (fin_ne_inf _)
    · rintro ⟨l, h1l, hlm, x, hxmem, hxunrel⟩
      right
      rcases List.mem_iff_getElem.mp hxmem with ⟨pos, hpos, hpx⟩
      have hposge : (finalState P sched).index l ≤ pos := by
        by_contra hlt
        push_neg at hlt
        have : ReleasedB P sched (finalState P sched) x = true :=
          releasedB_iff.mpr ⟨l, hlm, pos, hlt, hpos, hpx⟩
        rw [this] at hxunrel
        cases hxunrel
      have hlast_lt : (laneOf sched l).length - 1 < (laneOf sched l).length := by omega
      have hlastunrel : ReleasedB P sched (finalState P sched)
          ((laneOf sched l)[(laneOf sched l).length - 1]) = false :=
        unreleased_at_ge hw hinv hlm (by omega) hlast_lt
      have hlastinf : (finalState P sched).t
          ((laneOf sched l)[(laneOf sched l).length - 1]) = D.inf :=
        hunrel_inf _ (hlane_mem_scanned l hlm _ (List.getElem_mem hlast_lt)) hlastunrel
      refine ⟨l, List.mem_range'_1.mpr ⟨h1l, by omega⟩, ?_, ?_⟩
      · rw [List.isEmpty_eq_false_iff_exists_mem]
        exact ⟨x, hxmem⟩
      · unfold laneCompletion
        rw [List.getD_eq_getElem _ _ hlast_lt, start_time_eq_final, hlastinf, dinf_add]

set_option maxRecDepth 4000 in
/-- C2 amended witness: the all-manual chain scheduled in the wrong order on
team 1 deadlocks with the sum component infinite (the unreleased operations
are on a manual lane). -/
theorem C2_no_progress_amended_witness :
    (∀ j ∈ scannedOps Pmanual2 [[], [2, 1]],
        ReleasedB Pmanual2 [[], [2, 1]] (finalState Pmanual2 [[], [2, 1]]) j = false →
          start_time Pmanual2 [[], [2, 1]] j = D.inf)
    ∧ (evaluate Pmanual2 [[], [2, 1]]).1 = D.inf
    ∧ ((evaluate Pmanual2 [[], [2, 1]]).2 = D.inf ↔
        ∃ l, 1 ≤ l ∧ l < Pmanual2.m + 1 ∧ ∃ x ∈ laneOf [[], [2, 1]] l,
          ReleasedB Pmanual2 [[], [2, 1]] (finalState Pmanual2 [[], [2, 1]]) x = false) :=
  C2_no_progress_amended Pmanual2 [[], [2, 1]] pmanual2_wf (by decide) (by decide)
    (by decide)



/-
The running-best scan: what `best` actually guarantees.
-/

theorem scanBest_cases (P : Problem) :
    ∀ (nbs : List Schedule) (acc : Schedule × (D × D)),
      scanBest P acc nbs = acc
      ∨ ((scanBest P acc nbs).1 ∈ nbs
          ∧ (scanBest P acc nbs).2 = evaluate P (scanBest P acc nbs).1) := by
  intro nbs
  induction nbs with
  | nil => intro acc; exact Or.inl rfl
  | cons x xs ih =>
    intro acc
    have hstep : scanBest P acc (x :: xs) = scanBest P (updateBest P acc x) xs := rfl
    rw [hstep]
    by_cases hc : lessT (evaluate P x) acc.2 = true
    · rw [show updateBest P acc x = (x, evaluate P x) from by
        simp only [updateBest]; rw [if_pos hc]]
      rcases ih (x, evaluate P x) with h | h
      · right
        rw [h]
        exact ⟨List.mem_cons_self x xs, rfl⟩
      · right
        exact ⟨List.mem_cons_of_mem x h.1, h.2⟩
    · rw [show updateBest P acc x = acc from by
        simp only [updateBest]; rw [if_neg hc]]
      rcases ih acc with h | h
      · exact Or.inl h
      · right
        exact ⟨List.mem_cons_of_mem x h.1, h.2⟩

theorem scanBest_no_improve (P : Problem) :
    ∀ (nbs : List Schedule) (entry : Schedule × (D × D)),
      (∀ nb ∈ nbs, lessT (evaluate P nb) entry.2 = false) →
      scanBest P entry nbs = entry := by
  intro nbs
  induction nbs with
  | nil => intro entry _; rfl
  | cons x xs ih =>
    intro entry h
    have hstep : scanBest P entry (x :: xs) = scanBest P (updateBest P entry x) xs := rfl
    rw [hstep]
    rw [show updateBest P entry x = entry from by
      simp only [updateBest]
      rw [if_neg (by rw [h x (List.mem_cons_self x xs)]; exact Bool.false_ne_true)]]
    exact ih entry (fun nb hnb => h nb (List.mem_cons_of_mem x hnb))

theorem scanBest_improve (P : Problem) :
    ∀ (nbs : List Schedule) (acc : Schedule × (D × D)),
      (∃ nb ∈ nbs, lessT (evaluate P nb) acc.2 = true) →
      (scanBest P acc nbs).1 ∈ nbs
      ∧ (scanBest P acc nbs).2 = evaluate P (scanBest P acc nbs).1 := by
  intro nbs
  induction nbs with
  | nil =>
    intro acc h
    rcases h with ⟨nb, hnb, -⟩
    cases hnb
  | cons x xs ih =>
    intro acc h
    have hstep : scanBest P acc (x :: xs) = scanBest P (updateBest P acc x) xs := rfl
    rw [hstep]
    by_cases hc : lessT (evaluate P x) acc.2 = true
    · rw [show updateBest P acc x = (x, evaluate P x) from by
        simp only [updateBest]; rw [if_pos hc]]
      rcases scanBest_cases P xs (x, evaluate P x) with h2 | h2
      · rw [h2]
        exact ⟨List.mem_cons_self x xs, rfl⟩
      · exact ⟨List.mem_cons_of_mem x h2.1, h2.2⟩
    · rw [show updateBest P acc x = acc from by
        simp only [updateBest]; rw [if_neg hc]]
      rcases h with ⟨nb, hnb, himp⟩
      rcases List.mem_cons.mp hnb with hnb | hnb
      · rw [hnb] at himp
        exact absurd himp hc
      · have h2 := ih acc ⟨nb, hnb, himp⟩
        exact ⟨List.mem_cons_of_mem x h2.1, h2.2⟩

/-- C6 (amended): for each neighborhood, `best` returns the entry unchanged
when no neighbor evaluates strictly below the entry under the ε-comparator,
and when some neighbor does, it returns one of the scanned neighbors paired
with that neighbor's true `evaluate` value; in every case the result is the
entry or such a neighbor.  (Because the ε-comparator is not transitive, the
returned neighbor is in general neither minimal over the neighborhood nor
strictly less than the entry — see the counterexample.) -/
theorem C6_best_scan_amended (P : Problem) (entry : Schedule × (D × D)) :
    ((∀ nb ∈ shiftNeighbors P entry.1, lessT (evaluate P nb) entry.2 = false) →
        Shift_best P entry = entry)
    ∧ (Shift_best P entry = entry
        ∨ ((Shift_best P entry).1 ∈ shiftNeighbors P entry.1
            ∧ (Shift_best P entry).2 = evaluate P (Shift_best P entry).1))
    ∧ ((∃ nb ∈ shiftNeighbors P entry.1, lessT (evaluate P nb) entry.2 = true) →
        (Shift_best P entry).1 ∈ shiftNeighbors P entry.1
        ∧ (Shift_best P entry).2 = evaluate P (Shift_best P entry).1)
    ∧ ((∀ nb ∈ exchangeNeighbors P entry.1, lessT (evaluate P nb) entry.2 = false) →
        Exchange_best P entry = entry)
    ∧ (Exchange_best P entry = entry
        ∨ ((Exchange_best P entry).1 ∈ exchangeNeighbors P entry.1
            ∧ (Exchange_best P entry).2 = evaluate P (Exchange_best P entry).1))
    ∧ ((∃ nb ∈ exchangeNeighbors P entry.1, lessT (evaluate P nb) entry.2 = true) →
        (Exchange_best P entry).1 ∈ exchangeNeighbors P entry.1
        ∧ (Exchange_best P entry).2 = evaluate P (Exchange_best P entry).1)
    ∧ ((∀ nb ∈ reassignNeighbors P entry.1, lessT (evaluate P nb) entry.2 = false) →
        Reassignment_best P entry = entry)
    ∧ (Reassignment_best P entry = entry
        ∨ ((Reassignment_best P entry).1 ∈ reassignNeighbors P entry.1
            ∧ (Reassignment_best P entry).2 = evaluate P (Reassignment_best P entry).1))
    ∧ ((∃ nb ∈ reassignNeighbors P entry.1, lessT (evaluate P nb) entry.2 = true) →
        (Reassignment_best P entry).1 ∈ reassignNeighbors P entry.1
        ∧ (Reassignment_best P entry).2 = evaluate P (Reassignment_best P entry).1)
    ∧ ((∀ nb ∈ directSwapNeighbors P entry.1, lessT (evaluate P nb) entry.2 = false) →
        DirectSwap_best P entry = entry)
    ∧ (DirectSwap_best P entry = entry
        ∨ ((DirectSwap_best P entry).1 ∈ directSwapNeighbors P entry.1
            ∧ (DirectSwap_best P entry).2 = evaluate P (DirectSwap_best P entry).1))
    ∧ ((∃ nb ∈ directSwapNeighbors P entry.1, lessT (evaluate P nb) entry.2 = true) →
        (DirectSwap_best P entry).1 ∈ directSwapNeighbors P entry.1
        ∧ (DirectSwap_best P entry).2 = evaluate P (DirectSwap_best P entry).1) :=
  ⟨fun h => scanBest_no_improve P _ entry h,
    scanBest_cases P (shiftNeighbors P entry.1) entry,
    fun h => scanBest_improve P (shiftNeighbors P entry.1) entry h,
    fun h => scanBest_no_improve P _ entry h,
    scanBest_cases P (exchangeNeighbors P entry.1) entry,
    fun h => scanBest_improve P (exchangeNeighbors P entry.1) entry h,
    fun h => scanBest_no_improve P _ entry h,
    scanBest_cases P (reassignNeighbors P entry.1) entry,
    fun h => scanBest_improve P (reassignNeighbors P entry.1) entry h,
    fun h => scanBest_no_improve P _ entry h,
    scanBest_cases P (directSwapNeighbors P entry.1) entry,
    fun h => scanBest_improve P (directSwapNeighbors P entry.1) entry h⟩

set_option maxRecDepth 100000 in
/-- C6 amended, instantiated on `Pmanual2` at the deadlocked entry
`[[],[2,1]]` (evaluation (+inf, +inf)): the neighbor `[[],[1,2]]` is
ε-better, so `Shift::best` returns a genuine scanned neighbor together with
that neighbor's true evaluation. -/
theorem C6_best_scan_amended_witness :
    (Shift_best Pmanual2 ([[], [2, 1]], evaluate Pmanual2 [[], [2, 1]])).1
      ∈ shiftNeighbors Pmanual2 [[], [2, 1]]
    ∧ (Shift_best Pmanual2 ([[], [2, 1]], evaluate Pmanual2 [[], [2, 1]])).2
      = evaluate Pmanual2
          (Shift_best Pmanual2 ([[], [2, 1]], evaluate Pmanual2 [[], [2, 1]])).1 :=
  (C6_best_scan_amended Pmanual2 ([[], [2, 1]], evaluate Pmanual2 [[], [2, 1]])).2.2.1
    ⟨[[], [1, 2]], by decide, by decide⟩



/-
Local optimality of vnd / rvnd.
-/

theorem getD_eq_get_of_lt {α : Type} (l : List α) (i : ℕ) (d : α)
    (hi : i < l.length) : l.getD i d = l.get ⟨i, hi⟩ := by
  rw [List.getD_eq_getElem?_getD, List.getElem?_eq_getElem hi]
  rfl

theorem eq_get_of_not_mem_eraseIdx {α : Type} (l : List α) (i : ℕ)
    (hi : i < l.length) (a : α) (ha : a ∈ l) (hna : a ∉ l.eraseIdx i) :
    a = l.get ⟨i, hi⟩ := by
  rw [List.eraseIdx_eq_take_drop_succ] at hna
  have ha2 : a ∈ l.take i ++ l.drop i := by rw [List.take_append_drop]; exact ha
  rcases List.mem_append.mp ha2 with h | h
  · exact absurd (List.mem_append.mpr (Or.inl h)) hna
  · rw [List.drop_eq_getElem_cons hi] at h
    rcases List.mem_cons.mp h with h | h
    · exact h
    · exact absurd (List.mem_append.mpr (Or.inr h)) hna

theorem vndFrom_no_improve (P : Problem) (N : List Neighborhood)
    (k : ℕ) (inc res : Schedule × (D × D)) (h : VndFrom P N k inc res) :
    (∀ (j : ℕ) (hj : j < N.length), j < k →
        lessT ((N.get ⟨j, hj⟩).best P inc).2 inc.2 = false) →
    ∀ (j : ℕ) (hj : j < N.length),
        lessT ((N.get ⟨j, hj⟩).best P res).2 res.2 = false := by
  induction h with
  | done inc =>
    intro hpre j hj
    exact hpre j hj hj
  | improve k inc res hk himp ih IH =>
    intro _
    exact IH (fun j hj hj0 => absurd hj0 (Nat.not_lt_zero j))
  | skip k inc res hk himp ih IH =>
    intro hpre
    refine IH (fun j hj hj1 => ?_)
    rcases Nat.lt_succ_iff_lt_or_eq.mp hj1 with h | h
    · exact hpre j hj h
    · subst h
      exact himp

theorem rvndFrom_no_improve (P : Problem) (N : List Neighborhood) (g : ℕ → ℕ)
    (pool : List Neighborhood) (c : ℕ) (inc res : Schedule × (D × D))
    (h : RvndFrom P N g pool c inc res) :
    (∀ nb ∈ N, nb ∉ pool → lessT ((nb).best P inc).2 inc.2 = false) →
    ∀ nb ∈ N, lessT ((nb).best P res).2 res.2 = false := by
  induction h with
  | done c inc =>
    intro hpre nb hnb
    exact hpre nb hnb (List.not_mem_nil nb)
  | improve pool c inc res hne himp ih IH =>
    intro _
    exact IH (fun nb hnb hnnb => absurd hnb hnnb)
  | skip pool c inc res hne himp ih IH =>
    intro hpre
    refine IH (fun nb hnb hnin => ?_)
    by_cases hp : nb ∈ pool
    · have hi : g c % pool.length < pool.length :=
        Nat.mod_lt _ (List.length_pos.mpr hne)
      have heq : nb = pool.get ⟨g c % pool.length, hi⟩ :=
        eq_get_of_not_mem_eraseIdx pool (g c % pool.length) hi nb hp hnin
      rw [heq, ← getD_eq_get_of_lt pool (g c % pool.length) default hi]
      exact himp
    · exact hpre nb hnb hp

/-- C4: the schedules returned by `local_search::vnd` and by
`local_search::rvnd` are local optima for every neighborhood of the supplied
list: no neighborhood's `best` applied to the returned incumbent evaluates
strictly below the incumbent under the ε-tolerant tuple comparator. -/
theorem C4_local_optimum (P : Problem) (N : List Neighborhood) (g : ℕ → ℕ)
    (entry entry' res res' : Schedule × (D × D))
    (hv : VndFrom P N 0 entry res)
    (hr : RvndFrom P N g N 0 entry' res') :
    (∀ nb ∈ N, lessT ((nb).best P res).2 res.2 = false)
    ∧ (∀ nb ∈ N, lessT ((nb).best P res').2 res'.2 = false) := by
  constructor
  · intro nb hnb
    rcases List.mem_iff_get.mp hnb with ⟨j, hj⟩
    rw [← hj]
    exact vndFrom_no_improve P N 0 entry res hv
      (fun j hj hj0 => absurd hj0 (Nat.not_lt_zero j)) j.1 j.2
  · exact rvndFrom_no_improve P N g N 0 entry' res' hr
      (fun nb hnb hnnb => absurd hnb hnnb)



set_option maxRecDepth 100000 in
theorem vnd_shift_no_improve :
    lessT ((ShiftN).best Pmanual2 vndEntry).2 vndEntry.2 = false := by
  decide

/-- C4 witness: the concrete vnd and rvnd runs on `Pmanual2` with the single
neighborhood `Shift` terminate at `vndEntry`, and `Shift::best` does not
improve on it. -/
theorem C4_local_optimum_witness :
    lessT ((ShiftN).best Pmanual2 vndEntry).2 vndEntry.2 = false
    ∧ lessT ((ShiftN).best Pmanual2 vndEntry).2 vndEntry.2 = false := by
  have hv : VndFrom Pmanual2 [ShiftN] 0 vndEntry vndEntry :=
    VndFrom.skip 0 vndEntry vndEntry (Nat.zero_lt_one) vnd_shift_no_improve
      (VndFrom.done vndEntry)
  have hr : RvndFrom Pmanual2 [ShiftN] (fun _ => 0) [ShiftN] 0 vndEntry vndEntry :=
    RvndFrom.skip [ShiftN] 0 vndEntry vndEntry (List.cons_ne_nil ShiftN [])
      vnd_shift_no_improve (RvndFrom.done 1 vndEntry)
  have h := C4_local_optimum Pmanual2 [ShiftN] (fun _ => 0)
    vndEntry vndEntry vndEntry vndEntry hv hr
  exact ⟨h.1 ShiftN (List.mem_singleton_self ShiftN),
    h.2 ShiftN (List.mem_singleton_self ShiftN)⟩



/-
The ejection chain of ILS::perturb preserves the multiset of operations.
-/

theorem perm_append_left_comm (a b c : List ℕ) :
    (a ++ (b ++ c)).Perm (b ++ (a ++ c)) := by
  rw [← List.append_assoc, ← List.append_assoc]
  exact (List.perm_append_comm).append_right c

theorem insertIdx_perm_cons (op : ℕ) :
    ∀ (it : ℕ) (l : List ℕ), it ≤ l.length →
      (l.insertIdx it op).Perm (op :: l) := by
  intro it
  induction it with
  | zero => intro l _; rw [List.insertIdx_zero]
  | succ n ihn =>
    intro l hl
    cases l with
    | nil => exact absurd hl (by simp)
    | cons x xs =>
      rw [List.insertIdx_succ_cons]
      exact ((ihn xs (Nat.le_of_succ_le_succ hl)).cons x).trans
        (List.Perm.swap op x xs)

theorem cons_eraseIdx_perm :
    ∀ (l : List ℕ) (i : ℕ) (hi : i < l.length),
      (l.get ⟨i, hi⟩ :: l.eraseIdx i).Perm l := by
  intro l
  induction l with
  | nil => intro i hi; exact absurd hi (by simp)
  | cons x xs ih =>
    intro i hi
    cases i with
    | zero => exact List.Perm.refl _
    | succ n =>
      have hn : n < xs.length := Nat.lt_of_succ_lt_succ hi
      show (xs.get ⟨n, hn⟩ :: x :: xs.eraseIdx n).Perm (x :: xs)
      exact (List.Perm.swap x (xs.get ⟨n, hn⟩) (xs.eraseIdx n)).trans
        ((ih n hn).cons x)

theorem get_append_flatten_set_perm :
    ∀ (l : List (List ℕ)) (i : ℕ) (hi : i < l.length) (ln : List ℕ),
      (l.get ⟨i, hi⟩ ++ (l.set i ln).flatten).Perm (ln ++ l.flatten) := by
  intro l
  induction l with
  | nil => intro i hi; exact absurd hi (by simp)
  | cons x xs ih =>
    intro i hi ln
    cases i with
    | zero =>
      show (x ++ (ln ++ xs.flatten)).Perm (ln ++ (x ++ xs.flatten))
      exact perm_append_left_comm x ln xs.flatten
    | succ n =>
      have hn : n < xs.length := Nat.lt_of_succ_lt_succ hi
      show (xs.get ⟨n, hn⟩ ++ (x ++ (xs.set n ln).flatten)).Perm
        (ln ++ (x ++ xs.flatten))
      exact (perm_append_left_comm _ x _).trans
        (((ih n hn ln).append_left x).trans (perm_append_left_comm x ln xs.flatten))

theorem laneOf_eq_get (sched : Schedule) (l : ℕ) (hl : l < sched.length) :
    laneOf sched l = sched.get ⟨l, hl⟩ := by
  unfold laneOf
  rw [List.getD_eq_getElem?_getD, List.getElem?_eq_getElem hl]
  rfl

theorem flatten_setLane_insert (base : Schedule) (lt op it : ℕ)
    (hlt : lt < base.length) (hit : it ≤ (laneOf base lt).length) :
    (setLane base lt ((laneOf base lt).insertIdx it op)).flatten.Perm
      (op :: base.flatten) := by
  have h1 := get_append_flatten_set_perm base lt hlt
    ((laneOf base lt).insertIdx it op)
  rw [← laneOf_eq_get base lt hlt] at h1
  have h2 : (((laneOf base lt).insertIdx it op) ++ base.flatten).Perm
      (laneOf base lt ++ (op :: base.flatten)) :=
    ((insertIdx_perm_cons op it (laneOf base lt) hit).append_right
      base.flatten).trans List.perm_middle.symm
  exact (List.perm_append_left_iff (laneOf base lt)).mp (h1.trans h2)

theorem flatten_setLane_erase (sched : Schedule) (lo io : ℕ)
    (hlo : lo < sched.length) (hio : io < (laneOf sched lo).length) :
    ((laneOf sched lo).getD io 0 ::
        (setLane sched lo ((laneOf sched lo).eraseIdx io)).flatten).Perm
      sched.flatten := by
  have h1 := get_append_flatten_set_perm sched lo hlo
    ((laneOf sched lo).eraseIdx io)
  rw [← laneOf_eq_get sched lo hlo] at h1
  have hgd : (laneOf sched lo).getD io 0 = (laneOf sched lo).get ⟨io, hio⟩ :=
    getD_eq_get_of_lt (laneOf sched lo) io 0 hio
  have hlane : ((laneOf sched lo).getD io 0 :: (laneOf sched lo).eraseIdx io).Perm
      (laneOf sched lo) := by
    rw [hgd]
    exact cons_eraseIdx_perm (laneOf sched lo) io hio
  have h2 : ((laneOf sched lo).eraseIdx io ++
      ((laneOf sched lo).getD io 0 ::
        (setLane sched lo ((laneOf sched lo).eraseIdx io)).flatten)).Perm
      ((laneOf sched lo).eraseIdx io ++ sched.flatten) :=
    List.perm_middle.trans
      ((hlane.append_right
        (setLane sched lo ((laneOf sched lo).eraseIdx io)).flatten).trans h1)
  exact (List.perm_append_left_iff ((laneOf sched lo).eraseIdx io)).mp h2

theorem tryInsert_some_shape (P : Problem) (base : Schedule) (lt op : ℕ) :
    ∀ (order : List ℕ) (r : Schedule × (D × D)),
      tryInsert P base lt op order = some r →
      ∃ it ∈ order, r.1 = setLane base lt ((laneOf base lt).insertIdx it op) := by
  intro order
  induction order with
  | nil => intro r h; exact absurd h (by simp [tryInsert])
  | cons it rest ih =>
    intro r h
    simp only [tryInsert] at h
    by_cases hc : (evaluate P (setLane base lt ((laneOf base lt).insertIdx it op))).1 ≠ D.inf
    · rw [if_pos hc] at h
      refine ⟨it, List.mem_cons_self it rest, ?_⟩
      rw [← Option.some_inj.mp h]
    · rw [if_neg hc] at h
      rcases ih r h with ⟨it2, hmem, heq⟩
      exact ⟨it2, List.mem_cons_of_mem it hmem, heq⟩

theorem perturbStep_flatten (P : Problem) (lo lt : ℕ) (e res : Schedule × (D × D))
    (h : PerturbStep P lo lt e res) (hlo : lo < e.1.length) (hlt : lt < e.1.length) :
    res.1.flatten.Perm e.1.flatten ∧ res.1.length = e.1.length := by
  cases h with
  | empty h => exact ⟨List.Perm.refl _, rfl⟩
  | moved e0 io order hio hperm hres =>
    have hbaselen : (setLane e.1 lo ((laneOf e.1 lo).eraseIdx io)).length = e.1.length := by
      simp [setLane]
    have hbase := flatten_setLane_erase e.1 lo io hlo hio
    cases htry : tryInsert P (setLane e.1 lo ((laneOf e.1 lo).eraseIdx io)) lt
        ((laneOf e.1 lo).getD io 0) order with
    | some r =>
      rw [htry] at hres
      have hres2 : res = r := hres
      rcases tryInsert_some_shape P _ lt _ order r htry with ⟨it, hmem, heq⟩
      have hit : it ≤ (laneOf (setLane e.1 lo ((laneOf e.1 lo).eraseIdx io)) lt).length := by
        have := List.mem_range.mp (hperm.mem_iff.mp hmem)
        omega
      have hins := flatten_setLane_insert (setLane e.1 lo ((laneOf e.1 lo).eraseIdx io))
        lt ((laneOf e.1 lo).getD io 0) it (by rw [hbaselen]; exact hlt) hit
      constructor
      · rw [hres2, heq]
        exact hins.trans hbase
      · rw [hres2, heq]
        show (setLane (setLane e.1 lo ((laneOf e.1 lo).eraseIdx io)) lt _).length = _
        simp [setLane]
    | none =>
      rw [htry] at hres
      have hres2 : res = (setLane (setLane e.1 lo ((laneOf e.1 lo).eraseIdx io)) lo
          ((laneOf (setLane e.1 lo ((laneOf e.1 lo).eraseIdx io)) lo).insertIdx io
            ((laneOf e.1 lo).getD io 0)), e.2) := hres
      have hlane2 : laneOf (setLane e.1 lo ((laneOf e.1 lo).eraseIdx io)) lo
          = (laneOf e.1 lo).eraseIdx io := by
        rw [laneOf_eq_get _ lo (by rw [hbaselen]; exact hlo)]
        exact List.get_set_eq _
      have hio2 : io ≤ (laneOf (setLane e.1 lo ((laneOf e.1 lo).eraseIdx io)) lo).length := by
        rw [hlane2, List.length_eraseIdx_of_lt hio]
        omega
      have hins := flatten_setLane_insert (setLane e.1 lo ((laneOf e.1 lo).eraseIdx io))
        lo ((laneOf e.1 lo).getD io 0) io (by rw [hbaselen]; exact hlo) hio2
      constructor
      · rw [hres2]
        show ((setLane (setLane e.1 lo ((laneOf e.1 lo).eraseIdx io)) lo
          ((laneOf (setLane e.1 lo ((laneOf e.1 lo).eraseIdx io)) lo).insertIdx io
            ((laneOf e.1 lo).getD io 0))).flatten).Perm _
        rw [hlane2]
        rw [hlane2] at hins
        exact hins.trans hbase
      · rw [hres2]
        show (setLane (setLane e.1 lo ((laneOf e.1 lo).eraseIdx io)) lo _).length = _
        simp [setLane]

theorem perturbPairs_flatten (P : Problem) :
    ∀ (pairs : List (ℕ × ℕ)) (e res : Schedule × (D × D)),
      PerturbPairs P pairs e res →
      (∀ pr ∈ pairs, pr.1 < e.1.length ∧ pr.2 < e.1.length) →
      res.1.flatten.Perm e.1.flatten ∧ res.1.length = e.1.length := by
  intro pairs e res h
  induction h with
  | nil e => intro _; exact ⟨List.Perm.refl _, rfl⟩
  | cons lo lt rest e e' e'' hstep hrest ih =>
    intro hbnd
    have hb0 := hbnd (lo, lt) (List.mem_cons_self _ _)
    have hstep' := perturbStep_flatten P lo lt e e' hstep hb0.1 hb0.2
    have hrest' := ih (fun pr hpr => by
      rw [hstep'.2]
      exact hbnd pr (List.mem_cons_of_mem _ hpr))
    exact ⟨hrest'.1.trans hstep'.1, hrest'.2.trans hstep'.2⟩



/-- C8: the ejection-chain perturbation of `ILS::perturb` preserves the
operations of the entry schedule as a multiset: every ejected operation is
either committed at the first feasible insertion position tried in the
target lane or restored to its original position, so the returned schedule
is a permutation of the entry's operations (same counts; each exactly once
when the entry has each exactly once), and the number of lanes is
unchanged. -/
theorem C8_perturb_preserves_ops (P : Problem) (e res : Schedule × (D × D))
    (hlen : e.1.length = P.m + 1) (h : PerturbRel P e res) :
    res.1.flatten.Perm e.1.flatten
    ∧ res.1.length = e.1.length
    ∧ (∀ op : ℕ, res.1.flatten.count op = e.1.flatten.count op)
    ∧ (e.1.flatten.Nodup → res.1.flatten.Nodup) := by
  rcases h with ⟨chain, hchain, hpairs⟩
  have hbnd : ∀ pr ∈ chain.zip (chain.rotate 1),
      pr.1 < e.1.length ∧ pr.2 < e.1.length := by
    intro pr hpr
    rcases pr with ⟨a, b⟩
    have hab := List.of_mem_zip hpr
    have ha2 := List.mem_range'_1.mp (hchain.mem_iff.mp hab.1)
    have hb2 := List.mem_range'_1.mp (hchain.mem_iff.mp (List.mem_rotate.mp hab.2))
    exact ⟨by omega, by omega⟩
  have hmain := perturbPairs_flatten P _ e res hpairs hbnd
  exact ⟨hmain.1, hmain.2, fun op => hmain.1.count_eq op,
    fun hnd => (hmain.1.nodup_iff).mpr hnd⟩

set_option maxRecDepth 100000 in
/-- C8 witness: on `Pmanual22`, a concrete two-step ejection chain moves
operation 1 from team 1 to team 2 and back to team 1 at the other position,
and the resulting schedule is a permutation of the entry's operations. -/
theorem C8_perturb_preserves_ops_witness :
    ([[], [2, 1], []] : Schedule).flatten.Perm
      ([[], [1, 2], []] : Schedule).flatten := by
  have h : PerturbRel Pmanual22 ([[], [1, 2], []], evaluate Pmanual22 [[], [1, 2], []])
      ([[], [2, 1], []], evaluate Pmanual22 [[], [2, 1], []]) := by
    refine ⟨[1, 2], by decide, ?_⟩
    show PerturbPairs Pmanual22 [(1, 2), (2, 1)] _ _
    refine PerturbPairs.cons 1 2 _ _
      ([[], [2], [1]], evaluate Pmanual22 [[], [2], [1]]) _ ?_ ?_
    · exact PerturbStep.moved _ _ 0 [0] (by decide) (by decide) (by decide)
    · refine PerturbPairs.cons 2 1 _ _
        ([[], [2, 1], []], evaluate Pmanual22 [[], [2, 1], []]) _ ?_ ?_
      · exact PerturbStep.moved _ _ 0 [1, 0] (by decide) (by decide) (by decide)
      · exact PerturbPairs.nil _
  exact (C8_perturb_preserves_ops Pmanual22
    ([[], [1, 2], []], evaluate Pmanual22 [[], [1, 2], []])
    ([[], [2, 1], []], evaluate Pmanual22 [[], [2, 1], []]) (by decide) h).1



/-
The ILS main loop runs the local search on the initial solution.
-/

theorem vndFrom_deterministic (P : Problem) (N : List Neighborhood) :
    ∀ (k : ℕ) (inc res res' : Schedule × (D × D)),
      VndFrom P N k inc res → VndFrom P N k inc res' → res = res' := by
  intro k inc res res' h1
  induction h1 with
  | done inc =>
    intro h2
    cases h2 with
    | done => rfl
    | improve _ _ _ hk himp ih => exact absurd hk (lt_irrefl _)
    | skip _ _ _ hk himp ih => exact absurd hk (lt_irrefl _)
  | improve k inc res hk himp ih IH =>
    intro h2
    cases h2 with
    | done => exact absurd hk (lt_irrefl _)
    | improve _ _ _ hk2 himp2 ih2 => exact IH ih2
    | skip _ _ _ hk2 himp2 ih2 =>
      rw [himp] at himp2
      exact absurd himp2 (by simp)
  | skip k inc res hk himp ih IH =>
    intro h2
    cases h2 with
    | done => exact absurd hk (lt_irrefl _)
    | improve _ _ _ hk2 himp2 ih2 =>
      rw [himp] at himp2
      exact absurd himp2 Bool.false_ne_true
    | skip _ _ _ hk2 himp2 ih2 => exact IH ih2

/-- C1: in the source's ILS main loop (ils.cpp), the trial solution submitted
to the improvement test is the result of running the local search on `start`
— the initial solution computed before the loop — regardless of the schedule
produced by the perturbation phase: any run of the local search from `start`
yields exactly the trial, whatever the incumbent, the number of perturbation
passes, or the perturbed schedule.  This refutes the claim that
`trial = LocalSearch(perturbed)`. -/
theorem C1_trial_ignores_perturbation (P : Problem) (N : List Neighborhood)
    (start incumbent : Schedule × (D × D)) (passes : ℕ)
    (perturbed trial res : Schedule × (D × D))
    (hiter : IlsIterVnd P N start incumbent passes perturbed trial)
    (hv : VndFrom P N 0 start res) :
    trial = res := by
  cases hiter with
  | mk hperturb hls => exact vndFrom_deterministic P N 0 start trial res hls hv

set_option maxRecDepth 100000 in
/-- C1 witness: a concrete ILS iteration on `Pmanual2` whose perturbation
phase ejects operation 2 and restores the schedule, starting the local
search from `vndEntry`; the trial equals the vnd result from `vndEntry`. -/
theorem C1_trial_ignores_perturbation_witness : vndEntry = vndEntry := by
  have hls : VndFrom Pmanual2 [ShiftN] 0 vndEntry vndEntry :=
    VndFrom.skip 0 vndEntry vndEntry Nat.zero_lt_one vnd_shift_no_improve
      (VndFrom.done vndEntry)
  have hpert : PerturbRel Pmanual2 ([[], [2, 1]], evaluate Pmanual2 [[], [2, 1]]) vndEntry := by
    refine ⟨[1], by decide, ?_⟩
    show PerturbPairs Pmanual2 [(1, 1)] _ _
    refine PerturbPairs.cons 1 1 _ _ vndEntry _ ?_ (PerturbPairs.nil _)
    exact PerturbStep.moved _ _ 0 [0, 1] (by decide) (by decide) (by decide)
  exact C1_trial_ignores_perturbation Pmanual2 [ShiftN] vndEntry
    ([[], [2, 1]], evaluate Pmanual2 [[], [2, 1]]) 1 vndEntry vndEntry vndEntry
    (IlsIterVnd.mk vndEntry vndEntry
      (PerturbPow.base _ _ hpert) hls) hls



/-
evaluate's makespan component versus Problem::makespan.
-/

theorem index_full_of_finite {P : Problem} {sched : Schedule}
    (hpw : ProblemWF P) (hlen : sched.length = P.m + 1)
    (hpart : sched.flatten.Perm (List.range' 1 P.n))
    (hfin : ∀ i, 1 ≤ i → i ≤ P.n → start_time P sched i ≠ D.inf) :
    ∀ l, l < P.m + 1 → (finalState P sched).index l = (laneOf sched l).length := by
  intro l hl
  have hw := schedWF_of_partition hlen hpart
  have hinv := finalState_inv hpw hw
  by_contra hcon
  have hlt : (finalState P sched).index l < (laneOf sched l).length :=
    lt_of_le_of_ne (hinv.hidx l) hcon
  have hrel := unreleased_at_ge hw hinv hl (le_refl _) hlt
  have hxmem : (laneOf sched l)[(finalState P sched).index l] ∈ laneOf sched l :=
    List.getElem_mem hlt
  have hxflat : (laneOf sched l)[(finalState P sched).index l] ∈ sched.flatten := by
    rw [← scannedOps_eq_flatten hlen]
    exact mem_scannedOps_iff.mpr ⟨l, hl, hxmem⟩
  have hxrange := List.mem_range'_1.mp (hpart.mem_iff.mp hxflat)
  have hfinx := hfin _ hxrange.1 (by omega)
  rw [start_time_eq_final] at hfinx
  rcases (hinv.hrelax _).mp hfinx with h0 | hr
  · omega
  · rw [hrel] at hr
    cases hr

theorem lane_completion_mono {P : Problem} {sched : Schedule} {st : SimState}
    (hinv : SimInv P sched st) {l : ℕ} (h1l : 1 ≤ l) (hl : l < P.m + 1)
    (hfull : st.index l = (laneOf sched l).length)
    (hp0 : ∀ i, 0 ≤ P.p i) (hs0 : ∀ i j k, 0 ≤ P.s i j k) :
    ∀ (pos1 pos2 : ℕ) (hp2 : pos2 < (laneOf sched l).length), pos1 ≤ pos2 →
      ∀ (hp1 : pos1 < (laneOf sched l).length),
      st.t ((laneOf sched l).get ⟨pos1, hp1⟩) + D.fin (P.p ((laneOf sched l).get ⟨pos1, hp1⟩))
        ≤ st.t ((laneOf sched l).get ⟨pos2, hp2⟩)
            + D.fin (P.p ((laneOf sched l).get ⟨pos2, hp2⟩)) := by
  intro pos1 pos2
  induction pos2 with
  | zero =>
    intro hp2 hle hp1
    have h0 : pos1 = 0 := Nat.le_zero.mp hle
    subst h0
    exact dle_refl _
  | succ k ih =>
    intro hp2 hle hp1
    rcases Nat.lt_or_ge pos1 (k + 1) with hlt | hge
    · have hle2 : pos1 ≤ k := by omega
      have hk : k < (laneOf sched l).length := by omega
      refine dle_trans (ih hk hle2 hp1) ?_
      rcases hinv.hchain l h1l hl k (by omega) with ⟨hpk, hch⟩
      have h1 : st.t ((laneOf sched l).get ⟨k, hk⟩) + D.fin (P.p ((laneOf sched l).get ⟨k, hk⟩))
          ≤ st.t ((laneOf sched l).get ⟨k + 1, hp2⟩) :=
        dle_trans (dle_add_fin_of_nonneg _ (hs0 _ _ _)) hch
      exact dle_trans h1 (dle_add_fin_of_nonneg _ (hp0 _))
    · have h0 : pos1 = k + 1 := by omega
      subst h0
      exact dle_refl _



theorem mem_isEmpty_false {ln : List ℕ} {x : ℕ} (hx : x ∈ ln) :
    ln.isEmpty = false := by
  cases ln
  · cases hx
  · rfl

theorem getD_last_mem (ln : List ℕ) (hne : ln.isEmpty = false) :
    ln.getD (ln.length - 1) 0 ∈ ln := by
  have hl : ln.length - 1 < ln.length := by
    cases ln
    · cases hne
    · simp
  rw [getD_eq_get_of_lt ln (ln.length - 1) 0 hl]
  exact List.get_mem ln _ hl

theorem laneCompletion_eq_last (P : Problem) (t : ℕ → D) (ln : List ℕ)
    (h : ln.length - 1 < ln.length) :
    laneCompletion P t ln
      = t (ln.get ⟨ln.length - 1, h⟩) + D.fin (P.p (ln.get ⟨ln.length - 1, h⟩)) := by
  unfold laneCompletion
  rw [getD_eq_get_of_lt ln (ln.length - 1) 0 h]

/-- C9: when the forward simulator releases all n operations (all start
times finite), the makespan component of `common::evaluate` — computed from
only the last operation of each non-empty manual lane together with all
lane-0 operations — coincides with `Problem::makespan`, the maximum of
`t[i] + p[i]` over all operations, because completion times are
non-decreasing along each manual lane. -/
theorem C9_evaluate_fst_eq_makespan (P : Problem) (sched : Schedule)
    (hpw : ProblemWF P) (hlen : sched.length = P.m + 1)
    (hpart : sched.flatten.Perm (List.range' 1 P.n))
    (hp0 : ∀ i, 0 ≤ P.p i) (hs0 : ∀ i j k, 0 ≤ P.s i j k)
    (hfin : ∀ i, 1 ≤ i → i ≤ P.n → start_time P sched i ≠ D.inf) :
    (evaluate P sched).1 = makespan P sched := by
  have hw := schedWF_of_partition hlen hpart
  have hinv := finalState_inv hpw hw
  have hfull := index_full_of_finite hpw hlen hpart hfin
  have hmemrange : ∀ l, l < P.m + 1 → ∀ i ∈ laneOf sched l, 1 ≤ i ∧ i ≤ P.n := by
    intro l hl i hi
    have hif : i ∈ sched.flatten := by
      rw [← scannedOps_eq_flatten hlen]
      exact mem_scannedOps_iff.mpr ⟨l, hl, hi⟩
    have hir := List.mem_range'_1.mp (hpart.mem_iff.mp hif)
    exact ⟨hir.1, by omega⟩
  have hcomp_le_makespan : ∀ i, 1 ≤ i → i ≤ P.n →
      start_time P sched i + D.fin (P.p i) ≤ makespan P sched := by
    intro i h1 h2
    exact le_foldl_dmax_of_mem
      (fun i => start_time P sched i + D.fin (P.p i)) (List.range' 1 P.n)
      (List.mem_range'_1.mpr ⟨h1, by omega⟩) (D.fin 0)
  apply dle_antisymm
  · show (laneOf sched 0).foldl
        (fun acc i => D.dmax acc (start_time P sched i + D.fin (P.p i)))
        ((List.range' 1 P.m).foldl (evalManStep P sched (start_time P sched))
          (D.fin 0, D.fin 0)).1
      ≤ makespan P sched
    refine foldl_dmax_le _ _ _ ?_ ?_
    · refine evalMan_fst_bound P sched (start_time P sched) _ _ ?_ ?_
      · exact le_foldl_dmax_init
          (fun i => start_time P sched i + D.fin (P.p i)) (List.range' 1 P.n) (D.fin 0)
      · intro l hlmem hlne
        have hlr := List.mem_range'_1.mp hlmem
        have hx := getD_last_mem (laneOf sched l) hlne
        have hrange := hmemrange l (by omega) _ hx
        show start_time P sched ((laneOf sched l).getD ((laneOf sched l).length - 1) 0)
            + D.fin (P.p ((laneOf sched l).getD ((laneOf sched l).length - 1) 0))
          ≤ makespan P sched
        exact hcomp_le_makespan _ hrange.1 hrange.2
    · intro i hi
      have hr := hmemrange 0 (by omega) i hi
      exact hcomp_le_makespan i hr.1 hr.2
  · show (List.range' 1 P.n).foldl
        (fun acc i => D.dmax acc (start_time P sched i + D.fin (P.p i))) (D.fin 0)
      ≤ (evaluate P sched).1
    refine foldl_dmax_le _ _ _ ?_ ?_
    · refine dle_trans (evalMan_fst_mono P sched (start_time P sched)
        (List.range' 1 P.m) (D.fin 0, D.fin 0)) ?_
      exact le_foldl_dmax_init
        (fun i => start_time P sched i + D.fin (P.p i)) (laneOf sched 0)
        ((List.range' 1 P.m).foldl (evalManStep P sched (start_time P sched))
          (D.fin 0, D.fin 0)).1
    · intro i hi
      have hiflat : i ∈ scannedOps P sched := by
        rw [scannedOps_eq_flatten hlen]
        exact hpart.mem_iff.mpr hi
      rcases mem_scannedOps_iff.mp hiflat with ⟨l, hl, hilane⟩
      by_cases hl0 : l = 0
      · subst hl0
        exact le_foldl_dmax_of_mem
          (fun i => start_time P sched i + D.fin (P.p i)) (laneOf sched 0) hilane
          ((List.range' 1 P.m).foldl (evalManStep P sched (start_time P sched))
            (D.fin 0, D.fin 0)).1
      · have h1l : 1 ≤ l := Nat.one_le_iff_ne_zero.mpr hl0
        rcases List.mem_iff_getElem.mp hilane with ⟨pos, hpos, hip⟩
        have hlast : (laneOf sched l).length - 1 < (laneOf sched l).length := by
          omega
        have hmono := lane_completion_mono hinv h1l hl (hfull l hl) hp0 hs0 pos
          ((laneOf sched l).length - 1) hlast (by omega) hpos
        rw [← hip]
        have hstep1 : start_time P sched ((laneOf sched l).get ⟨pos, hpos⟩)
            + D.fin (P.p ((laneOf sched l).get ⟨pos, hpos⟩))
            ≤ laneCompletion P (start_time P sched) (laneOf sched l) := by
          rw [laneCompletion_eq_last P (start_time P sched) (laneOf sched l) hlast]
          exact hmono
        have hstep2 : laneCompletion P (start_time P sched) (laneOf sched l)
            ≤ ((List.range' 1 P.m).foldl (evalManStep P sched (start_time P sched))
              (D.fin 0, D.fin 0)).1 :=
          evalMan_fst_mem P sched (start_time P sched) (List.range' 1 P.m)
            (D.fin 0, D.fin 0) l (List.mem_range'_1.mpr ⟨h1l, by omega⟩)
            (mem_isEmpty_false hilane)
        have hstep3 : ((List.range' 1 P.m).foldl (evalManStep P sched (start_time P sched))
              (D.fin 0, D.fin 0)).1 ≤ (evaluate P sched).1 :=
          le_foldl_dmax_init
            (fun i => start_time P sched i + D.fin (P.p i)) (laneOf sched 0) _
        exact dle_trans hstep1 (dle_trans hstep2 hstep3)



set_option maxRecDepth 100000 in
/-- C9 witness: on the two-operation manual chain, the makespan component of
`evaluate` equals `Problem::makespan` for the feasible schedule. -/
theorem C9_evaluate_fst_eq_makespan_witness :
    (evaluate Pmanual2 [[], [1, 2]]).1 = makespan Pmanual2 [[], [1, 2]] :=
  C9_evaluate_fst_eq_makespan Pmanual2 [[], [1, 2]] pmanual2_wf (by decide)
    (by decide) (fun _ => show (0 : ℚ) ≤ 1 by decide)
    (fun _ _ _ => show (0 : ℚ) ≤ 0 by decide)
    (fun i h1 h2 => by
      have h2' : i ≤ 2 := h2
      interval_cases i <;> decide)



/-
The scalar makespan maintained by Greedy::solve covers manual lanes only.
-/

/-- The operations currently placed in the manual lanes 1..m. -/
def manFlat (P : Problem) (sched : Schedule) : List ℕ :=
  ((List.range' 1 P.m).map (laneOf sched)).flatten

/-- The maximum completion time `t[j] + p[j]` over the manually scheduled
operations (0 when none), with the greedy state's start times. -/
def manualMakespan (P : Problem) (st : GreedyState) : ℚ :=
  (manFlat P st.sched).foldl (fun acc j => qmax acc (qadd (st.t j) (P.p j))) 0

/-- Invariant of the greedy main loop: the running `makespan` scalar equals
the maximum completion over the manual lanes, and the already-placed manual
operations are out of both unscheduled sets. -/
structure GInv (P : Problem) (st : GreedyState) : Prop where
  hlen : st.sched.length = P.m + 1
  hmk : st.mkspan = manualMakespan P st
  hman : ∀ x ∈ manFlat P st.sched, x ∉ st.Sman
  hrem : ∀ x ∈ manFlat P st.sched, x ∉ st.Srem
  hdisj : ∀ x ∈ st.Sman, x ∉ st.Srem
  hndm : st.Sman.Nodup

theorem qmax_right_comm (a b c : ℚ) : qmax (qmax a b) c = qmax (qmax a c) b := by
  rw [qmax_eq_max, qmax_eq_max, qmax_eq_max, qmax_eq_max, max_assoc, max_comm b c,
    ← max_assoc]

theorem foldl_qmax_congr (g g' : ℕ → ℚ) :
    ∀ (L : List ℕ), (∀ x ∈ L, g x = g' x) → ∀ (a : ℚ),
      L.foldl (fun acc x => qmax acc (g x)) a
        = L.foldl (fun acc x => qmax acc (g' x)) a := by
  intro L
  induction L with
  | nil => intro _ a; rfl
  | cons x xs ih =>
    intro h a
    show xs.foldl _ (qmax a (g x)) = xs.foldl _ (qmax a (g' x))
    rw [h x (List.mem_cons_self x xs)]
    exact ih (fun y hy => h y (List.mem_cons_of_mem x hy)) _

theorem foldl_qmax_pull (g : ℕ → ℚ) :
    ∀ (L : List ℕ) (a c : ℚ),
      L.foldl (fun acc x => qmax acc (g x)) (qmax a c)
        = qmax (L.foldl (fun acc x => qmax acc (g x)) a) c := by
  intro L
  induction L with
  | nil => intro a c; rfl
  | cons x xs ih =>
    intro a c
    show xs.foldl _ (qmax (qmax a c) (g x)) = qmax (xs.foldl _ (qmax a (g x))) c
    rw [qmax_right_comm a c (g x)]
    exact ih (qmax a (g x)) c

theorem foldl_qmax_perm (g : ℕ → ℚ) {L1 L2 : List ℕ} (h : L1.Perm L2) (a : ℚ) :
    L1.foldl (fun acc x => qmax acc (g x)) a
      = L2.foldl (fun acc x => qmax acc (g x)) a :=
  h.foldl_eq' (fun x _ y _ z => qmax_right_comm z (g x) (g y)) a

theorem laneOf_setLane_ne (sched : Schedule) (l l' : ℕ) (ln : List ℕ)
    (h : l' ≠ l) : laneOf (setLane sched l ln) l' = laneOf sched l' := by
  unfold laneOf setLane
  rw [List.getD_eq_getElem?_getD, List.getD_eq_getElem?_getD,
    List.getElem?_set_ne (fun hc => h hc.symm)]

theorem laneOf_setLane_self (sched : Schedule) (l : ℕ) (ln : List ℕ)
    (h : l < sched.length) : laneOf (setLane sched l ln) l = ln := by
  have h2 : l < (sched.set l ln).length := by simpa using h
  show (sched.set l ln).getD l [] = ln
  rw [List.getD_eq_getElem?_getD, List.getElem?_eq_getElem h2]
  simp

theorem manFlat_setLane0 (P : Problem) (sched : Schedule) (ln : List ℕ) :
    manFlat P (setLane sched 0 ln) = manFlat P sched := by
  unfold manFlat
  congr 1
  apply List.map_congr_left
  intro l hl
  have h1 := (List.mem_range'_1.mp hl).1
  exact laneOf_setLane_ne sched 0 l ln (by omega)

theorem flatten_map_setLane_perm (sched : Schedule) (l j : ℕ)
    (hlsched : l < sched.length) :
    ∀ (L : List ℕ), L.Nodup → l ∈ L →
      ((L.map (laneOf (setLane sched l (laneOf sched l ++ [j])))).flatten).Perm
        (j :: (L.map (laneOf sched)).flatten) := by
  intro L
  induction L with
  | nil => intro _ h; cases h
  | cons x xs ih =>
    intro hnd hmem
    rcases List.mem_cons.mp hmem with hx | hx
    · subst hx
      have hxs : l ∉ xs := (List.nodup_cons.mp hnd).1
      have hmap : xs.map (laneOf (setLane sched l (laneOf sched l ++ [j])))
          = xs.map (laneOf sched) :=
        List.map_congr_left (fun y hy =>
          laneOf_setLane_ne sched l y _ (fun hc => hxs (hc ▸ hy)))
      show ((laneOf (setLane sched l (laneOf sched l ++ [j])) l)
          ++ (xs.map (laneOf (setLane sched l (laneOf sched l ++ [j])))).flatten).Perm
        (j :: (laneOf sched l ++ (xs.map (laneOf sched)).flatten))
      rw [laneOf_setLane_self sched l _ hlsched, hmap, List.append_assoc]
      show (laneOf sched l ++ (j :: (xs.map (laneOf sched)).flatten)).Perm _
      exact List.perm_middle
    · have hne : x ≠ l := fun hc => (List.nodup_cons.mp hnd).1 (hc ▸ hx)
      have hihg := ih (List.nodup_cons.mp hnd).2 hx
      show ((laneOf (setLane sched l (laneOf sched l ++ [j])) x)
          ++ (xs.map (laneOf (setLane sched l (laneOf sched l ++ [j])))).flatten).Perm
        (j :: (laneOf sched x ++ (xs.map (laneOf sched)).flatten))
      rw [laneOf_setLane_ne sched l x _ hne]
      exact (hihg.append_left (laneOf sched x)).trans List.perm_middle

theorem manFlat_setLane_append (P : Problem) (sched : Schedule) (l j : ℕ)
    (h1l : 1 ≤ l) (hl : l < P.m + 1) (hlen : sched.length = P.m + 1) :
    (manFlat P (setLane sched l (laneOf sched l ++ [j]))).Perm
      (j :: manFlat P sched) :=
  flatten_map_setLane_perm sched l j (by omega) (List.range' 1 P.m)
    (List.nodup_range' ..) (List.mem_range'_1.mpr ⟨h1l, by omega⟩)



theorem chooseManual_inner_shape (P : Problem) (st : GreedyState) (j : ℕ)
    (hj : j ∈ st.Sman) :
    ∀ (L : List ℕ), (∀ l ∈ L, 1 ≤ l ∧ l < P.m + 1) →
      ∀ (acc : Option (ℕ × ℕ × ℚ)),
      (∀ x, acc = some x → x.1 ∈ st.Sman ∧ 1 ≤ x.2.1 ∧ x.2.1 < P.m + 1) →
      ∀ x, (L.foldl
          (fun (acc2 : Option (ℕ × ℕ × ℚ)) l =>
            let crit := qadd (qadd (st.t (st.phi l)) (P.p (st.phi l))) (P.s (st.phi l) j l)
            match acc2 with
            | none => some (j, l, crit)
            | some x => if crit < x.2.2 then some (j, l, crit) else acc2)
          acc) = some x →
        x.1 ∈ st.Sman ∧ 1 ≤ x.2.1 ∧ x.2.1 < P.m + 1 := by
  intro L
  induction L with
  | nil => intro _ acc hacc x h; exact hacc x h
  | cons l ls ih =>
    intro hL acc hacc x h
    refine ih (fun l2 h2 => hL l2 (List.mem_cons_of_mem l h2)) _ ?_ x h
    intro y hy
    rcases hl : acc with _ | z
    · rw [hl] at hy
      simp only [] at hy
      rw [← Option.some_inj.mp hy]
      exact ⟨hj, (hL l (List.mem_cons_self l ls)).1, (hL l (List.mem_cons_self l ls)).2⟩
    · rw [hl] at hy
      simp only [] at hy
      by_cases hc : qadd (qadd (st.t (st.phi l)) (P.p (st.phi l))) (P.s (st.phi l) j l) < z.2.2
      · rw [if_pos hc] at hy
        rw [← Option.some_inj.mp hy]
        exact ⟨hj, (hL l (List.mem_cons_self l ls)).1, (hL l (List.mem_cons_self l ls)).2⟩
      · rw [if_neg hc] at hy
        exact hacc y (hl.symm ▸ hy)

theorem chooseManual_outer_shape (P : Problem) (st : GreedyState) :
    ∀ (L : List ℕ), (∀ j ∈ L, j ∈ st.Sman) →
      ∀ (acc : Option (ℕ × ℕ × ℚ)),
      (∀ x, acc = some x → x.1 ∈ st.Sman ∧ 1 ≤ x.2.1 ∧ x.2.1 < P.m + 1) →
      ∀ x, (L.foldl
          (fun acc j =>
            if st.gamma j = 0 then
              (List.range' 1 P.m).foldl
                (fun (acc2 : Option (ℕ × ℕ × ℚ)) l =>
                  let crit := qadd (qadd (st.t (st.phi l)) (P.p (st.phi l)))
                    (P.s (st.phi l) j l)
                  match acc2 with
                  | none => some (j, l, crit)
                  | some x => if crit < x.2.2 then some (j, l, crit) else acc2)
                acc
            else acc)
          acc) = some x →
        x.1 ∈ st.Sman ∧ 1 ≤ x.2.1 ∧ x.2.1 < P.m + 1 := by
  intro L
  induction L with
  | nil => intro _ acc hacc x h; exact hacc x h
  | cons j js ih =>
    intro hL acc hacc x h
    refine ih (fun y hy => hL y (List.mem_cons_of_mem j hy)) _ ?_ x h
    intro y hy
    simp only [] at hy
    by_cases hg : st.gamma j = 0
    · rw [if_pos hg] at hy
      exact chooseManual_inner_shape P st j (hL j (List.mem_cons_self j js))
        (List.range' 1 P.m) (fun l hl => by
          have := List.mem_range'_1.mp hl
          exact ⟨this.1, by omega⟩) acc hacc y hy
    · rw [if_neg hg] at hy
      exact hacc y hy

theorem chooseManual_shape (P : Problem) (st : GreedyState) {j l : ℕ}
    (h : chooseManual P st = some (j, l)) :
    j ∈ st.Sman ∧ 1 ≤ l ∧ l < P.m + 1 := by
  unfold chooseManual at h
  rcases Option.map_eq_some'.mp h with ⟨x, hx, hxy⟩
  have hq := chooseManual_outer_shape P st st.Sman (fun _ h => h)
    none (fun y hy => by cases hy) x hx
  have h1 : x.1 = j := congrArg Prod.fst hxy
  have h2 : x.2.1 = l := congrArg (fun p => p.2) hxy
  rw [h1] at hq
  rw [h2] at hq
  exact hq



/-- Invariant of one ascending pass over `S_remote`: only lane 0, the start
times of old-remote operations, and the processed/kept bookkeeping change. -/
def PassQ (P : Problem) (st : GreedyState) (acc : GreedyState × List ℕ × Bool) : Prop :=
  acc.1.sched.length = st.sched.length
  ∧ manFlat P acc.1.sched = manFlat P st.sched
  ∧ acc.1.mkspan = st.mkspan
  ∧ (∀ x, x ∉ st.Srem → acc.1.t x = st.t x)
  ∧ acc.1.Sman = st.Sman
  ∧ (∀ x ∈ acc.2.1, x ∈ st.Srem)

theorem remotePass_fold_inv (P : Problem) (st : GreedyState) :
    ∀ (L : List ℕ), (∀ x ∈ L, x ∈ st.Srem) →
      ∀ (acc : GreedyState × List ℕ × Bool), PassQ P st acc →
      PassQ P st (L.foldl
        (fun (acc : GreedyState × List ℕ × Bool) j =>
          if acc.1.gamma j = 0 then (scheduleRemote P acc.1 j, acc.2.1, true)
          else (acc.1, acc.2.1 ++ [j], acc.2.2)) acc) := by
  intro L
  induction L with
  | nil => intro _ acc h; exact h
  | cons j js ih =>
    intro hL acc h
    obtain ⟨q1, q2, q3, q4, q5, q6⟩ := h
    refine ih (fun x hx => hL x (List.mem_cons_of_mem j hx)) _ ?_
    show PassQ P st (if acc.1.gamma j = 0 then (scheduleRemote P acc.1 j, acc.2.1, true)
      else (acc.1, acc.2.1 ++ [j], acc.2.2))
    by_cases hg : acc.1.gamma j = 0
    · rw [if_pos hg]
      refine ⟨?_, ?_, q3, ?_, q5, q6⟩
      · show (setLane acc.1.sched 0 (laneOf acc.1.sched 0 ++ [j])).length = _
        rw [← q1]
        simp [setLane]
      · show manFlat P (setLane acc.1.sched 0 (laneOf acc.1.sched 0 ++ [j])) = _
        rw [manFlat_setLane0, q2]
      · intro x hx
        show Function.update acc.1.t j _ x = st.t x
        rw [Function.update_noteq
          (fun hc => hx (by rw [hc]; exact hL j (List.mem_cons_self j js)))]
        exact q4 x hx
    · rw [if_neg hg]
      refine ⟨q1, q2, q3, q4, q5, ?_⟩
      intro x hx
      rcases List.mem_append.mp hx with hx | hx
      · exact q6 x hx
      · rw [List.mem_singleton.mp hx]
        exact hL j (List.mem_cons_self j js)

theorem ginv_pass_core (P : Problem) (st : GreedyState) (h : GInv P st)
    (g : GreedyState) (k : List ℕ) (b : Bool) (hq : PassQ P st (g, k, b)) :
    GInv P { g with Srem := k } := by
  obtain ⟨q1, q2, q3, q4, q5, q6⟩ := hq
  have q1' : g.sched.length = st.sched.length := q1
  have q2' : manFlat P g.sched = manFlat P st.sched := q2
  have q3' : g.mkspan = st.mkspan := q3
  have q4' : ∀ x, x ∉ st.Srem → g.t x = st.t x := q4
  have q5' : g.Sman = st.Sman := q5
  have q6' : ∀ x ∈ k, x ∈ st.Srem := q6
  have hmm : manualMakespan P g = manualMakespan P st := by
    unfold manualMakespan
    rw [q2']
    exact foldl_qmax_congr _ _ (manFlat P st.sched)
      (fun x hx => by rw [q4' x (h.hrem x hx)]) 0
  constructor
  · show g.sched.length = P.m + 1
    rw [q1', h.hlen]
  · show g.mkspan = manualMakespan P g
    rw [hmm, q3', h.hmk]
  · intro x hx
    have hx' : x ∈ manFlat P st.sched := q2' ▸ hx
    intro hc
    exact h.hman x hx' (q5' ▸ hc)
  · intro x hx
    have hx' : x ∈ manFlat P st.sched := q2' ▸ hx
    intro hc
    exact h.hrem x hx' (q6' x hc)
  · intro x hx
    intro hc
    have hx2 : x ∈ st.Sman := q5' ▸ hx
    exact h.hdisj x hx2 (q6' x hc)
  · show g.Sman.Nodup
    rw [q5']
    exact h.hndm

theorem ginv_remotePass (P : Problem) (st : GreedyState) (h : GInv P st) :
    GInv P (remotePass P st).1 := by
  have hq := remotePass_fold_inv P st st.Srem (fun _ hx => hx) (st, [], false)
    ⟨rfl, rfl, rfl, fun _ _ => rfl, rfl, fun x hx => by cases hx⟩
  exact ginv_pass_core P st h _ _ _ hq

theorem ginv_drainRemoteF (P : Problem) :
    ∀ (fuel : ℕ) (st : GreedyState), GInv P st → GInv P (drainRemoteF P fuel st) := by
  intro fuel
  induction fuel with
  | zero => intro st h; exact h
  | succ fuel ih =>
    intro st h
    show GInv P (if (remotePass P st).2 then drainRemoteF P fuel (remotePass P st).1
      else (remotePass P st).1)
    by_cases hb : (remotePass P st).2 = true
    · rw [if_pos hb]
      exact ih _ (ginv_remotePass P st h)
    · rw [if_neg hb]
      exact ginv_remotePass P st h

theorem ginv_applyManual (P : Problem) (st : GreedyState) (j l : ℕ)
    (h : GInv P st) (hj : j ∈ st.Sman) (h1l : 1 ≤ l) (hl : l < P.m + 1) :
    GInv P (applyManual P st j l) := by
  have hperm := manFlat_setLane_append P st.sched l j h1l hl h.hlen
  have hjman : j ∉ manFlat P st.sched := fun hc => h.hman j hc hj
  constructor
  · show (setLane st.sched l (laneOf st.sched l ++ [j])).length = _
    rw [← h.hlen]
    simp [setLane]
  · show qmax st.mkspan (qadd ((P.predecessors j).foldl
        (fun v i => qmax v (qadd (if i = j then v else st.t i) (P.p i)))
        (qadd (qadd (st.t (st.phi l)) (P.p (st.phi l))) (P.s (st.phi l) j l))) (P.p j))
      = (manFlat P (setLane st.sched l (laneOf st.sched l ++ [j]))).foldl
        (fun acc i => qmax acc (qadd (Function.update st.t j
          ((P.predecessors j).foldl
            (fun v i => qmax v (qadd (if i = j then v else st.t i) (P.p i)))
            (qadd (qadd (st.t (st.phi l)) (P.p (st.phi l))) (P.s (st.phi l) j l))) i)
          (P.p i))) 0
    rw [foldl_qmax_perm _ hperm 0]
    show _ = (manFlat P st.sched).foldl _ (qmax 0 (qadd (Function.update st.t j
      ((P.predecessors j).foldl
        (fun v i => qmax v (qadd (if i = j then v else st.t i) (P.p i)))
        (qadd (qadd (st.t (st.phi l)) (P.p (st.phi l))) (P.s (st.phi l) j l))) j)
      (P.p j)))
    rw [Function.update_same]
    rw [foldl_qmax_congr
      (fun i => qadd (Function.update st.t j
        ((P.predecessors j).foldl
          (fun v i => qmax v (qadd (if i = j then v else st.t i) (P.p i)))
          (qadd (qadd (st.t (st.phi l)) (P.p (st.phi l))) (P.s (st.phi l) j l))) i)
        (P.p i))
      (fun i => qadd (st.t i) (P.p i)) (manFlat P st.sched)
      (fun x hx => by
        have hxj : x ≠ j := fun hc => hjman (by rw [← hc]; exact hx)
        show qadd (Function.update st.t j _ x) (P.p x) = qadd (st.t x) (P.p x)
        rw [Function.update_noteq hxj]) _]
    rw [foldl_qmax_pull]
    rw [h.hmk]
    rfl
  · intro x hx
    rcases List.mem_cons.mp (hperm.mem_iff.mp hx) with hx | hx
    · subst hx
      exact h.hndm.not_mem_erase
    · intro hc
      exact h.hman x hx (List.mem_of_mem_erase hc)
  · intro x hx
    rcases List.mem_cons.mp (hperm.mem_iff.mp hx) with hx | hx
    · subst hx
      exact h.hdisj x hj
    · exact h.hrem x hx
  · intro x hx
    exact h.hdisj x (List.mem_of_mem_erase hx)
  · exact h.hndm.erase j

theorem ginv_greedyLoopF (P : Problem) :
    ∀ (fuel : ℕ) (st st' : GreedyState), GInv P st →
      greedyLoopF P fuel st = some st' → GInv P st' := by
  intro fuel
  induction fuel with
  | zero => intro st st' _ h; cases h
  | succ fuel ih =>
    intro st st' hinv h
    by_cases h0 : st.Sman.length + st.Srem.length = 0
    · have h2 : some st = some st' := by
        rw [← h]
        show some st = (if st.Sman.length + st.Srem.length = 0 then some st else _)
        rw [if_pos h0]
      rw [← Option.some_inj.mp h2]
      exact hinv
    · have heq : greedyLoopF P (fuel + 1) st
          = (if (drainRemote P st).Sman.isEmpty then
              (if (drainRemote P st).Srem.isEmpty then some (drainRemote P st) else none)
            else match chooseManual P (drainRemote P st) with
              | none => none
              | some jl => greedyLoopF P fuel (applyManual P (drainRemote P st) jl.1 jl.2)) := by
        show (if st.Sman.length + st.Srem.length = 0 then some st else _) = _
        rw [if_neg h0]
      rw [heq] at h
      have hd : GInv P (drainRemote P st) := ginv_drainRemoteF P _ st hinv
      by_cases hme : (drainRemote P st).Sman.isEmpty = true
      · rw [if_pos hme] at h
        by_cases hre : (drainRemote P st).Srem.isEmpty = true
        · rw [if_pos hre] at h
          rw [← Option.some_inj.mp h]
          exact hd
        · rw [if_neg hre] at h
          cases h
      · rw [if_neg hme] at h
        rcases hcm : chooseManual P (drainRemote P st) with _ | ⟨j2, l2⟩
        · rw [hcm] at h
          cases h
        · rw [hcm] at h
          have hsh := chooseManual_shape P (drainRemote P st) hcm
          exact ih _ st'
            (ginv_applyManual P (drainRemote P st) j2 l2 hd hsh.1 hsh.2.1 hsh.2.2) h



theorem laneOf_replicate_nil (k l : ℕ) : laneOf (List.replicate k []) l = [] := by
  unfold laneOf
  rw [List.getD_eq_getElem?_getD, List.getElem?_replicate]
  split <;> rfl

theorem ginv_init (P : Problem) : GInv P (initGreedy P) := by
  have h1 : manFlat P (initGreedy P).sched = [] := by
    unfold manFlat
    rw [List.flatten_eq_nil_iff]
    intro ln hln
    rcases List.mem_map.mp hln with ⟨l, _, rfl⟩
    exact laneOf_replicate_nil (P.m + 1) l
  constructor
  · show (List.replicate (P.m + 1) ([] : List ℕ)).length = P.m + 1
    simp
  · show (0 : ℚ) = manualMakespan P (initGreedy P)
    unfold manualMakespan
    rw [h1]
    rfl
  · intro x hx
    rw [h1] at hx
    cases hx
  · intro x hx
    rw [h1] at hx
    cases hx
  · intro x hx hc
    have ha := (List.mem_filter.mp hx).2
    have hb := (List.mem_filter.mp hc).2
    have ha2 : P.technology x = Technology.MANUAL := decide_eq_true_eq.mp ha
    have hb2 : P.technology x = Technology.REMOTE := decide_eq_true_eq.mp hb
    rw [ha2] at hb2
    exact Technology.noConfusion hb2
  · exact List.Nodup.filter _ (List.nodup_range' ..)

/-- C10: the scalar makespan returned by `Greedy::solve` is the maximum
completion time `t[j] + p[j]` over the manually scheduled operations only
(`makespan` is updated only in the manual branch of the loop); on the
all-Remote instance `PallRemote` the returned scalar is 0 while
`Problem::makespan` of the returned schedule is 1, strictly larger even
under the ε-tolerant comparator. -/
theorem C10_greedy_manual_makespan (P : Problem) (res : Schedule × ℚ)
    (h : Greedy_solve P = some res) :
    (∃ st : GreedyState, greedyLoopF P (P.n + 2) (initGreedy P) = some st
      ∧ res = (st.sched, st.mkspan) ∧ st.mkspan = manualMakespan P st)
    ∧ Greedy_solve PallRemote = some ([[1], []], 0)
    ∧ makespan PallRemote [[1], []] = D.fin 1
    ∧ lessD (D.fin 0) (D.fin 1) = true := by
  refine ⟨?_, by decide, by decide, by decide⟩
  unfold Greedy_solve at h
  rcases Option.map_eq_some'.mp h with ⟨st, hst, hres⟩
  exact ⟨st, hst, hres.symm,
    (ginv_greedyLoopF P (P.n + 2) (initGreedy P) st (ginv_init P) hst).hmk⟩

set_option maxRecDepth 100000 in
/-- C10 witness: the claim theorem applied to the all-Remote instance. -/
theorem C10_greedy_manual_makespan_witness :
    ∃ st : GreedyState,
      greedyLoopF PallRemote (PallRemote.n + 2) (initGreedy PallRemote) = some st
      ∧ (([[1], []], (0 : ℚ)) : Schedule × ℚ) = (st.sched, st.mkspan)
      ∧ st.mkspan = manualMakespan PallRemote st :=
  (C10_greedy_manual_makespan PallRemote ([[1], []], 0) (by decide)).1



/-
Greedy on a feasible instance: termination and is_feasible.
-/

theorem lessD_inf_left (x : D) : lessD D.inf x = false := by
  cases x <;> rfl

/-- Number of predecessors of `j` still in one of the unscheduled pools. -/
def pendCount (P : Problem) (A B : List ℕ) (j : ℕ) : Int :=
  (((P.predecessors j).filter
    (fun i => decide (i ∈ A) || decide (i ∈ B))).length : Int)

/-- Well-formedness of a reachable state of `Greedy::solve` relative to a
feasible instance: lane shape, the partition of 1..n into scheduled and
unscheduled operations, technology routing, and correctness of the gamma
counters. -/
structure GW (P : Problem) (st : GreedyState) : Prop where
  w1 : st.sched.length = P.m + 1
  w2 : ((scannedOps P st.sched ++ st.Sman) ++ st.Srem).Perm (List.range' 1 P.n)
  w3 : ∀ x ∈ st.Sman, P.technology x = Technology.MANUAL
  w4 : ∀ x ∈ st.Srem, P.technology x = Technology.REMOTE
  w5 : ∀ x ∈ laneOf st.sched 0, P.technology x = Technology.REMOTE
  w6 : ∀ l, 1 ≤ l → l < P.m + 1 → ∀ x ∈ laneOf st.sched l,
    P.technology x = Technology.MANUAL
  w7 : ∀ j, 1 ≤ j → j ≤ P.n → st.gamma j = pendCount P st.Sman st.Srem j

theorem scannedOps_setLane_append (P : Problem) (sched : Schedule) (l j : ℕ)
    (hl : l < P.m + 1) (hlen : sched.length = P.m + 1) :
    (scannedOps P (setLane sched l (laneOf sched l ++ [j]))).Perm
      (j :: scannedOps P sched) :=
  flatten_map_setLane_perm sched l j (by omega) (List.range (P.m + 1))
    (List.nodup_range _) (List.mem_range.mpr hl)

theorem foldl_update_sub :
    ∀ (L : List ℕ), L.Nodup → ∀ (g : ℕ → Int) (x : ℕ),
      (L.foldl (fun g i => Function.update g i (g i - 1)) g) x
        = g x - (if x ∈ L then 1 else 0) := by
  intro L
  induction L with
  | nil => intro _ g x; simp
  | cons y ys ih =>
    intro hnd g x
    have hrec := ih (List.nodup_cons.mp hnd).2 (Function.update g y (g y - 1)) x
    show (ys.foldl _ (Function.update g y (g y - 1))) x = _
    rw [hrec]
    rcases eq_or_ne x y with hxy | hxy
    · subst hxy
      rw [Function.update_same, if_neg (fun hc => (List.nodup_cons.mp hnd).1 hc),
        if_pos (List.mem_cons_self x ys)]
      ring
    · rw [Function.update_noteq hxy]
      by_cases hm2 : x ∈ ys
      · rw [if_pos hm2, if_pos (List.mem_cons_of_mem y hm2)]
      · rw [if_neg hm2, if_neg (fun hc => by
          rcases List.mem_cons.mp hc with h | h
          · exact hxy h
          · exact hm2 h)]

theorem filter_length_split (q q' : ℕ → Bool) (j : ℕ)
    (hq : ∀ i, i ≠ j → q' i = q i) (hqj : q j = true) (hqj' : q' j = false) :
    ∀ (L : List ℕ), L.Nodup →
      ((L.filter q).length : Int)
        = ((L.filter q').length : Int) + (if j ∈ L then 1 else 0) := by
  intro L
  induction L with
  | nil => intro _; simp
  | cons k ks ih =>
    intro hnd
    have hih := ih (List.nodup_cons.mp hnd).2
    rcases eq_or_ne k j with hkj | hkj
    · subst hkj
      have hks : k ∉ ks := (List.nodup_cons.mp hnd).1
      have hcongr : ks.filter q' = ks.filter q :=
        List.filter_congr (fun x hx => hq x (fun hc => hks (hc ▸ hx)))
      rw [List.filter_cons, List.filter_cons, if_pos hqj,
        if_neg (by rw [hqj']; exact Bool.false_ne_true), hcongr,
        if_pos (List.mem_cons_self k ks)]
      simp only [List.length_cons]
      push_cast
      ring
    · have hq2 : q' k = q k := hq k hkj
      have hmem : (j ∈ k :: ks) ↔ (j ∈ ks) := by
        constructor
        · intro h
          rcases List.mem_cons.mp h with h | h
          · exact absurd h.symm hkj
          · exact h
        · exact List.mem_cons_of_mem k
      rw [List.filter_cons, List.filter_cons, hq2]
      cases hqk : q k
      · rw [if_neg (by simp), if_neg (by simp), hih]
        congr 1
        rw [if_congr hmem rfl rfl]
      · rw [if_pos rfl, if_pos rfl]
        simp only [List.length_cons]
        rw [if_congr hmem rfl rfl]
        push_cast
        push_cast at hih
        omega

theorem list_exists_min (f : ℕ → ℕ) :
    ∀ (L : List ℕ), L ≠ [] → ∃ u ∈ L, ∀ v ∈ L, f u ≤ f v := by
  intro L
  induction L with
  | nil => intro h; exact absurd rfl h
  | cons x xs ih =>
    intro _
    by_cases hxs : xs = []
    · subst hxs
      refine ⟨x, List.mem_cons_self x [], ?_⟩
      intro v hv
      rcases List.mem_cons.mp hv with h | h
      · rw [h]
      · cases h
    · obtain ⟨u, hu, hmin⟩ := ih hxs
      by_cases hc : f x ≤ f u
      · refine ⟨x, List.mem_cons_self x xs, ?_⟩
        intro v hv
        rcases List.mem_cons.mp hv with h | h
        · rw [h]
        · exact le_trans hc (hmin v h)
      · refine ⟨u, List.mem_cons_of_mem x hu, ?_⟩
        intro v hv
        rcases List.mem_cons.mp hv with h | h
        · rw [h]
          exact le_of_lt (Nat.lt_of_not_le hc)
        · exact hmin v h



/-- Invariant of the `S_remote` pass carrying the full greedy
well-formedness; `pool` is the part of `S_remote` not yet visited. -/
def PassW (P : Problem) (S0 : List ℕ) (pool : List ℕ)
    (acc : GreedyState × List ℕ × Bool) : Prop :=
  acc.1.sched.length = P.m + 1
  ∧ ((scannedOps P acc.1.sched ++ acc.1.Sman) ++ (acc.2.1 ++ pool)).Perm
      (List.range' 1 P.n)
  ∧ acc.1.Sman = S0
  ∧ (∀ x ∈ acc.2.1 ++ pool, P.technology x = Technology.REMOTE)
  ∧ (∀ x ∈ laneOf acc.1.sched 0, P.technology x = Technology.REMOTE)
  ∧ (∀ l, 1 ≤ l → l < P.m + 1 → ∀ x ∈ laneOf acc.1.sched l,
      P.technology x = Technology.MANUAL)
  ∧ (∀ x, 1 ≤ x → x ≤ P.n → acc.1.gamma x = pendCount P acc.1.Sman (acc.2.1 ++ pool) x)

theorem passW_fold (P : Problem) (hpw : ProblemWF P) (S0 : List ℕ) :
    ∀ (pool : List ℕ) (acc : GreedyState × List ℕ × Bool), PassW P S0 pool acc →
      PassW P S0 [] (pool.foldl
        (fun (acc : GreedyState × List ℕ × Bool) j =>
          if acc.1.gamma j = 0 then (scheduleRemote P acc.1 j, acc.2.1, true)
          else (acc.1, acc.2.1 ++ [j], acc.2.2)) acc) := by
  intro pool
  induction pool with
  | nil => intro acc h; exact h
  | cons j js ih =>
    intro acc h
    obtain ⟨p1, p2, p3, p4, p5, p6, p7⟩ := h
    refine ih _ ?_
    show PassW P S0 js (if acc.1.gamma j = 0 then (scheduleRemote P acc.1 j, acc.2.1, true)
      else (acc.1, acc.2.1 ++ [j], acc.2.2))
    by_cases hg : acc.1.gamma j = 0
    · rw [if_pos hg]
      have hnd : ((scannedOps P acc.1.sched ++ acc.1.Sman) ++ (acc.2.1 ++ j :: js)).Nodup :=
        (p2.nodup_iff).mpr (List.nodup_range' ..)
      obtain ⟨hnd1, hnd2, hdisj⟩ := List.nodup_append.mp hnd
      obtain ⟨hndk, hndjs, hdisjk⟩ := List.nodup_append.mp hnd2
      have hjSman : j ∉ acc.1.Sman := by
        intro hc
        exact hdisj (List.mem_append.mpr (Or.inr hc))
          (List.mem_append.mpr (Or.inr (List.mem_cons_self j js)))
      have hjk : j ∉ acc.2.1 := fun hc =>
        hdisjk hc (List.mem_cons_self j js)
      have hjjs : j ∉ js := (List.nodup_cons.mp hndjs).1
      have hscan := scannedOps_setLane_append P acc.1.sched 0 j (by omega) p1
      refine ⟨?_, ?_, p3, ?_, ?_, ?_, ?_⟩
      · show (setLane acc.1.sched 0 (laneOf acc.1.sched 0 ++ [j])).length = _
        rw [← p1]
        simp [setLane]
      · rw [List.perm_iff_count]
        intro a
        have hs1 : (scheduleRemote P acc.1 j).sched
            = setLane acc.1.sched 0 (laneOf acc.1.sched 0 ++ [j]) := rfl
        have hs2 : (scheduleRemote P acc.1 j).Sman = acc.1.Sman := rfl
        rw [hs1, hs2]
        have hc1 := hscan.count_eq a
        have hc2 := p2.count_eq a
        rcases eq_or_ne a j with rfl | hne
        · rw [List.count_cons_self] at hc1
          simp only [List.count_append] at hc1 hc2 ⊢
          rw [List.count_cons_self] at hc2
          omega
        · rw [List.count_cons_of_ne hne] at hc1
          simp only [List.count_append] at hc1 hc2 ⊢
          rw [List.count_cons_of_ne hne] at hc2
          omega
      · intro x hx
        exact p4 x (by
          rcases List.mem_append.mp hx with h | h
          · exact List.mem_append.mpr (Or.inl h)
          · exact List.mem_append.mpr (Or.inr (List.mem_cons_of_mem j h)))
      · intro x hx
        have hx2 : x ∈ laneOf (setLane acc.1.sched 0 (laneOf acc.1.sched 0 ++ [j])) 0 := hx
        rw [laneOf_setLane_self acc.1.sched 0 _ (by omega)] at hx2
        replace hx := hx2
        rcases List.mem_append.mp hx with h | h
        · exact p5 x h
        · rw [List.mem_singleton.mp h]
          exact p4 j (List.mem_append.mpr (Or.inr (List.mem_cons_self j js)))
      · intro l h1l h2l x hx
        have hx2 : x ∈ laneOf (setLane acc.1.sched 0 (laneOf acc.1.sched 0 ++ [j])) l := hx
        rw [laneOf_setLane_ne acc.1.sched 0 l _ (by omega)] at hx2
        exact p6 l h1l h2l x hx2
      · intro x h1x h2x
        show ((P.successors j).foldl (fun g i => Function.update g i (g i - 1))
          acc.1.gamma) x = pendCount P acc.1.Sman (acc.2.1 ++ js) x
        rw [foldl_update_sub (P.successors j) (hpw.hnds j) acc.1.gamma x,
          p7 x h1x h2x]
        have hsplit := filter_length_split
          (fun i => decide (i ∈ acc.1.Sman) || decide (i ∈ acc.2.1 ++ j :: js))
          (fun i => decide (i ∈ acc.1.Sman) || decide (i ∈ acc.2.1 ++ js)) j
          (fun i hij => by
            show (decide (i ∈ acc.1.Sman) || decide (i ∈ acc.2.1 ++ js))
              = (decide (i ∈ acc.1.Sman) || decide (i ∈ acc.2.1 ++ j :: js))
            have hiff : (i ∈ acc.2.1 ++ js) ↔ (i ∈ acc.2.1 ++ j :: js) := by
              constructor
              · intro hm
                rcases List.mem_append.mp hm with hm | hm
                · exact List.mem_append.mpr (Or.inl hm)
                · exact List.mem_append.mpr (Or.inr (List.mem_cons_of_mem j hm))
              · intro hm
                rcases List.mem_append.mp hm with hm | hm
                · exact List.mem_append.mpr (Or.inl hm)
                · rcases List.mem_cons.mp hm with hm | hm
                  · exact absurd hm hij
                  · exact List.mem_append.mpr (Or.inr hm)
            rw [decide_eq_decide.mpr hiff])
          (by
            show (decide (j ∈ acc.1.Sman) || decide (j ∈ acc.2.1 ++ j :: js)) = true
            rw [decide_eq_true (List.mem_append.mpr
              (Or.inr (List.mem_cons_self j js)))]
            rw [Bool.or_true])
          (by
            show (decide (j ∈ acc.1.Sman) || decide (j ∈ acc.2.1 ++ js)) = false
            rw [decide_eq_false hjSman, decide_eq_false (fun hc => by
              rcases List.mem_append.mp hc with hm | hm
              · exact hjk hm
              · exact hjjs hm)]
            rfl)
          (P.predecessors x) (hpw.hndp x)
        unfold pendCount
        rw [if_congr (hpw.hdual j x) rfl rfl]
        omega
    · rw [if_neg hg]
      refine ⟨p1, ?_, p3, ?_, p5, p6, ?_⟩
      · show ((scannedOps P acc.1.sched ++ acc.1.Sman)
            ++ ((acc.2.1 ++ [j]) ++ js)).Perm (List.range' 1 P.n)
        rw [List.append_assoc acc.2.1 [j] js, List.singleton_append]
        exact p2
      · show ∀ x ∈ (acc.2.1 ++ [j]) ++ js, P.technology x = Technology.REMOTE
        rw [List.append_assoc acc.2.1 [j] js, List.singleton_append]
        exact p4
      · intro x h1x h2x
        show acc.1.gamma x = pendCount P acc.1.Sman ((acc.2.1 ++ [j]) ++ js) x
        rw [List.append_assoc acc.2.1 [j] js, List.singleton_append]
        exact p7 x h1x h2x



theorem gw_pass_core (P : Problem) (st : GreedyState) (h : GW P st)
    (g : GreedyState) (k : List ℕ) (b : Bool) (hq : PassW P st.Sman [] (g, k, b)) :
    GW P { g with Srem := k } ∧ ({ g with Srem := k } : GreedyState).Sman = st.Sman := by
  obtain ⟨p1, p2, p3, p4, p5, p6, p7⟩ := hq
  have p1' : g.sched.length = P.m + 1 := p1
  have p3' : g.Sman = st.Sman := p3
  have p2' : ((scannedOps P g.sched ++ g.Sman) ++ k).Perm (List.range' 1 P.n) := by
    have h2 : ((scannedOps P g.sched ++ g.Sman) ++ (k ++ [])).Perm (List.range' 1 P.n) := p2
    rw [List.append_nil] at h2
    exact h2
  have p4' : ∀ x ∈ k, P.technology x = Technology.REMOTE := by
    intro x hx
    have h4 : ∀ x ∈ k ++ [], P.technology x = Technology.REMOTE := p4
    exact h4 x (by rw [List.append_nil]; exact hx)
  have p7' : ∀ x, 1 ≤ x → x ≤ P.n → g.gamma x = pendCount P g.Sman k x := by
    intro x h1 h2
    have h7 : g.gamma x = pendCount P g.Sman (k ++ []) x := p7 x h1 h2
    rw [List.append_nil] at h7
    exact h7
  refine ⟨⟨p1', p2', ?_, p4', p5, p6, p7'⟩, p3'⟩
  intro x hx
  have hx2 : x ∈ st.Sman := p3' ▸ hx
  exact h.w3 x hx2

theorem gw_remotePass (P : Problem) (hpw : ProblemWF P) (st : GreedyState)
    (h : GW P st) :
    GW P (remotePass P st).1 ∧ (remotePass P st).1.Sman = st.Sman := by
  have hq := passW_fold P hpw st.Sman st.Srem (st, [], false)
    ⟨h.w1, h.w2, rfl, h.w4, h.w5, h.w6, h.w7⟩
  exact gw_pass_core P st h _ _ _ hq

theorem gw_drainRemoteF (P : Problem) (hpw : ProblemWF P) :
    ∀ (fuel : ℕ) (st : GreedyState), GW P st →
      GW P (drainRemoteF P fuel st) ∧ (drainRemoteF P fuel st).Sman = st.Sman := by
  intro fuel
  induction fuel with
  | zero => intro st h; exact ⟨h, rfl⟩
  | succ fuel ih =>
    intro st h
    show GW P (if (remotePass P st).2 then drainRemoteF P fuel (remotePass P st).1
        else (remotePass P st).1)
      ∧ (if (remotePass P st).2 then drainRemoteF P fuel (remotePass P st).1
        else (remotePass P st).1).Sman = st.Sman
    have hp := gw_remotePass P hpw st h
    by_cases hb : (remotePass P st).2 = true
    · rw [if_pos hb]
      have hrec := ih (remotePass P st).1 hp.1
      exact ⟨hrec.1, hrec.2.trans hp.2⟩
    · rw [if_neg hb]
      exact hp

theorem gw_applyManual (P : Problem) (hpw : ProblemWF P) (st : GreedyState)
    (j l : ℕ) (h : GW P st) (hj : j ∈ st.Sman) (h1l : 1 ≤ l) (hl : l < P.m + 1) :
    GW P (applyManual P st j l) := by
  have hnd : ((scannedOps P st.sched ++ st.Sman) ++ st.Srem).Nodup :=
    (h.w2.nodup_iff).mpr (List.nodup_range' ..)
  obtain ⟨hnd1, hndr, hdisj⟩ := List.nodup_append.mp hnd
  obtain ⟨hndsc, hndm, hdisj1⟩ := List.nodup_append.mp hnd1
  have hjSrem : j ∉ st.Srem :=
    fun hc => hdisj (List.mem_append.mpr (Or.inr hj)) hc
  have hscan := scannedOps_setLane_append P st.sched l j hl h.w1
  constructor
  · show (setLane st.sched l (laneOf st.sched l ++ [j])).length = _
    rw [← h.w1]
    simp [setLane]
  · show ((scannedOps P (setLane st.sched l (laneOf st.sched l ++ [j]))
        ++ st.Sman.erase j) ++ st.Srem).Perm (List.range' 1 P.n)
    rw [List.perm_iff_count]
    intro a
    have hc1 := hscan.count_eq a
    have hc2 := h.w2.count_eq a
    have hce := List.count_erase a j st.Sman
    rcases eq_or_ne a j with rfl | hne
    · rw [List.count_cons_self] at hc1
      have hpos : 0 < st.Sman.count a := List.count_pos_iff.mpr hj
      simp only [List.count_append] at hc1 hc2 ⊢
      have hone : (if (a == a) = true then (1 : ℕ) else 0) = 1 := by simp
      rw [hce, hone]
      omega
    · rw [List.count_cons_of_ne hne] at hc1
      simp only [List.count_append] at hc1 hc2 ⊢
      rw [hce]
      rw [if_neg (by
        intro hc
        exact hne (by
          have := eq_of_beq hc
          rw [this]))]
      omega
  · intro x hx
    exact h.w3 x (List.mem_of_mem_erase hx)
  · exact h.w4
  · intro x hx
    have hx2 : x ∈ laneOf (setLane st.sched l (laneOf st.sched l ++ [j])) 0 := hx
    rw [laneOf_setLane_ne st.sched l 0 _ (by omega)] at hx2
    exact h.w5 x hx2
  · intro l2 h1l2 h2l2 x hx
    have hx2 : x ∈ laneOf (setLane st.sched l (laneOf st.sched l ++ [j])) l2 := hx
    rcases eq_or_ne l2 l with rfl | hne
    · rw [laneOf_setLane_self st.sched l2 _ (by rw [h.w1]; omega)] at hx2
      rcases List.mem_append.mp hx2 with hm | hm
      · exact h.w6 l2 h1l2 h2l2 x hm
      · rw [List.mem_singleton.mp hm]
        exact h.w3 j hj
    · rw [laneOf_setLane_ne st.sched l l2 _ hne] at hx2
      exact h.w6 l2 h1l2 h2l2 x hx2
  · intro x h1x h2x
    show ((P.successors j).foldl (fun g i => Function.update g i (g i - 1))
      st.gamma) x = pendCount P (st.Sman.erase j) st.Srem x
    rw [foldl_update_sub (P.successors j) (hpw.hnds j) st.gamma x,
      h.w7 x h1x h2x]
    have hsplit := filter_length_split
      (fun i => decide (i ∈ st.Sman) || decide (i ∈ st.Srem))
      (fun i => decide (i ∈ st.Sman.erase j) || decide (i ∈ st.Srem)) j
      (fun i hij => by
        show (decide (i ∈ st.Sman.erase j) || decide (i ∈ st.Srem))
          = (decide (i ∈ st.Sman) || decide (i ∈ st.Srem))
        have hiff : (i ∈ st.Sman.erase j) ↔ (i ∈ st.Sman) := by
          rw [hndm.mem_erase_iff]
          constructor
          · intro hc; exact hc.2
          · intro hc; exact ⟨hij, hc⟩
        rw [decide_eq_decide.mpr hiff])
      (by
        show (decide (j ∈ st.Sman) || decide (j ∈ st.Srem)) = true
        rw [decide_eq_true hj]
        rfl)
      (by
        show (decide (j ∈ st.Sman.erase j) || decide (j ∈ st.Srem)) = false
        rw [decide_eq_false hndm.not_mem_erase, decide_eq_false hjSrem]
        rfl)
      (P.predecessors x) (hpw.hndp x)
    unfold pendCount
    rw [if_congr (hpw.hdual j x) rfl rfl]
    omega



/-- One visit of the remote pass (the body of its fold). -/
def passStep (P : Problem) (acc : GreedyState × List ℕ × Bool) (j : ℕ) :
    GreedyState × List ℕ × Bool :=
  if acc.1.gamma j = 0 then (scheduleRemote P acc.1 j, acc.2.1, true)
  else (acc.1, acc.2.1 ++ [j], acc.2.2)

theorem pass_fold_noprog (P : Problem) :
    ∀ (L : List ℕ) (acc : GreedyState × List ℕ × Bool),
      (L.foldl (passStep P) acc).2.2 = false →
      acc.2.2 = false
      ∧ (L.foldl (passStep P) acc).1 = acc.1
      ∧ (L.foldl (passStep P) acc).2.1 = acc.2.1 ++ L
      ∧ (∀ j ∈ L, acc.1.gamma j ≠ 0) := by
  intro L
  induction L with
  | nil =>
    intro acc h
    exact ⟨h, rfl, (List.append_nil _).symm, fun j hj => absurd hj (List.not_mem_nil j)⟩
  | cons j js ih =>
    intro acc h
    have hstep : (j :: js).foldl (passStep P) acc = js.foldl (passStep P) (passStep P acc j) :=
      rfl
    by_cases hg : acc.1.gamma j = 0
    · have heq : passStep P acc j = (scheduleRemote P acc.1 j, acc.2.1, true) := by
        unfold passStep
        rw [if_pos hg]
      rw [hstep, heq] at h
      obtain ⟨hflag, -, -, -⟩ := ih _ h
      exact absurd hflag (by intro hc; cases hc)
    · have heq : passStep P acc j = (acc.1, acc.2.1 ++ [j], acc.2.2) := by
        unfold passStep
        rw [if_neg hg]
      rw [hstep, heq] at h
      obtain ⟨hf, h1, h2', h3⟩ := ih _ h
      refine ⟨hf, ?_, ?_, ?_⟩
      · rw [hstep, heq]
        exact h1
      · rw [hstep, heq, h2', List.append_assoc, List.singleton_append]
      · intro x hx
        rcases List.mem_cons.mp hx with hx | hx
        · rw [hx]
          exact hg
        · exact h3 x hx

theorem remotePass_noprog (P : Problem) (st : GreedyState)
    (h : (remotePass P st).2 = false) :
    (remotePass P st).1 = st ∧ ∀ j ∈ st.Srem, st.gamma j ≠ 0 := by
  obtain ⟨-, h1, h2, h3⟩ := pass_fold_noprog P st.Srem (st, [], false) h
  constructor
  · show ({ (st.Srem.foldl (passStep P) (st, [], false)).1 with
      Srem := (st.Srem.foldl (passStep P) (st, [], false)).2.1 } : GreedyState) = st
    rw [h1, h2]
    rfl
  · exact h3

theorem pass_fold_kept_len (P : Problem) :
    ∀ (L : List ℕ) (acc : GreedyState × List ℕ × Bool),
      ((L.foldl (passStep P) acc).2.1.length ≤ acc.2.1.length + L.length)
      ∧ ((L.foldl (passStep P) acc).2.2 = true →
        acc.2.2 = true
        ∨ (L.foldl (passStep P) acc).2.1.length < acc.2.1.length + L.length) := by
  intro L
  induction L with
  | nil =>
    intro acc
    exact ⟨by simp, fun _ => Or.inl (by assumption)⟩
  | cons j js ih =>
    intro acc
    have hstep : (j :: js).foldl (passStep P) acc = js.foldl (passStep P) (passStep P acc j) :=
      rfl
    by_cases hg : acc.1.gamma j = 0
    · have heq : passStep P acc j = (scheduleRemote P acc.1 j, acc.2.1, true) := by
        unfold passStep
        rw [if_pos hg]
      have hih := ih (scheduleRemote P acc.1 j, acc.2.1, true)
      have hsr : ((scheduleRemote P acc.1 j, acc.2.1, true)
          : GreedyState × List ℕ × Bool).2.1 = acc.2.1 := rfl
      constructor
      · rw [hstep, heq]
        have hb1 := hih.1
        rw [hsr] at hb1
        simp only [List.length_cons]
        omega
      · intro _
        right
        rw [hstep, heq]
        have hb1 := hih.1
        rw [hsr] at hb1
        simp only [List.length_cons]
        omega
    · have heq : passStep P acc j = (acc.1, acc.2.1 ++ [j], acc.2.2) := by
        unfold passStep
        rw [if_neg hg]
      have hih := ih (acc.1, acc.2.1 ++ [j], acc.2.2)
      have hsr2 : ((acc.1, acc.2.1 ++ [j], acc.2.2)
          : GreedyState × List ℕ × Bool).2.1 = acc.2.1 ++ [j] := rfl
      have hlen : (acc.2.1 ++ [j]).length = acc.2.1.length + 1 := by simp
      constructor
      · rw [hstep, heq]
        have hb1 := hih.1
        rw [hsr2, hlen] at hb1
        simp only [List.length_cons]
        omega
      · intro hflag
        rw [hstep, heq] at hflag
        rcases hih.2 hflag with hc | hc
        · exact Or.inl hc
        · right
          rw [hstep, heq]
          rw [hsr2, hlen] at hc
          simp only [List.length_cons]
          omega

theorem remotePass_progress (P : Problem) (st : GreedyState)
    (h : (remotePass P st).2 = true) :
    (remotePass P st).1.Srem.length < st.Srem.length := by
  have hk := pass_fold_kept_len P st.Srem (st, [], false)
  rcases hk.2 h with hc | hc
  · cases hc
  · show ({ (st.Srem.foldl (passStep P) (st, [], false)).1 with
      Srem := (st.Srem.foldl (passStep P) (st, [], false)).2.1 } : GreedyState).Srem.length < _
    show (st.Srem.foldl (passStep P) (st, [], false)).2.1.length < _
    have h0 : ((st, ([] : List ℕ), false) : GreedyState × List ℕ × Bool).2.1 = [] := rfl
    rw [h0] at hc
    simp only [List.length_nil] at hc
    omega

theorem drain_fix (P : Problem) :
    ∀ (fuel : ℕ) (st : GreedyState), st.Srem.length < fuel →
      ∀ j ∈ (drainRemoteF P fuel st).Srem, (drainRemoteF P fuel st).gamma j ≠ 0 := by
  intro fuel
  induction fuel with
  | zero => intro st h; omega
  | succ fuel ih =>
    intro st h
    show ∀ j ∈ (if (remotePass P st).2 then drainRemoteF P fuel (remotePass P st).1
        else (remotePass P st).1).Srem,
      (if (remotePass P st).2 then drainRemoteF P fuel (remotePass P st).1
        else (remotePass P st).1).gamma j ≠ 0
    by_cases hb : (remotePass P st).2 = true
    · rw [if_pos hb]
      refine ih (remotePass P st).1 ?_
      have := remotePass_progress P st hb
      omega
    · rw [if_neg hb]
      obtain ⟨h1, h2⟩ := remotePass_noprog P st
        (by rcases hc : (remotePass P st).2 with _ | _
            · rfl
            · exact absurd hc hb)
      rw [h1]
      exact h2



/-- The inner team loop of the manual chooser (the body of its fold). -/
def innerStep (P : Problem) (st : GreedyState) (j : ℕ)
    (acc2 : Option (ℕ × ℕ × ℚ)) (l : ℕ) : Option (ℕ × ℕ × ℚ) :=
  let crit := qadd (qadd (st.t (st.phi l)) (P.p (st.phi l))) (P.s (st.phi l) j l)
  match acc2 with
  | none => some (j, l, crit)
  | some x => if crit < x.2.2 then some (j, l, crit) else acc2

theorem inner_fold_some (P : Problem) (st : GreedyState) (j : ℕ) :
    ∀ (L : List ℕ) (acc : Option (ℕ × ℕ × ℚ)), acc ≠ none →
      L.foldl (innerStep P st j) acc ≠ none := by
  intro L
  induction L with
  | nil => intro acc h; exact h
  | cons l ls ih =>
    intro acc h
    show ls.foldl (innerStep P st j) (innerStep P st j acc l) ≠ none
    refine ih _ ?_
    rcases acc with _ | y
    · exact absurd rfl h
    · show (if _ < y.2.2 then some (j, l, _) else some y) ≠ none
      split
      · exact Option.some_ne_none _
      · exact Option.some_ne_none _

theorem inner_fold_some_of_ne (P : Problem) (st : GreedyState) (j : ℕ) :
    ∀ (L : List ℕ), L ≠ [] → ∀ (acc : Option (ℕ × ℕ × ℚ)),
      L.foldl (innerStep P st j) acc ≠ none := by
  intro L
  cases L with
  | nil => intro h; exact absurd rfl h
  | cons l ls =>
    intro _ acc
    show ls.foldl (innerStep P st j) (innerStep P st j acc l) ≠ none
    refine inner_fold_some P st j ls _ ?_
    rcases acc with _ | y
    · exact Option.some_ne_none _
    · show (if _ < y.2.2 then some (j, l, _) else some y) ≠ none
      split
      · exact Option.some_ne_none _
      · exact Option.some_ne_none _

/-- The outer operation loop of the manual chooser. -/
def outerStep (P : Problem) (st : GreedyState)
    (acc : Option (ℕ × ℕ × ℚ)) (j : ℕ) : Option (ℕ × ℕ × ℚ) :=
  if st.gamma j = 0 then (List.range' 1 P.m).foldl (innerStep P st j) acc else acc

theorem outer_fold_some (P : Problem) (st : GreedyState) :
    ∀ (L : List ℕ) (acc : Option (ℕ × ℕ × ℚ)), acc ≠ none →
      L.foldl (outerStep P st) acc ≠ none := by
  intro L
  induction L with
  | nil => intro acc h; exact h
  | cons j js ih =>
    intro acc h
    show js.foldl (outerStep P st) (outerStep P st acc j) ≠ none
    refine ih _ ?_
    unfold outerStep
    split
    · exact inner_fold_some P st j (List.range' 1 P.m) acc h
    · exact h

theorem outer_fold_ready (P : Problem) (st : GreedyState) (hm : 1 ≤ P.m) :
    ∀ (L : List ℕ) (acc : Option (ℕ × ℕ × ℚ)),
      (∃ j ∈ L, st.gamma j = 0) →
      L.foldl (outerStep P st) acc ≠ none := by
  have hrne : (List.range' 1 P.m) ≠ [] := by
    intro hc
    have := congrArg List.length hc
    rw [List.length_range'] at this
    simp at this
    omega
  intro L
  induction L with
  | nil =>
    intro acc h
    rcases h with ⟨j, hj, _⟩
    cases hj
  | cons j js ih =>
    intro acc h
    show js.foldl (outerStep P st) (outerStep P st acc j) ≠ none
    by_cases hg : st.gamma j = 0
    · refine outer_fold_some P st js _ ?_
      unfold outerStep
      rw [if_pos hg]
      exact inner_fold_some_of_ne P st j (List.range' 1 P.m) hrne acc
    · rcases h with ⟨j2, hj2, hg2⟩
      rcases List.mem_cons.mp hj2 with hj2 | hj2
      · rw [hj2] at hg2
        exact absurd hg2 hg
      · exact ih _ ⟨j2, hj2, hg2⟩

theorem chooseManual_some (P : Problem) (st : GreedyState) (hm : 1 ≤ P.m)
    (hready : ∃ j ∈ st.Sman, st.gamma j = 0) :
    ∃ jl : ℕ × ℕ, chooseManual P st = some jl := by
  have h := outer_fold_ready P st hm st.Sman none hready
  rcases ho : st.Sman.foldl (outerStep P st) none with _ | x
  · exact absurd ho h
  · refine ⟨(x.1, x.2.1), ?_⟩
    show (st.Sman.foldl (outerStep P st) none).map (fun x => (x.1, x.2.1)) = _
    rw [ho]
    rfl

theorem exists_ready (P : Problem) (rank : ℕ → ℕ)
    (hrank : ∀ j i, i ∈ P.predecessors j → rank i < rank j)
    (st : GreedyState) (h : GW P st) (hne : st.Sman ++ st.Srem ≠ []) :
    ∃ u, (u ∈ st.Sman ∨ u ∈ st.Srem) ∧ st.gamma u = 0 := by
  obtain ⟨u, hu, hmin⟩ := list_exists_min rank (st.Sman ++ st.Srem) hne
  have hu' := List.mem_append.mp hu
  refine ⟨u, hu', ?_⟩
  have humem : u ∈ (scannedOps P st.sched ++ st.Sman) ++ st.Srem := by
    rcases hu' with h1 | h1
    · exact List.mem_append.mpr (Or.inl (List.mem_append.mpr (Or.inr h1)))
    · exact List.mem_append.mpr (Or.inr h1)
  have hur := List.mem_range'_1.mp (h.w2.mem_iff.mp humem)
  rw [h.w7 u hur.1 (by omega)]
  unfold pendCount
  have hfe : (P.predecessors u).filter
      (fun i => decide (i ∈ st.Sman) || decide (i ∈ st.Srem)) = [] := by
    rw [List.filter_eq_nil_iff]
    intro i hi hcon
    rw [Bool.or_eq_true] at hcon
    have hiU : i ∈ st.Sman ++ st.Srem := by
      rcases hcon with hc | hc
      · exact List.mem_append.mpr (Or.inl (of_decide_eq_true hc))
      · exact List.mem_append.mpr (Or.inr (of_decide_eq_true hc))
    have hle := hmin i hiU
    have hlt := hrank u i hi
    omega
  rw [hfe]
  rfl



theorem greedy_run (P : Problem) (hpw : ProblemWF P) (hm : 1 ≤ P.m)
    (rank : ℕ → ℕ) (hrank : ∀ j i, i ∈ P.predecessors j → rank i < rank j) :
    ∀ (fuel : ℕ) (st : GreedyState), GW P st → st.Sman.length < fuel →
      ∃ st', greedyLoopF P fuel st = some st' ∧ GW P st'
        ∧ st'.Sman = [] ∧ st'.Srem = [] := by
  intro fuel
  induction fuel with
  | zero => intro st _ h; omega
  | succ fuel ih =>
    intro st hGW hlen
    by_cases h0 : st.Sman.length + st.Srem.length = 0
    · refine ⟨st, ?_, hGW, ?_, ?_⟩
      · show (if st.Sman.length + st.Srem.length = 0 then some st else _) = some st
        rw [if_pos h0]
      · exact List.length_eq_zero.mp (by omega)
      · exact List.length_eq_zero.mp (by omega)
    · have hd := gw_drainRemoteF P hpw (st.Srem.length + 1) st hGW
      have hdGW : GW P (drainRemote P st) := hd.1
      have hdSman : (drainRemote P st).Sman = st.Sman := hd.2
      have hfix : ∀ j ∈ (drainRemote P st).Srem, (drainRemote P st).gamma j ≠ 0 :=
        drain_fix P (st.Srem.length + 1) st (by omega)
      have heq : greedyLoopF P (fuel + 1) st
          = (if (drainRemote P st).Sman.isEmpty then
              (if (drainRemote P st).Srem.isEmpty then some (drainRemote P st) else none)
            else match chooseManual P (drainRemote P st) with
              | none => none
              | some jl => greedyLoopF P fuel (applyManual P (drainRemote P st) jl.1 jl.2)) := by
        show (if st.Sman.length + st.Srem.length = 0 then some st else _) = _
        rw [if_neg h0]
      by_cases hme : (drainRemote P st).Sman.isEmpty = true
      · have hSmanNil : (drainRemote P st).Sman = [] := List.isEmpty_iff.mp hme
        by_cases hre : (drainRemote P st).Srem.isEmpty = true
        · refine ⟨drainRemote P st, ?_, hdGW, hSmanNil, List.isEmpty_iff.mp hre⟩
          rw [heq, if_pos hme, if_pos hre]
        · exfalso
          have hrne : (drainRemote P st).Srem ≠ [] :=
            fun hc => hre (by rw [List.isEmpty_iff]; exact hc)
          have hune : (drainRemote P st).Sman ++ (drainRemote P st).Srem ≠ [] := by
            intro hc
            rw [hSmanNil] at hc
            exact hrne hc
          obtain ⟨u, hu, hg0⟩ := exists_ready P rank hrank (drainRemote P st) hdGW hune
          rcases hu with hu | hu
          · rw [hSmanNil] at hu
            cases hu
          · exact hfix u hu hg0
      · have hSmanNe : (drainRemote P st).Sman ≠ [] :=
          fun hc => hme (by rw [List.isEmpty_iff]; exact hc)
        have hune : (drainRemote P st).Sman ++ (drainRemote P st).Srem ≠ [] := by
          intro hc
          rcases List.append_eq_nil.mp hc with ⟨h1, -⟩
          exact hSmanNe h1
        obtain ⟨u, hu, hg0⟩ := exists_ready P rank hrank (drainRemote P st) hdGW hune
        have huSman : u ∈ (drainRemote P st).Sman := by
          rcases hu with hu | hu
          · exact hu
          · exact absurd hg0 (hfix u hu)
        obtain ⟨jl, hcm⟩ := chooseManual_some P (drainRemote P st) hm ⟨u, huSman, hg0⟩
        have hsh := chooseManual_shape P (drainRemote P st) (by rw [hcm])
        have hGWa := gw_applyManual P hpw (drainRemote P st) jl.1 jl.2 hdGW
          hsh.1 hsh.2.1 hsh.2.2
        have hpos : 0 < st.Sman.length := by
          have : st.Sman ≠ [] := by
            rw [← hdSman]
            exact hSmanNe
          exact List.length_pos.mpr this
        have hlen2 : (applyManual P (drainRemote P st) jl.1 jl.2).Sman.length < fuel := by
          show ((drainRemote P st).Sman.erase jl.1).length < fuel
          rw [List.length_erase_of_mem hsh.1, hdSman]
          omega
        obtain ⟨st', hst', hGW', hS1, hS2⟩ :=
          ih (applyManual P (drainRemote P st) jl.1 jl.2) hGWa hlen2
        refine ⟨st', ?_, hGW', hS1, hS2⟩
        rw [heq, if_neg hme, hcm]
        exact hst'



theorem gw_init (P : Problem)
    (htech : ∀ i, 1 ≤ i → i ≤ P.n →
      P.technology i = Technology.MANUAL ∨ P.technology i = Technology.REMOTE)
    (hpr : ∀ j i, i ∈ P.predecessors j → 1 ≤ i ∧ i ≤ P.n) :
    GW P (initGreedy P) := by
  have hscan : scannedOps P (initGreedy P).sched = [] := by
    unfold scannedOps
    rw [List.flatten_eq_nil_iff]
    intro ln hln
    rcases List.mem_map.mp hln with ⟨l, -, rfl⟩
    exact laneOf_replicate_nil (P.m + 1) l
  constructor
  · show (List.replicate (P.m + 1) ([] : List ℕ)).length = P.m + 1
    simp
  · rw [hscan, List.nil_append]
    have hSm : (initGreedy P).Sman
        = (List.range' 1 P.n).filter
          (fun i => decide (P.technology i = Technology.MANUAL)) := rfl
    have hSr : (initGreedy P).Srem
        = (List.range' 1 P.n).filter
          (fun i => decide (P.technology i = Technology.REMOTE)) := rfl
    rw [List.perm_iff_count]
    intro a
    rw [List.count_append, hSm, hSr]
    by_cases ha : P.technology a = Technology.MANUAL
    · rw [List.count_filter (by exact decide_eq_true ha)]
      have h0 : ((List.range' 1 P.n).filter
          (fun i => decide (P.technology i = Technology.REMOTE))).count a = 0 := by
        rw [List.count_eq_zero]
        intro hc
        have := of_decide_eq_true (List.mem_filter.mp hc).2
        rw [ha] at this
        exact Technology.noConfusion this
      rw [h0]
      omega
    · by_cases hr : P.technology a = Technology.REMOTE
      · have h0 : ((List.range' 1 P.n).filter
            (fun i => decide (P.technology i = Technology.MANUAL))).count a = 0 := by
          rw [List.count_eq_zero]
          intro hc
          have hd := of_decide_eq_true (List.mem_filter.mp hc).2
          rw [hr] at hd
          exact Technology.noConfusion hd
        rw [h0, List.count_filter (by exact decide_eq_true hr)]
        omega
      · have hnr : a ∉ List.range' 1 P.n := by
          intro hc
          have hb := List.mem_range'_1.mp hc
          rcases htech a hb.1 (by omega) with h | h
          · exact ha h
          · exact hr h
        have h1 : ((List.range' 1 P.n).filter
            (fun i => decide (P.technology i = Technology.MANUAL))).count a = 0 := by
          rw [List.count_eq_zero]
          intro hc
          exact hnr (List.mem_filter.mp hc).1
        have h2 : ((List.range' 1 P.n).filter
            (fun i => decide (P.technology i = Technology.REMOTE))).count a = 0 := by
          rw [List.count_eq_zero]
          intro hc
          exact hnr (List.mem_filter.mp hc).1
        rw [h1, h2, List.count_eq_zero.mpr hnr]
  · intro x hx
    exact of_decide_eq_true (List.mem_filter.mp hx).2
  · intro x hx
    exact of_decide_eq_true (List.mem_filter.mp hx).2
  · intro x hx
    rw [show laneOf (initGreedy P).sched 0 = [] from laneOf_replicate_nil (P.m + 1) 0] at hx
    cases hx
  · intro l _ _ x hx
    rw [show laneOf (initGreedy P).sched l = [] from laneOf_replicate_nil (P.m + 1) l] at hx
    cases hx
  · intro j h1 h2
    show (if 1 ≤ j ∧ j ≤ P.n then ((P.predecessors j).length : Int) else 0) = _
    rw [if_pos ⟨h1, h2⟩]
    unfold pendCount
    have hfe : (P.predecessors j).filter
        (fun i => decide (i ∈ (initGreedy P).Sman) || decide (i ∈ (initGreedy P).Srem))
        = P.predecessors j := by
      rw [List.filter_eq_self]
      intro i hi
      have hir := hpr j i hi
      rw [Bool.or_eq_true]
      rcases htech i hir.1 hir.2 with h | h
      · left
        exact decide_eq_true (List.mem_filter.mpr
          ⟨List.mem_range'_1.mpr ⟨hir.1, by omega⟩, decide_eq_true h⟩)
      · right
        exact decide_eq_true (List.mem_filter.mpr
          ⟨List.mem_range'_1.mpr ⟨hir.1, by omega⟩, decide_eq_true h⟩)
    rw [hfe]

/-- C7: on a feasible instance — precedence lists well-formed and acyclic
(witnessed by a rank function), every switch Manual or Remote with
predecessors among the operations, nonnegative processing times, and at
least one team — `Greedy::solve` terminates with every operation scheduled
exactly once and its returned schedule passes `is_feasible`. -/
theorem C7_greedy_feasible (P : Problem)
    (hpw : ProblemWF P) (hm : 1 ≤ P.m) (hp0 : ∀ i, 0 ≤ P.p i)
    (htech : ∀ i, 1 ≤ i → i ≤ P.n →
      P.technology i = Technology.MANUAL ∨ P.technology i = Technology.REMOTE)
    (hpr : ∀ j i, i ∈ P.predecessors j → 1 ≤ i ∧ i ≤ P.n)
    (hrank : ∃ rank : ℕ → ℕ, ∀ j i, i ∈ P.predecessors j → rank i < rank j) :
    ∃ res : Schedule × ℚ, Greedy_solve P = some res
      ∧ res.1.flatten.Perm (List.range' 1 P.n)
      ∧ is_feasible P res.1 = true := by
  obtain ⟨rank, hrk⟩ := hrank
  have hGW0 := gw_init P htech hpr
  have hlen0 : (initGreedy P).Sman.length < P.n + 2 := by
    show ((List.range' 1 P.n).filter _).length < P.n + 2
    have hfl := List.length_filter_le
      (fun i => decide (P.technology i = Technology.MANUAL)) (List.range' 1 P.n)
    rw [List.length_range'] at hfl
    omega
  obtain ⟨st', hst', hGW', hS1, hS2⟩ :=
    greedy_run P hpw hm rank hrk (P.n + 2) (initGreedy P) hGW0 hlen0
  have hflat : st'.sched.flatten.Perm (List.range' 1 P.n) := by
    have h2 := hGW'.w2
    rw [hS1, hS2, List.append_nil, List.append_nil] at h2
    rw [← scannedOps_eq_flatten hGW'.w1]
    exact h2
  refine ⟨(st'.sched, st'.mkspan), ?_, hflat, ?_⟩
  · show (greedyLoopF P (P.n + 2) (initGreedy P)).map (fun st => (st.sched, st.mkspan)) = _
    rw [hst']
    rfl
  · unfold is_feasible
    rw [Bool.and_eq_true, Bool.and_eq_true, Bool.and_eq_true, Bool.and_eq_true,
      Bool.and_eq_true]
    refine ⟨⟨⟨⟨⟨?_, ?_⟩, ?_⟩, ?_⟩, ?_⟩, ?_⟩
    · exact decide_eq_true hGW'.w1
    · rw [List.all_eq_true]
      intro ln hln
      rw [List.all_eq_true]
      intro i hi
      have hmem : i ∈ st'.sched.flatten := List.mem_flatten.mpr ⟨ln, hln, hi⟩
      have hir := List.mem_range'_1.mp (hflat.mem_iff.mp hmem)
      rw [Bool.and_eq_true]
      exact ⟨decide_eq_true hir.1, decide_eq_true (by omega)⟩
    · rw [List.all_eq_true]
      intro i hi
      have hnd : st'.sched.flatten.Nodup := hflat.nodup_iff.mpr (List.nodup_range' ..)
      exact decide_eq_true (List.count_eq_one_of_mem hnd (hflat.mem_iff.mpr hi))
    · rw [List.all_eq_true]
      intro i hi
      exact decide_eq_true (hGW'.w5 i hi)
    · rw [List.all_eq_true]
      intro l hl
      rw [List.all_eq_true]
      intro i hi
      have hlr := List.mem_range'_1.mp hl
      exact decide_eq_true (hGW'.w6 l hlr.1 (by omega) i hi)
    · rw [List.all_eq_true]
      intro j hj
      rw [List.all_eq_true]
      intro i hi
      have hschedwf := schedWF_of_partition hGW'.w1 hflat
      have hinv := finalState_inv hpw hschedwf
      have hjr := List.mem_range'_1.mp hj
      rcases hrel : ReleasedB P st'.sched (finalState P st'.sched) j with _ | _
      · have htj : (finalState P st'.sched).t j = D.inf := by
          by_contra hc
          rcases (hinv.hrelax j).mp hc with h0 | hR
          · omega
          · rw [hrel] at hR
            cases hR
        have hfalse : lessD (start_time P st'.sched j) (start_time P st'.sched i)
            = false := by
          rw [start_time_eq_final, htj]
          exact lessD_inf_left _
        simp [hfalse]
      · have hpr2 := hinv.hprec j hrel i hi
        have hle : (finalState P st'.sched).t i ≤ (finalState P st'.sched).t j :=
          dle_trans (dle_add_fin_of_nonneg _ (hp0 i)) hpr2.2
        have hfalse : lessD (start_time P st'.sched j) (start_time P st'.sched i)
            = false := by
          rw [start_time_eq_final]
          exact lessD_eq_false_of_le hle
        simp [hfalse]

set_option maxRecDepth 100000 in
/-- C7 witness: the two-operation manual chain with one team is a feasible
instance; Greedy schedules both operations and the result passes
`is_feasible`. -/
theorem C7_greedy_feasible_witness :
    ∃ res : Schedule × ℚ, Greedy_solve Pmanual2 = some res
      ∧ res.1.flatten.Perm (List.range' 1 Pmanual2.n)
      ∧ is_feasible Pmanual2 res.1 = true :=
  C7_greedy_feasible Pmanual2 pmanual2_wf (le_refl 1)
    (fun _ => show (0 : ℚ) ≤ 1 by decide)
    (fun _ _ _ => Or.inl rfl)
    (fun j i hi => by
      have hi2 : i ∈ (if j = 2 then [1] else ([] : List ℕ)) := hi
      by_cases hj : j = 2
      · rw [if_pos hj] at hi2
        rw [List.mem_singleton.mp hi2]
        exact ⟨le_refl 1, by decide⟩
      · rw [if_neg hj] at hi2
        cases hi2)
    ⟨id, fun j i hi => by
      have hi2 : i ∈ (if j = 2 then [1] else ([] : List ℕ)) := hi
      by_cases hj : j = 2
      · rw [if_pos hj] at hi2
        rw [List.mem_singleton.mp hi2, hj]
        decide
      · rw [if_neg hj] at hi2
        cases hi2⟩


end ORCS
